import Mathlib

/-!
# Verification of the `hclust` agglomerative hierarchical clustering library

Shallow embedding of `hclust/hclust.py`.  Python floats are modelled as
rationals (`ℚ`), Python dicts as association lists kept in insertion order,
and the two unbounded `while` loops (`HClust.__init__` and
`HClust.n_clusters`) as fuel-indexed recursions, with the fuel chosen at the
call site to dominate the loop's decreasing measure.

A Python `Node` is hashed and compared by the projection `(id, depth)`
(`Node.__key`).  All container operations on nodes (`in`, `list.remove`,
dict keys) go through that projection, so the working matrix stores node
keys, and the permanent `clusters` list stores full node records whose
`parent`/`children` references are node keys; dereferencing a key scans the
`clusters` list exactly as `_cluster_parent` does in the source.

Places where the Python code would raise an uncaught exception (e.g.
`None * 0.5` when a distance lookup misses, or `lowest.children` when no
merge candidate was found) are modelled by a harmless total default; each
such spot is marked with a comment, and the invariants proved below show
they are unreachable for matrices produced by the documented input format.
The single accessor that raises unconditionally — `_get_trunk`, which reads
`.id` off the uncalled bound method `self._trunk` — is embedded as the
constant `none`, with the spec's intended value kept separately as
`trunkSpec`.
-/

/-- The `__key` projection of a Python `Node`: the member tuple and the depth.
`Node.__eq__` and `Node.__hash__` use exactly this pair. -/
structure NodeKey where
  id : List String
  depth : ℚ
deriving DecidableEq

/-- A node of the dendrogram (`class Node` in the source): member tuple,
depth, an optional parent reference and optional pair of children references.
References are node keys, matching the source's key-based node equality. -/
structure Node where
  id : List String
  depth : ℚ
  parent : Option NodeKey := none
  children : Option (NodeKey × NodeKey) := none
deriving DecidableEq

/-- The key of a node record. -/
def Node.key (n : Node) : NodeKey := ⟨n.id, n.depth⟩

/-- `class DistanceMatrix`: the observation list `obs` and the nested
distance mapping `distances`, generic over the key type because `to_nodes`
replaces string keys by singleton node keys in place. -/
structure DistanceMatrix (α : Type) where
  obs : List α
  distances : List (α × List (α × ℚ))

/-- `DistanceMatrix.distance`: return the distance between two entries,
checking both storage orientations, or `None` when absent. -/
def DistanceMatrix.distance [DecidableEq α] (m : DistanceMatrix α) (a b : α) : Option ℚ :=
  match (m.distances.find? (fun r => decide (r.1 = a))).bind
      (fun r => (r.2.find? (fun e => decide (e.1 = b))).map (·.2)) with
  | some d => some d
  | none =>
    (m.distances.find? (fun r => decide (r.1 = b))).bind
      (fun r => (r.2.find? (fun e => decide (e.1 = a))).map (·.2))

/-- The scan of `DistanceMatrix.closest`: fold over all rows and row entries,
keeping `(current_closest, current_a, current_b)`, updated whenever
`current_closest is None or dist < current_closest`. -/
def closestScan (rows : List (α × List (α × ℚ))) : Option ℚ × Option α × Option α :=
  rows.foldl (fun acc r =>
    r.2.foldl (fun acc2 e =>
      match acc2.1 with
      | none => (some e.2, some r.1, some e.1)
      | some cc => if e.2 < cc then (some e.2, some r.1, some e.1) else acc2) acc)
    (none, none, none)

/-- `DistanceMatrix.closest`: `None` when fewer than two observations remain,
otherwise the pair `(current_a, current_b)` left by the scan (each component
is itself optional: the source returns `(None, None)` when the mapping is
empty, which makes the caller `_merge` raise). -/
def DistanceMatrix.closest (m : DistanceMatrix α) : Option (Option α × Option α) :=
  if m.obs.length < 2 then none
  else some (closestScan m.distances).2

/-- `DistanceMatrix.to_nodes`: turn every member into a singleton leaf node
(key) of depth 0, copying the distance values unchanged. -/
def DistanceMatrix.to_nodes (m : DistanceMatrix String) : DistanceMatrix NodeKey :=
  { obs := m.obs.map (fun o => ⟨[o], 0⟩),
    distances := m.distances.map
      (fun r => (⟨[r.1], 0⟩, r.2.map (fun e => (⟨[e.1], 0⟩, e.2)))) }

/-- `DistanceMatrix.n_nodes` (property backing `_get_n_nodes`): one more than
the number of rows of the distance mapping. -/
def DistanceMatrix.n_nodes (m : DistanceMatrix α) : Nat :=
  m.distances.length + 1

/-- The linkage criterion (`'average' | 'max' | 'min'`).  An unrecognized
string makes the source raise `ValueError` at the first linkage computation;
the inductive captures exactly the non-raising domain. -/
inductive Criterion where
  | average
  | max
  | min
deriving DecidableEq

/-- The value the source reads as `self.dist_matrix.distance(obs_a, obs_b)`
inside `_linkage`; a missing pair would make Python raise (`None` used in
arithmetic), modelled by the default 0. -/
def dval (dm : DistanceMatrix String) (p q : String) : ℚ :=
  (dm.distance p q).getD 0

/-- `HClust._linkage` on the member tuples of the two clusters: cross-product
mean / maximum (seeded with `0`) / minimum (seeded with `sys.maxint`),
always reading the original immutable matrix. -/
def linkage (dm : DistanceMatrix String) (crit : Criterion) (aid bid : List String) : ℚ :=
  match crit with
  | .average =>
    let acc := aid.foldl (fun acc1 p =>
      bid.foldl (fun acc2 q => (acc2.1 + dval dm p q, acc2.2 + 1)) acc1) ((0 : ℚ), (0 : Nat))
    acc.1 / (acc.2 : ℚ)
  | .max =>
    aid.foldl (fun m p =>
      bid.foldl (fun m2 q => if dval dm p q > m2 then dval dm p q else m2) m) 0
  | .min =>
    aid.foldl (fun m p =>
      bid.foldl (fun m2 q => if dval dm p q < m2 then dval dm p q else m2) m)
      (9223372036854775807 : ℚ)

/-- `HClust._cluster_parent`: find every node of `clusters` equal (by key) to
`child` and assign it `parent`. -/
def cluster_parent (cs : List Node) (child : NodeKey) (parent : NodeKey) : List Node :=
  cs.map (fun n => if n.key = child then { n with parent := some parent } else n)

/-- The state of a builder (`class HClust`): the immutable input matrix, the
criterion, the disposable working matrix and the permanent cluster list. -/
structure HClust where
  dist_matrix : DistanceMatrix String
  linkage_criterion : Criterion
  working_matrix : DistanceMatrix NodeKey
  clusters : List Node

/-- `HClust._merge`: create the cluster `c` of the two closest nodes at half
their working distance, back-fill parent links, splice `a`, `b` out of the
working matrix and record the linkage distances to `c`. -/
def HClust.merge (h : HClust) (a b : NodeKey) : HClust :=
  -- a missing working distance would make the source raise in `Node(...)`
  let d := (h.working_matrix.distance a b).getD 0
  let c : NodeKey := ⟨a.id ++ b.id, d * (1 / 2)⟩
  let cs1 := cluster_parent (cluster_parent h.clusters a c) b c
  let obs1 := (h.working_matrix.obs.erase a).erase b
  let cs2 := cs1 ++ [{ id := c.id, depth := c.depth, parent := none, children := some (a, b) }]
  let ds1 := h.working_matrix.distances.filter (fun r => ¬(r.1 = a ∨ r.1 = b))
  let ds2 := ds1.map (fun r => (r.1, r.2.filter (fun e => ¬(e.1 = a ∨ e.1 = b))))
  let added := ds2.map (·.1)
  let ds3 := ds2.map (fun r =>
    (r.1, r.2 ++ [(c, linkage h.dist_matrix h.linkage_criterion r.1.id c.id)]))
  let crow := (obs1.filter (fun x => ¬ x ∈ added)).map
    (fun x => (x, linkage h.dist_matrix h.linkage_criterion x.id c.id))
  let ds4 := if crow.isEmpty then ds3 else ds3 ++ [(c, crow)]
  { h with working_matrix := { obs := obs1 ++ [c], distances := ds4 },
           clusters := cs2 }

/-- The `while True` merge loop of `HClust.__init__`, with enough fuel to
reach the state where `closest` returns `None`.  The source raises when
`closest` returns `(None, None)` (empty mapping with two or more
observations left); that branch leaves the state unchanged and is proved
unreachable for well-formed inputs. -/
def buildLoop : Nat → HClust → HClust
  | 0, h => h
  | fuel + 1, h =>
    match h.working_matrix.closest with
    | none => h
    | some (some a, some b) => buildLoop fuel (h.merge a b)
    | some _ => h

/-- `HClust.__init__`: seed the working matrix and the cluster list from the
input matrix and run the merge loop to completion. -/
def build (dm : DistanceMatrix String) (crit : Criterion) : HClust :=
  let wm := dm.to_nodes
  buildLoop dm.obs.length
    { dist_matrix := dm, linkage_criterion := crit, working_matrix := wm,
      clusters := wm.obs.map (fun k => { id := k.id, depth := k.depth }) }

/-- `HClust._leaves`: the cluster records without children. -/
def HClust.leavesRecs (h : HClust) : List Node :=
  h.clusters.filter (fun c => c.children = none)

/-- `HClust.leaves` (property `_get_leaves`): their member tuples. -/
def HClust.leaves (h : HClust) : List (List String) :=
  h.leavesRecs.map Node.id

/-- `HClust.trunk` (property `_get_trunk`): the source evaluates
`self._trunk.id`, reading the attribute `id` off the *uncalled* bound method
`self._trunk`, which raises `AttributeError` on every state; the failure is
modelled as `none`. -/
def HClust.trunk (_ : HClust) : Option (List String) := none

/-- The value the specification says the trunk accessor exposes — the member
tuple of `clusters[-1]`, i.e. what `self._trunk().id` would compute.  Stated
from the spec's words, to be compared with the accessor embedded from the
source. -/
def trunkSpec (h : HClust) : Option (List String) :=
  h.clusters.getLast?.map Node.id

/-- The parent-chasing loop of `HClust.cut`: climb while a parent exists and
its depth does not exceed `n`.  Parent references are dereferenced against
the cluster list (the source follows object pointers; key lookup agrees
because keys are unique).  Fuel bounds the chain length. -/
def walkUp (cs : List Node) (n : ℚ) : Nat → Node → Node
  | 0, node => node
  | fuel + 1, node =>
    match node.parent with
    | none => node
    | some pk =>
      if pk.depth ≤ n then
        match cs.find? (fun r => decide (r.key = pk)) with
        | some p => walkUp cs n fuel p
        | none => node
      else node

/-- `HClust.cut`: `None` for negative `n`; otherwise walk every leaf up to
its stopping node and collect the distinct stopping nodes' member tuples. -/
def HClust.cut (h : HClust) (n : ℚ) : Option (List (List String)) :=
  if n < 0 then none
  else
    let stops := h.leavesRecs.foldl (fun ret l =>
      let node := walkUp h.clusters n h.clusters.length l
      if ret.any (fun r => decide (r.key = node.key)) then ret else ret ++ [node]) []
    some (stops.map Node.id)

/-- The candidate scan of `HClust.n_clusters`: among the members of `ret`
whose parent has both children in `ret`, keep the parent of least depth.
A member without a parent would make the source raise
(`None.children`); it is skipped here and proved impossible while the
loop is running. -/
def findLowest (cs ret : List Node) : Option Node :=
  ret.foldl (fun lowest node =>
    match node.parent with
    | none => lowest
    | some pk =>
      match cs.find? (fun r => decide (r.key = pk)) with
      | none => lowest
      | some p =>
        match p.children with
        | none => lowest
        | some (k1, k2) =>
          if ret.any (fun r => decide (r.key = k1)) ∧ ret.any (fun r => decide (r.key = k2)) then
            match lowest with
            | none => some p
            | some lo => if p.depth < lo.depth then some p else lowest
          else lowest) none

/-- The `while len(ret) > n` loop of `HClust.n_clusters`: replace the two
children of the lowest eligible parent by that parent.  When no candidate is
found the source raises (`None.children`); the state is then returned
unchanged, a branch proved unreachable. -/
def nClustersLoop (cs : List Node) : Nat → Int → List Node → List Node
  | 0, _, ret => ret
  | fuel + 1, n, ret =>
    if (ret.length : Int) > n then
      match findLowest cs ret with
      | none => ret
      | some lo =>
        match lo.children with
        | none => ret
        | some (k1, k2) =>
          nClustersLoop cs fuel n
            (((ret.eraseP (fun r => decide (r.key = k1))).eraseP
                (fun r => decide (r.key = k2))) ++ [lo])
    else ret

/-- `HClust.n_clusters`: `None` for non-positive `n`, otherwise collapse the
open clusters starting from all leaves until at most `n` remain. -/
def HClust.n_clusters (h : HClust) (n : Int) : Option (List (List String)) :=
  if n ≤ 0 then none
  else some ((nClustersLoop h.clusters h.clusters.length n h.leavesRecs).map Node.id)

/-- All recorded `(row key, entry key, value)` triples of a distance
mapping. -/
def pairsOf (m : DistanceMatrix α) : List (α × α × ℚ) :=
  m.distances.flatMap (fun r => r.2.map (fun e => (r.1, e.1, e.2)))

/-- A well-formed input matrix, as produced by the `DistanceMatrix`
constructor from the documented lower-triangular tab-delimited format:
distinct observations; one row per observation except the first, in input
order; row `i` holding exactly the distances to the `i` earlier
observations; and the values inside the envelope the format promises
(finite, non-negative, below the `sys.maxint` sentinel of `_linkage`). -/
def WFdm (m : DistanceMatrix String) : Prop :=
  m.obs.Nodup ∧
  m.distances.map Prod.fst = m.obs.drop 1 ∧
  (∀ i (hi : i < m.distances.length),
    (m.distances.get ⟨i, hi⟩).2.map Prod.fst = m.obs.take (i + 1)) ∧
  (∀ r ∈ m.distances, ∀ e ∈ r.2, 0 ≤ e.2 ∧ e.2 ≤ 9223372036854775807)

instance (m : DistanceMatrix String) : Decidable (WFdm m) := by
  unfold WFdm; infer_instance

/-- One storage-orientation lookup, as performed by the first half of
`DistanceMatrix.distance`. -/
def lookup2 [DecidableEq α] (m : DistanceMatrix α) (a b : α) : Option ℚ :=
  (m.distances.find? (fun r => decide (r.1 = a))).bind
    (fun r => (r.2.find? (fun e => decide (e.1 = b))).map (·.2))

/-- One step of the `closest` scan, on a recorded triple. -/
def scanStep (acc : Option ℚ × Option α × Option α) (t : α × α × ℚ) :
    Option ℚ × Option α × Option α :=
  match acc.1 with
  | none => (some t.2.2, some t.1, some t.2.1)
  | some cc => if t.2.2 < cc then (some t.2.2, some t.1, some t.2.1) else acc

/-- Shape facts shared by the input matrix and the working matrix: rows have
distinct keys, each row has distinct entry keys, and each unordered pair is
recorded in at most one orientation. -/
structure MatrixShape (m : DistanceMatrix α) : Prop where
  rows_nodup : (m.distances.map Prod.fst).Nodup
  inner_nodup : ∀ r ∈ m.distances, (r.2.map Prod.fst).Nodup
  uniq : ∀ x y, (∃ d, (x, y, d) ∈ pairsOf m) → ¬ ∃ d, (y, x, d) ∈ pairsOf m

/-- The lower-triangular example matrix from the `DistanceMatrix` docstring,
with every distance doubled so that all values are integral (rational
literals with denominators do not reduce well under kernel evaluation). -/
def exampleDM : DistanceMatrix String :=
  { obs := ["id1", "id2", "id3", "id4"],
    distances := [("id2", [("id1", 4)]),
                  ("id3", [("id1", 3), ("id2", 6)]),
                  ("id4", [("id1", 5), ("id2", 2), ("id3", 9)])] }

/-- A two-observation matrix. -/
def smallDM : DistanceMatrix String :=
  { obs := ["a", "b"], distances := [("b", [("a", 2)])] }

/-- The matrix of zero observations (built from an empty input). -/
def emptyDM : DistanceMatrix String :=
  { obs := [], distances := [] }

/-- The list of original-matrix distances over the cross product of two
member tuples, in the traversal order of `_linkage`. -/
def crossVals (dm : DistanceMatrix String) (aid bid : List String) : List ℚ :=
  aid.flatMap (fun p => bid.map (fun q => dval dm p q))

/-- Membership of an oriented pair among the recorded triples. -/
def pairMem (m : DistanceMatrix α) (x y : α) : Prop :=
  ∃ d, (x, y, d) ∈ pairsOf m

/-- Invariant of the working matrix during the merge loop: shape facts,
every unordered pair of remaining observations recorded in exactly one
orientation, every recorded value equal to the `_linkage` distance of its
endpoints on the original matrix and at least twice either endpoint's
depth, and the members of the remaining observations partitioning the
original observation set. -/
structure WInv (dm : DistanceMatrix String) (crit : Criterion)
    (w : DistanceMatrix NodeKey) : Prop where
  shape : MatrixShape w
  obs_nodup : w.obs.Nodup
  rows_mem : ∀ r ∈ w.distances, r.1 ∈ w.obs
  pairs_mem : ∀ t ∈ pairsOf w, t.1 ∈ w.obs ∧ t.2.1 ∈ w.obs ∧ t.1 ≠ t.2.1
  pairs_exist : ∀ x ∈ w.obs, ∀ y ∈ w.obs, x ≠ y → pairMem w x y ∨ pairMem w y x
  pairs_val : ∀ t ∈ pairsOf w, t.2.2 = linkage dm crit t.1.id t.2.1.id
  pairs_lb : ∀ t ∈ pairsOf w, 2 * t.1.depth ≤ t.2.2 ∧ 2 * t.2.1.depth ≤ t.2.2
  ids_ne : ∀ k ∈ w.obs, k.id ≠ []
  join_perm : ((w.obs.map NodeKey.id).flatten).Perm dm.obs

/-- How `HClust.__init__` evolves the permanent cluster list: it starts as
the leaf records, and each merge assigns the new cluster as parent of the two
merged keys (via `_cluster_parent`) and appends the new record; `opens`
tracks the keys of the nodes still in the working observation list.  The two
depth inequalities record that a merge happens at a height no smaller than
the heights of the nodes being merged (a consequence of the closest-pair
selection proved in `merge_preserves`). -/
inductive Built (allObs : List String) : List Node → List NodeKey → Prop where
  | init : Built allObs (allObs.map fun o => { id := [o], depth := 0 })
      (allObs.map fun o => ⟨[o], 0⟩)
  | step : ∀ L opens (a b : NodeKey) (h : ℚ),
      Built allObs L opens → a ∈ opens → b ∈ opens → a ≠ b →
      a.depth ≤ h → b.depth ≤ h →
      Built allObs
        (cluster_parent (cluster_parent L a ⟨a.id ++ b.id, h⟩) b ⟨a.id ++ b.id, h⟩
          ++ [{ id := a.id ++ b.id, depth := h, parent := none,
                children := some (a, b) }])
        ((opens.erase a).erase b ++ [⟨a.id ++ b.id, h⟩])

/-- Heights recorded on the cluster list: 0 for leaves, half the linkage
distance of the two children for internal nodes. -/
def DepthSpec (dm : DistanceMatrix String) (crit : Criterion) (L : List Node) : Prop :=
  ∀ nd ∈ L, (nd.children = none → nd.depth = 0) ∧
    (∀ k1 k2, nd.children = some (k1, k2) →
      nd.depth = linkage dm crit k1.id k2.id * (1 / 2))

/-- The loop invariant of the builder. -/
structure LoopInv (dm : DistanceMatrix String) (crit : Criterion) (st : HClust) : Prop where
  dmEq : st.dist_matrix = dm
  critEq : st.linkage_criterion = crit
  winv : WInv dm crit st.working_matrix
  built : Built dm.obs st.clusters st.working_matrix.obs
  depths : DepthSpec dm crit st.clusters

/-- All recorded triples of a row list (`pairsOf` without the matrix). -/
def pairsOfRows (rows : List (α × List (α × ℚ))) : List (α × α × ℚ) :=
  rows.flatMap (fun r => r.2.map (fun e => (r.1, e.1, e.2)))

/-- The rows left by `_merge` after deleting the rows of `a` and `b` and the
entries for `a` and `b` nested under other rows. -/
def prunedRows (w : DistanceMatrix NodeKey) (a b : NodeKey) :
    List (NodeKey × List (NodeKey × ℚ)) :=
  (w.distances.filter (fun r => ¬(r.1 = a ∨ r.1 = b))).map
    (fun r => (r.1, r.2.filter (fun e => ¬(e.1 = a ∨ e.1 = b))))

/-- The row keys receiving a nested distance to the new cluster (`added` in
the source). -/
def addedKeys (w : DistanceMatrix NodeKey) (a b : NodeKey) : List NodeKey :=
  (prunedRows w a b).map Prod.fst

/-- The row recorded for the new cluster: distances to the remaining
observations that have no row of their own. -/
def newRow (dm : DistanceMatrix String) (crit : Criterion)
    (w : DistanceMatrix NodeKey) (a b c : NodeKey) : List (NodeKey × ℚ) :=
  (((w.obs.erase a).erase b).filter (fun x => ¬ x ∈ addedKeys w a b)).map
    (fun x => (x, linkage dm crit x.id c.id))

/-- The working matrix produced by `_merge` (the matrix half of
`HClust.merge`, split out so that its properties can be stated on matrices
alone; `merge_eq` proves it is exactly what `HClust.merge` computes). -/
def wmergeMatrix (dm : DistanceMatrix String) (crit : Criterion)
    (w : DistanceMatrix NodeKey) (a b c : NodeKey) : DistanceMatrix NodeKey :=
  { obs := ((w.obs.erase a).erase b) ++ [c],
    distances :=
      if (newRow dm crit w a b c).isEmpty then
        (prunedRows w a b).map
          (fun r => (r.1, r.2 ++ [(c, linkage dm crit r.1.id c.id)]))
      else
        ((prunedRows w a b).map
          (fun r => (r.1, r.2 ++ [(c, linkage dm crit r.1.id c.id)])))
          ++ [(c, newRow dm crit w a b c)] }

/-- The cluster list produced by `_merge`. -/
def cmergeClusters (cs : List Node) (a b c : NodeKey) : List Node :=
  cluster_parent (cluster_parent cs a c) b c
    ++ [{ id := c.id, depth := c.depth, parent := none, children := some (a, b) }]

/-- Ancestor relation on the cluster list: follow `parent` references,
resolving each against the list by key (as the source resolves them by node
equality). -/
inductive Anc (L : List Node) : Node → Node → Prop where
  | refl (nd : Node) : Anc L nd nd
  | step {nd p v : Node} {pk : NodeKey} :
      nd.parent = some pk → p ∈ L → p.key = pk → Anc L p v → Anc L nd v

/-- Structural invariant of the cluster list seen as a forest: keys identify
records uniquely, the parentless records are exactly the open clusters,
members of distinct nodes are nested or disjoint, set containment follows the
ancestor chain, parents sit later in the list at no smaller depth, children
carry back-references and concatenate to their parent's members, and the
leaf rows are the original observations in order. -/
structure ForestInv (allObs : List String) (L : List Node)
    (opens : List NodeKey) : Prop where
  keys_nodup : (L.map Node.key).Nodup
  opens_eq : opens = (L.filter (fun nd => nd.parent = none)).map Node.key
  join_perm : ((opens.map NodeKey.id).flatten).Perm allObs
  ids_ne : ∀ nd ∈ L, nd.id ≠ []
  ids_nodup : ∀ nd ∈ L, nd.id.Nodup
  ids_sub : ∀ nd ∈ L, ∀ o ∈ nd.id, o ∈ allObs
  covered : ∀ nd ∈ L, ∃ k ∈ opens, ∀ o ∈ nd.id, o ∈ k.id
  nested : ∀ u ∈ L, ∀ v ∈ L, ∀ o, o ∈ u.id → o ∈ v.id →
    (∀ p ∈ u.id, p ∈ v.id) ∨ (∀ p ∈ v.id, p ∈ u.id)
  sub_eq : ∀ u ∈ L, ∀ v ∈ L, (∀ o ∈ u.id, o ∈ v.id) → (∀ o ∈ v.id, o ∈ u.id) → u = v
  anc_of_sub : ∀ u ∈ L, ∀ v ∈ L, (∀ o ∈ u.id, o ∈ v.id) → Anc L u v
  parent_spec : ∀ nd ∈ L, ∀ pk, nd.parent = some pk → ∃ p, p ∈ L ∧ p.key = pk ∧
    nd.depth ≤ p.depth ∧ ∃ k1 k2, p.children = some (k1, k2) ∧
    (nd.key = k1 ∨ nd.key = k2)
  parent_idx : ∀ (i : Nat) (hi : i < L.length) (pk : NodeKey),
    (L.get ⟨i, hi⟩).parent = some pk →
    ∃ (j : Nat) (hj : j < L.length), i < j ∧ (L.get ⟨j, hj⟩).key = pk
  children_spec : ∀ nd ∈ L, ∀ k1 k2, nd.children = some (k1, k2) →
    k1 ≠ k2 ∧ nd.id = k1.id ++ k2.id ∧
    (∃ r1, r1 ∈ L ∧ r1.key = k1 ∧ r1.parent = some nd.key) ∧
    (∃ r2, r2 ∈ L ∧ r2.key = k2 ∧ r2.parent = some nd.key)
  leaf_depth : ∀ nd ∈ L, nd.children = none → nd.depth = 0
  leaves_eq : (L.filter (fun nd => nd.children = none)).map Node.id
    = allObs.map (fun o => [o])

/-- The parent assignment applied to one record by the two
`_cluster_parent` calls of a merge of `a` and `b` into `c`. -/
def mergeImg (a b c : NodeKey) (u : Node) : Node :=
  if u.key = a ∨ u.key = b then { u with parent := some c } else u

/-- Invariant of the `ret` list inside the `while len(ret) > n` loop of
`n_clusters`: records drawn from the cluster list, with distinct keys,
pairwise disjoint member tuples that together still cover every
observation. -/
structure RInv (allObs : List String) (L : List Node) (ret : List Node) : Prop where
  sub : ∀ s ∈ ret, s ∈ L
  keys_nodup : (ret.map Node.key).Nodup
  cover : ∀ o ∈ allObs, ∃ s ∈ ret, o ∈ s.id
  disj : ∀ s ∈ ret, ∀ t ∈ ret, s ≠ t → ∀ o ∈ s.id, o ∉ t.id

/-! ## Theorems -/

/-! ## Generic association-list facts -/

/-- Membership in the recorded triples of a matrix. -/
theorem mem_pairsOf {m : DistanceMatrix α} {x y : α} {d : ℚ} :
    (x, y, d) ∈ pairsOf m ↔ ∃ r ∈ m.distances, r.1 = x ∧ (y, d) ∈ r.2 := by
  unfold pairsOf
  simp only [List.mem_flatMap, List.mem_map]
  constructor
  · rintro ⟨r, hr, e, he, heq⟩
    refine ⟨r, hr, ?_, ?_⟩
    · exact congrArg Prod.fst heq
    · have h2 : e = (y, d) := by
        have := congrArg Prod.snd heq
        simpa using this
      exact h2 ▸ he
  · rintro ⟨r, hr, hx, hy⟩
    exact ⟨r, hr, (y, d), hy, by simp [hx]⟩

theorem distance_eq_match [DecidableEq α] (m : DistanceMatrix α) (a b : α) :
    m.distance a b = match lookup2 m a b with
      | some d => some d
      | none => lookup2 m b a := rfl

theorem lookup2_eq_some_iff [DecidableEq α] {m : DistanceMatrix α} (hs : MatrixShape m)
    {a b : α} {d : ℚ} :
    lookup2 m a b = some d ↔ (a, b, d) ∈ pairsOf m := by
  unfold lookup2
  constructor
  · intro h
    rw [Option.bind_eq_some] at h
    obtain ⟨r, hr, h2⟩ := h
    have hrmem := List.mem_of_find?_eq_some hr
    have hra : r.1 = a := by simpa using List.find?_some hr
    rw [Option.map_eq_some'] at h2
    obtain ⟨e, he, hed⟩ := h2
    have hemem := List.mem_of_find?_eq_some he
    have heb : e.1 = b := by simpa using List.find?_some he
    refine mem_pairsOf.2 ⟨r, hrmem, hra, ?_⟩
    have : e = (b, d) := by
      cases e; simp_all
    exact this ▸ hemem
  · intro h
    obtain ⟨r, hrmem, hra, hbd⟩ := mem_pairsOf.1 h
    cases hfind : m.distances.find? (fun r => decide (r.1 = a)) with
    | none =>
      rw [List.find?_eq_none] at hfind
      exact absurd (by simpa using hra) (by simpa using hfind r hrmem)
    | some r0 =>
      have hr0mem := List.mem_of_find?_eq_some hfind
      have hr0a : r0.1 = a := by simpa using List.find?_some hfind
      have hr0 : r0 = r :=
        List.inj_on_of_nodup_map hs.rows_nodup hr0mem hrmem (hr0a.trans hra.symm)
      subst hr0
      cases hfind2 : r0.2.find? (fun e => decide (e.1 = b)) with
      | none =>
        rw [List.find?_eq_none] at hfind2
        exact absurd (by simp : ((b, d) : α × ℚ).1 = b) (by simpa using hfind2 _ hbd)
      | some e0 =>
        have he0mem := List.mem_of_find?_eq_some hfind2
        have he0b : e0.1 = b := by simpa using List.find?_some hfind2
        have he0 : e0 = (b, d) :=
          List.inj_on_of_nodup_map (hs.inner_nodup r0 hrmem) he0mem hbd (by simpa using he0b)
        subst he0
        simp [hfind2]

theorem distance_eq_some_of_pair [DecidableEq α] {m : DistanceMatrix α} (hs : MatrixShape m)
    {x y : α} {d : ℚ} (h : (x, y, d) ∈ pairsOf m) :
    m.distance x y = some d ∧ m.distance y x = some d := by
  have h1 : lookup2 m x y = some d := (lookup2_eq_some_iff hs).2 h
  have h2 : lookup2 m y x = none := by
    cases hc : lookup2 m y x with
    | none => rfl
    | some e =>
      exact absurd ⟨e, (lookup2_eq_some_iff hs).1 hc⟩ (hs.uniq x y ⟨d, h⟩)
  constructor
  · rw [distance_eq_match, h1]
  · rw [distance_eq_match, h2, h1]

theorem distance_comm [DecidableEq α] {m : DistanceMatrix α} (hs : MatrixShape m) (a b : α) :
    m.distance a b = m.distance b a := by
  rw [distance_eq_match, distance_eq_match]
  cases h1 : lookup2 m a b with
  | some d =>
    have h2 : lookup2 m b a = none := by
      cases hc : lookup2 m b a with
      | none => rfl
      | some e =>
        exact absurd ⟨e, (lookup2_eq_some_iff hs).1 hc⟩
          (hs.uniq a b ⟨d, (lookup2_eq_some_iff hs).1 h1⟩)
    simp [h2]
  | none =>
    cases h2 : lookup2 m b a <;> simp

/-! ## Facts about well-formed input matrices -/

theorem wf_pair_idx {m : DistanceMatrix String} (hwf : WFdm m) {x y : String} {d : ℚ}
    (h : (x, y, d) ∈ pairsOf m) :
    ∃ (i j : Nat) (hi : i < m.obs.length) (hj : j < m.obs.length),
      j < i ∧ m.obs.get ⟨i, hi⟩ = x ∧ m.obs.get ⟨j, hj⟩ = y := by
  obtain ⟨r, hr, hx, hyd⟩ := mem_pairsOf.1 h
  obtain ⟨⟨k, hk⟩, hget⟩ := List.mem_iff_get.1 hr
  have hlen : m.distances.length = m.obs.length - 1 := by
    have h1 : (m.distances.map Prod.fst).length = (m.obs.drop 1).length := by
      rw [hwf.2.1]
    simpa using h1
  have hk1 : k + 1 < m.obs.length := by omega
  have hx1 : m.obs.get ⟨k + 1, hk1⟩ = x := by
    have hklen : k < (m.distances.map Prod.fst).length := by simpa using hk
    have h1 := List.get_of_eq hwf.2.1 ⟨k, hklen⟩
    simp only [List.get_eq_getElem] at h1
    rw [List.getElem_map, List.getElem_drop] at h1
    have h2 : m.distances[k] = r := by simpa using hget
    rw [h2, hx] at h1
    simpa [Nat.add_comm, List.get_eq_getElem] using h1.symm
  have hy1 : y ∈ m.obs.take (k + 1) := by
    have h3 := hwf.2.2.1 k hk
    have : y ∈ r.2.map Prod.fst := List.mem_map.2 ⟨(y, d), hyd, rfl⟩
    rw [show r = m.distances.get ⟨k, hk⟩ from hget.symm] at this
    rwa [h3] at this
  rw [List.mem_take_iff_getElem] at hy1
  obtain ⟨j, hj, hjy⟩ := hy1
  have hjlen : j < m.obs.length := by
    have := hj; omega
  exact ⟨k + 1, j, hk1, hjlen, by omega, hx1, by simpa [List.get_eq_getElem] using hjy⟩

theorem wf_shape {m : DistanceMatrix String} (hwf : WFdm m) : MatrixShape m := by
  refine ⟨?_, ?_, ?_⟩
  · rw [hwf.2.1]
    exact List.Nodup.sublist (List.drop_sublist 1 m.obs) hwf.1
  · intro r hr
    obtain ⟨⟨k, hk⟩, hget⟩ := List.mem_iff_get.1 hr
    have h3 := hwf.2.2.1 k hk
    rw [show r = m.distances.get ⟨k, hk⟩ from hget.symm, h3]
    exact List.Nodup.sublist (List.take_sublist (k + 1) m.obs) hwf.1
  · rintro x y ⟨d, hxy⟩ ⟨e, hyx⟩
    obtain ⟨i, j, hi, hj, hji, hxi, hyj⟩ := wf_pair_idx hwf hxy
    obtain ⟨i2, j2, hi2, hj2, hji2, hyi2, hxj2⟩ := wf_pair_idx hwf hyx
    have e1 : (⟨i, hi⟩ : Fin m.obs.length) = ⟨j2, hj2⟩ :=
      (hwf.1.get_inj_iff).1 (hxi.trans hxj2.symm)
    have e2 : (⟨j, hj⟩ : Fin m.obs.length) = ⟨i2, hi2⟩ :=
      (hwf.1.get_inj_iff).1 (hyj.trans hyi2.symm)
    have : i = j2 := by simpa using e1
    have : j = i2 := by simpa using e2
    omega

theorem wf_pairs_mem {m : DistanceMatrix String} (hwf : WFdm m) {x y : String} {d : ℚ}
    (h : (x, y, d) ∈ pairsOf m) : x ∈ m.obs ∧ y ∈ m.obs ∧ x ≠ y := by
  obtain ⟨i, j, hi, hj, hji, hxi, hyj⟩ := wf_pair_idx hwf h
  refine ⟨hxi ▸ m.obs.get_mem _ _, hyj ▸ m.obs.get_mem _ _, ?_⟩
  intro hxy
  have : (⟨i, hi⟩ : Fin m.obs.length) = ⟨j, hj⟩ :=
    (hwf.1.get_inj_iff).1 (hxi.trans (hxy.trans hyj.symm))
  have : i = j := by simpa using this
  omega

theorem wf_pair_of_idx {m : DistanceMatrix String} (hwf : WFdm m) {i j : Nat}
    (hi : i < m.obs.length) (hji : j < i) :
    ∃ d, (m.obs.get ⟨i, hi⟩, m.obs.get ⟨j, by omega⟩, d) ∈ pairsOf m := by
  have hlen : m.distances.length = m.obs.length - 1 := by
    have h1 : (m.distances.map Prod.fst).length = (m.obs.drop 1).length := by
      rw [hwf.2.1]
    simpa using h1
  have hk : i - 1 < m.distances.length := by omega
  set r := m.distances.get ⟨i - 1, hk⟩ with hrdef
  have hrmem : r ∈ m.distances := m.distances.get_mem _ _
  have hrx : r.1 = m.obs.get ⟨i, hi⟩ := by
    have hklen : i - 1 < (m.distances.map Prod.fst).length := by simpa using hk
    have h1 := List.get_of_eq hwf.2.1 ⟨i - 1, hklen⟩
    simp only [List.get_eq_getElem] at h1
    rw [List.getElem_map, List.getElem_drop] at h1
    have hii : 1 + (i - 1) = i := by omega
    simpa [List.get_eq_getElem, hii] using h1
  have hy : m.obs.get ⟨j, by omega⟩ ∈ r.2.map Prod.fst := by
    have h3 := hwf.2.2.1 (i - 1) hk
    rw [← hrdef] at h3
    rw [h3, List.mem_take_iff_getElem]
    exact ⟨j, by omega, by simp [List.get_eq_getElem]⟩
  obtain ⟨e, he, hey⟩ := List.mem_map.1 hy
  refine ⟨e.2, mem_pairsOf.2 ⟨r, hrmem, hrx, ?_⟩⟩
  have : e = (m.obs.get ⟨j, by omega⟩, e.2) := by
    cases e; simp_all
  exact this ▸ he

theorem wf_pairs_exist {m : DistanceMatrix String} (hwf : WFdm m) {x y : String}
    (hx : x ∈ m.obs) (hy : y ∈ m.obs) (hne : x ≠ y) :
    ∃ d, (x, y, d) ∈ pairsOf m ∨ (y, x, d) ∈ pairsOf m := by
  obtain ⟨⟨ix, hix⟩, hgx⟩ := List.mem_iff_get.1 hx
  obtain ⟨⟨iy, hiy⟩, hgy⟩ := List.mem_iff_get.1 hy
  have hne2 : ix ≠ iy := by
    intro hcon
    apply hne
    rw [← hgx, ← hgy]
    congr 1
    exact Fin.ext hcon
  rcases Nat.lt_or_ge iy ix with hlt | hge
  · obtain ⟨d, hd⟩ := wf_pair_of_idx hwf hix hlt
    exact ⟨d, Or.inl (by rwa [hgx, hgy] at hd)⟩
  · have hlt : ix < iy := by omega
    obtain ⟨d, hd⟩ := wf_pair_of_idx hwf hiy hlt
    exact ⟨d, Or.inr (by rwa [hgy, hgx] at hd)⟩

theorem wf_pairs_bounds {m : DistanceMatrix String} (hwf : WFdm m) {x y : String} {d : ℚ}
    (h : (x, y, d) ∈ pairsOf m) : 0 ≤ d ∧ d ≤ 9223372036854775807 := by
  obtain ⟨r, hr, hx, hyd⟩ := mem_pairsOf.1 h
  exact hwf.2.2.2 r hr (y, d) hyd

/-! ## The closest-pair scan -/

theorem foldl_flatMap (f : α → List β) (g : γ → β → γ) (l : List α) (b : γ) :
    (l.flatMap f).foldl g b = l.foldl (fun acc x => (f x).foldl g acc) b := by
  induction l generalizing b with
  | nil => rfl
  | cons x xs ih => simp [List.flatMap_cons, List.foldl_append, ih]

theorem closestScan_eq (m : DistanceMatrix α) :
    closestScan m.distances = (pairsOf m).foldl scanStep (none, none, none) := by
  unfold closestScan pairsOf
  rw [foldl_flatMap]
  apply List.foldl_ext
  intro acc r _
  rw [List.foldl_map]
  apply List.foldl_ext
  intro acc2 e _
  obtain ⟨o1, o2⟩ := acc2
  cases o1 <;> rfl

theorem scanFold_some (ps : List (α × α × ℚ)) :
    ∀ (x y : α) (d : ℚ),
      ∃ (x2 y2 : α) (d2 : ℚ),
        ps.foldl scanStep (some d, some x, some y) = (some d2, some x2, some y2) ∧
        ((x2 = x ∧ y2 = y ∧ d2 = d) ∨ (x2, y2, d2) ∈ ps) ∧ d2 ≤ d ∧
        ∀ t ∈ ps, d2 ≤ t.2.2 := by
  induction ps with
  | nil => exact fun x y d => ⟨x, y, d, rfl, Or.inl ⟨rfl, rfl, rfl⟩, le_refl d, by simp⟩
  | cons t ts ih =>
    intro x y d
    by_cases hlt : t.2.2 < d
    · obtain ⟨x2, y2, d2, heq, hmem, hle, hall⟩ := ih t.1 t.2.1 t.2.2
      refine ⟨x2, y2, d2, ?_, ?_, ?_, ?_⟩
      · rw [List.foldl_cons, show scanStep (some d, some x, some y) t =
          (some t.2.2, some t.1, some t.2.1) by simp [scanStep, hlt]]
        exact heq
      · rcases hmem with ⟨h1, h2, h3⟩ | h
        · exact Or.inr (by rw [h1, h2, h3]; simp)
        · exact Or.inr (List.mem_cons_of_mem t h)
      · exact le_trans hle (le_of_lt hlt)
      · intro u hu
        rcases List.mem_cons.1 hu with h | h
        · exact h ▸ hle
        · exact hall u h
    · obtain ⟨x2, y2, d2, heq, hmem, hle, hall⟩ := ih x y d
      refine ⟨x2, y2, d2, ?_, ?_, hle, ?_⟩
      · rw [List.foldl_cons, show scanStep (some d, some x, some y) t =
          (some d, some x, some y) by simp [scanStep, hlt]]
        exact heq
      · rcases hmem with h | h
        · exact Or.inl h
        · exact Or.inr (List.mem_cons_of_mem t h)
      · intro u hu
        rcases List.mem_cons.1 hu with h | h
        · rw [h]; exact le_trans hle (not_lt.1 hlt)
        · exact hall u h

theorem closestScan_spec (m : DistanceMatrix α) (hne : pairsOf m ≠ []) :
    ∃ (x y : α) (d : ℚ), closestScan m.distances = (some d, some x, some y) ∧
      (x, y, d) ∈ pairsOf m ∧ ∀ t ∈ pairsOf m, d ≤ t.2.2 := by
  rw [closestScan_eq]
  cases hps : pairsOf m with
  | nil => exact absurd hps hne
  | cons t ts =>
    rw [List.foldl_cons, show scanStep (none, none, none) t =
      (some t.2.2, some t.1, some t.2.1) from rfl]
    obtain ⟨x2, y2, d2, heq, hmem, hle, hall⟩ := scanFold_some ts t.1 t.2.1 t.2.2
    refine ⟨x2, y2, d2, heq, ?_, ?_⟩
    · rcases hmem with ⟨h1, h2, h3⟩ | h
      · rw [h1, h2, h3]; exact List.mem_cons_self t ts
      · exact List.mem_cons_of_mem t h
    · intro u hu
      rcases List.mem_cons.1 hu with h | h
      · rw [h]; exact hle
      · exact hall u h

theorem closest_of_lt {m : DistanceMatrix α} (h : m.obs.length < 2) :
    m.closest = none := by
  simp [DistanceMatrix.closest, h]

theorem closest_spec {m : DistanceMatrix α} (h2 : 2 ≤ m.obs.length)
    (hne : pairsOf m ≠ []) :
    ∃ (x y : α) (d : ℚ), m.closest = some (some x, some y) ∧
      (x, y, d) ∈ pairsOf m ∧ ∀ t ∈ pairsOf m, d ≤ t.2.2 := by
  obtain ⟨x, y, d, heq, hmem, hall⟩ := closestScan_spec m hne
  exact ⟨x, y, d, by simp [DistanceMatrix.closest, Nat.not_lt.2 h2, heq], hmem, hall⟩

theorem wf_distances_length {m : DistanceMatrix String} (hwf : WFdm m) :
    m.distances.length = m.obs.length - 1 := by
  have h1 : (m.distances.map Prod.fst).length = (m.obs.drop 1).length := by
    rw [hwf.2.1]
  simpa using h1

theorem wf_pairs_ne {m : DistanceMatrix String} (hwf : WFdm m)
    (h2 : 2 ≤ m.obs.length) : pairsOf m ≠ [] := by
  obtain ⟨d, hd⟩ := @wf_pair_of_idx m hwf 1 0 (by omega) (by omega)
  exact List.ne_nil_of_mem hd

/-- C6: for every well-formed distance table, `closest()` returns the absence
signal when fewer than two observations remain, and otherwise returns an
unordered pair of entries of the table whose recorded distance is the global
minimum over all recorded pairwise distances. -/
theorem claim_C6 (m : DistanceMatrix String) (hwf : WFdm m) :
    (m.obs.length < 2 → m.closest = none) ∧
    (2 ≤ m.obs.length →
      ∃ (a b : String) (d : ℚ), m.closest = some (some a, some b) ∧
        a ∈ m.obs ∧ b ∈ m.obs ∧ a ≠ b ∧ m.distance a b = some d ∧
        m.distance b a = some d ∧ ∀ t ∈ pairsOf m, d ≤ t.2.2) := by
  refine ⟨closest_of_lt, fun h2 => ?_⟩
  obtain ⟨a, b, d, heq, hmem, hall⟩ := closest_spec h2 (wf_pairs_ne hwf h2)
  obtain ⟨ha, hb, hne⟩ := wf_pairs_mem hwf hmem
  obtain ⟨hd1, hd2⟩ := distance_eq_some_of_pair (wf_shape hwf) hmem
  exact ⟨a, b, d, heq, ha, hb, hne, hd1, hd2, hall⟩

theorem claim_C6_witness :
    WFdm exampleDM ∧ (2 ≤ exampleDM.obs.length) ∧
    (∃ (a b : String) (d : ℚ), exampleDM.closest = some (some a, some b) ∧
      a ∈ exampleDM.obs ∧ b ∈ exampleDM.obs ∧ a ≠ b ∧
      exampleDM.distance a b = some d ∧ exampleDM.distance b a = some d ∧
      ∀ t ∈ pairsOf exampleDM, d ≤ t.2.2) :=
  ⟨by decide, by decide, (claim_C6 exampleDM (by decide)).2 (by decide)⟩

/-- C8 counterexample: the matrix built from an empty input is well formed,
holds zero observations, yet `n_nodes` reports 1 — so the count accessor does
not return the number of observations for zero-observation tables. -/
theorem claim_C8_counterexample :
    WFdm emptyDM ∧ emptyDM.obs.length = 0 ∧ emptyDM.n_nodes = 1 :=
  ⟨by decide, rfl, rfl⟩

/-- C8 (amended): for every well-formed distance table holding at least one
observation, `n_nodes` returns the number of distinct observations
represented in the table; on the empty table it returns 1 instead of 0. -/
theorem claim_C8 (m : DistanceMatrix String) (hwf : WFdm m)
    (h1 : 1 ≤ m.obs.length) : m.n_nodes = m.obs.length := by
  have := wf_distances_length hwf
  unfold DistanceMatrix.n_nodes
  omega

theorem claim_C8_witness :
    WFdm exampleDM ∧ 1 ≤ exampleDM.obs.length ∧
    exampleDM.n_nodes = exampleDM.obs.length :=
  ⟨by decide, by decide, claim_C8 exampleDM (by decide) (by decide)⟩

/-- C9: the cut operations reject invalid arguments with the absence signal:
`cut n` is `None` for every `n < 0` and `n_clusters n` is `None` for every
`n ≤ 0`, producing no partial result. -/
theorem claim_C9 (h : HClust) :
    (∀ n : ℚ, n < 0 → h.cut n = none) ∧
    (∀ n : Int, n ≤ 0 → h.n_clusters n = none) := by
  constructor
  · intro n hn
    simp [HClust.cut, hn]
  · intro n hn
    simp [HClust.n_clusters, hn]

theorem claim_C9_witness :
    ((-1 : ℚ) < 0 ∧ (build smallDM Criterion.average).cut (-1) = none) ∧
    ((0 : Int) ≤ 0 ∧ (build smallDM Criterion.average).n_clusters 0 = none) :=
  ⟨⟨by norm_num, (claim_C9 (build smallDM Criterion.average)).1 (-1) (by norm_num)⟩,
   ⟨le_refl 0, (claim_C9 (build smallDM Criterion.average)).2 0 (le_refl 0)⟩⟩

/-! ## Linkage computation -/

theorem avg_inner_fold (dm : DistanceMatrix String) (p : String) (bid : List String)
    (acc : ℚ × Nat) :
    bid.foldl (fun acc2 q => (acc2.1 + dval dm p q, acc2.2 + 1)) acc
      = (acc.1 + (bid.map (fun q => dval dm p q)).sum, acc.2 + bid.length) := by
  induction bid generalizing acc with
  | nil => simp
  | cons q qs ih =>
    rw [List.foldl_cons, ih]
    simp
    constructor
    · ring
    · omega

theorem avg_fold (dm : DistanceMatrix String) (aid bid : List String) (acc : ℚ × Nat) :
    aid.foldl (fun acc1 p =>
        bid.foldl (fun acc2 q => (acc2.1 + dval dm p q, acc2.2 + 1)) acc1) acc
      = (acc.1 + (crossVals dm aid bid).sum, acc.2 + (crossVals dm aid bid).length) := by
  induction aid generalizing acc with
  | nil => simp [crossVals]
  | cons p ps ih =>
    rw [List.foldl_cons, avg_inner_fold, ih]
    simp [crossVals, List.flatMap_cons]
    constructor
    · ring
    · omega

theorem crossVals_length (dm : DistanceMatrix String) (aid bid : List String) :
    (crossVals dm aid bid).length = aid.length * bid.length := by
  induction aid with
  | nil => simp [crossVals]
  | cons p ps ih =>
    simp only [crossVals, List.flatMap_cons, List.length_append, List.length_map] at *
    rw [ih]
    simp [List.length_cons]
    ring

theorem linkage_average_eq (dm : DistanceMatrix String) (aid bid : List String) :
    linkage dm Criterion.average aid bid
      = (crossVals dm aid bid).sum / ((aid.length * bid.length : Nat) : ℚ) := by
  unfold linkage
  rw [avg_fold]
  simp [crossVals_length]

/-- C3: with `average` linkage, the distance between clusters with member
tuples `aid` and `bid` is the arithmetic mean of the original table's
distances over all member pairs, using true division by the pair count; in
particular for two two-member clusters it is exactly the sum of the four
cross distances divided by 4, read from the original immutable table. -/
theorem claim_C3 (dm : DistanceMatrix String) :
    (∀ aid bid : List String, linkage dm Criterion.average aid bid
        = (crossVals dm aid bid).sum / ((aid.length * bid.length : Nat) : ℚ)) ∧
    (∀ (p q r s : String) (dpr dps dqr dqs : ℚ),
      dm.distance p r = some dpr → dm.distance p s = some dps →
      dm.distance q r = some dqr → dm.distance q s = some dqs →
      linkage dm Criterion.average [p, q] [r, s] = (dpr + dps + dqr + dqs) / 4) := by
  refine ⟨linkage_average_eq dm, ?_⟩
  intro p q r s dpr dps dqr dqs h1 h2 h3 h4
  rw [linkage_average_eq]
  simp [crossVals, dval, h1, h2, h3, h4]
  ring

theorem claim_C3_witness :
    exampleDM.distance "id1" "id3" = some 3 ∧
    exampleDM.distance "id1" "id4" = some 5 ∧
    exampleDM.distance "id2" "id3" = some 6 ∧
    exampleDM.distance "id2" "id4" = some 2 ∧
    linkage exampleDM Criterion.average ["id1", "id2"] ["id3", "id4"]
      = (3 + 5 + 6 + 2) / 4 :=
  ⟨by decide, by decide, by decide, by decide,
   (claim_C3 exampleDM).2 "id1" "id2" "id3" "id4" 3 5 6 2
     (by decide) (by decide) (by decide) (by decide)⟩

theorem step_eq_max (m d : ℚ) : (if d > m then d else m) = max m d := by
  rcases le_or_lt d m with h | h
  · simp [not_lt.2 h, max_eq_left h]
  · simp [h, max_eq_right (le_of_lt h)]

theorem step_eq_min (m d : ℚ) : (if d < m then d else m) = min m d := by
  rcases le_or_lt m d with h | h
  · simp [not_lt.2 h, min_eq_left h]
  · simp [h, min_eq_right (le_of_lt h)]

theorem linkage_max_eq (dm : DistanceMatrix String) (aid bid : List String) :
    linkage dm Criterion.max aid bid = (crossVals dm aid bid).foldl max 0 := by
  unfold linkage crossVals
  rw [foldl_flatMap]
  apply List.foldl_ext
  intro acc p _
  rw [List.foldl_map]
  apply List.foldl_ext
  intro m q _
  exact step_eq_max m (dval dm p q)

theorem linkage_min_eq (dm : DistanceMatrix String) (aid bid : List String) :
    linkage dm Criterion.min aid bid
      = (crossVals dm aid bid).foldl min (9223372036854775807 : ℚ) := by
  unfold linkage crossVals
  rw [foldl_flatMap]
  apply List.foldl_ext
  intro acc p _
  rw [List.foldl_map]
  apply List.foldl_ext
  intro m q _
  exact step_eq_min m (dval dm p q)

instance : RightCommutative (fun (m d : ℚ) => max m d) :=
  ⟨fun a b c => sup_right_comm a b c⟩

instance : RightCommutative (fun (m d : ℚ) => min m d) :=
  ⟨fun a b c => inf_right_comm a b c⟩

theorem foldl_max_init_le (b : ℚ) (l : List ℚ) : b ≤ l.foldl max b := by
  induction l generalizing b with
  | nil => exact le_refl b
  | cons x xs ih => exact le_trans (le_max_left b x) (ih (max b x))

theorem foldl_min_le_init (b : ℚ) (l : List ℚ) : l.foldl min b ≤ b := by
  induction l generalizing b with
  | nil => exact le_refl b
  | cons x xs ih => exact le_trans (ih (min b x)) (min_le_left b x)

theorem foldl_max_swap (l : List ℚ) : ∀ x y : ℚ,
    l.foldl max (max x y) = max y (l.foldl max x) := by
  induction l with
  | nil => intro x y; exact max_comm x y
  | cons a l ih =>
    intro x y
    rw [List.foldl_cons, sup_right_comm x y a, ih, List.foldl_cons]

theorem foldl_min_swap (l : List ℚ) : ∀ x y : ℚ,
    l.foldl min (min x y) = min y (l.foldl min x) := by
  induction l with
  | nil => intro x y; exact min_comm x y
  | cons a l ih =>
    intro x y
    rw [List.foldl_cons, inf_right_comm x y a, ih, List.foldl_cons]

theorem foldl_max_append_split (b : ℚ) (l1 l2 : List ℚ) :
    (l1 ++ l2).foldl max b = max (l1.foldl max b) (l2.foldl max b) := by
  rw [List.foldl_append]
  calc l2.foldl max (l1.foldl max b)
      = l2.foldl max (max b (l1.foldl max b)) := by
        rw [max_eq_right (foldl_max_init_le b l1)]
    _ = max (l1.foldl max b) (l2.foldl max b) := foldl_max_swap l2 b _

theorem foldl_min_append_split (b : ℚ) (l1 l2 : List ℚ) :
    (l1 ++ l2).foldl min b = min (l1.foldl min b) (l2.foldl min b) := by
  rw [List.foldl_append]
  calc l2.foldl min (l1.foldl min b)
      = l2.foldl min (min b (l1.foldl min b)) := by
        rw [min_eq_right (foldl_min_le_init b l1)]
    _ = min (l1.foldl min b) (l2.foldl min b) := foldl_min_swap l2 b _

theorem mediant_ge_min (S1 S2 n1 n2 : ℚ) (h1 : 0 < n1) (h2 : 0 < n2) :
    min (S1 / n1) (S2 / n2) ≤ (S1 + S2) / (n1 + n2) := by
  rcases le_total (S1 / n1) (S2 / n2) with h | h
  · rw [min_eq_left h]
    rw [div_le_div_iff₀ h1 h2] at h
    rw [div_le_div_iff₀ h1 (by linarith)]
    nlinarith
  · rw [min_eq_right h]
    rw [div_le_div_iff₀ h2 h1] at h
    rw [div_le_div_iff₀ h2 (by linarith)]
    nlinarith

theorem flatMap_cons_perm (g : α → γ) (h : α → List γ) (l : List α) :
    (l.flatMap fun x => g x :: h x).Perm (l.map g ++ l.flatMap h) := by
  induction l with
  | nil => simp
  | cons y ys ih =>
    simp only [List.flatMap_cons, List.map_cons, List.cons_append]
    refine List.Perm.cons (g y) ?_
    exact (List.Perm.append_left (h y) ih).trans
      (List.perm_append_comm_assoc (h y) (ys.map g) (ys.flatMap h))

theorem flatMap_transpose_perm (f : α → β → γ) (xs : List α) (ys : List β) :
    (xs.flatMap fun p => ys.map (f p)).Perm
      (ys.flatMap fun q => xs.map (fun p => f p q)) := by
  induction xs with
  | nil => simp
  | cons p ps ih =>
    simp only [List.flatMap_cons, List.map_cons]
    refine List.Perm.trans (List.Perm.append_left (ys.map (f p)) ih) ?_
    exact (flatMap_cons_perm (fun q => f p q) (fun q => ps.map fun p2 => f p2 q) ys).symm

theorem dval_comm {dm : DistanceMatrix String} (hs : MatrixShape dm) (p q : String) :
    dval dm p q = dval dm q p := by
  unfold dval
  rw [distance_comm hs]

theorem crossVals_comm {dm : DistanceMatrix String} (hs : MatrixShape dm)
    (aid bid : List String) :
    (crossVals dm aid bid).Perm (crossVals dm bid aid) := by
  unfold crossVals
  refine (flatMap_transpose_perm (fun p q => dval dm p q) aid bid).trans ?_
  have he : (fun q => aid.map fun p => dval dm p q)
      = (fun p => aid.map fun q => dval dm p q) := by
    funext q
    exact List.map_congr_left fun p _ => dval_comm hs p q
  rw [he]

theorem crossVals_append_right (dm : DistanceMatrix String) (xid as bs : List String) :
    (crossVals dm xid (as ++ bs)).Perm (crossVals dm xid as ++ crossVals dm xid bs) := by
  unfold crossVals
  have he : (fun p => (as ++ bs).map fun q => dval dm p q)
      = (fun p => (as.map fun q => dval dm p q) ++ (bs.map fun q => dval dm p q)) := by
    funext p
    exact List.map_append _ as bs
  rw [he]
  exact (List.flatMap_append_perm xid _ _).symm

theorem linkage_comm {dm : DistanceMatrix String} (hs : MatrixShape dm)
    (crit : Criterion) (aid bid : List String) :
    linkage dm crit aid bid = linkage dm crit bid aid := by
  cases crit with
  | average =>
    rw [linkage_average_eq, linkage_average_eq, (crossVals_comm hs aid bid).sum_eq,
      Nat.mul_comm]
  | max =>
    rw [linkage_max_eq, linkage_max_eq, (crossVals_comm hs aid bid).foldl_eq]
  | min =>
    rw [linkage_min_eq, linkage_min_eq, (crossVals_comm hs aid bid).foldl_eq]

theorem min_le_linkage_concat (dm : DistanceMatrix String) (crit : Criterion)
    (xid as bs : List String) (hx : xid ≠ []) (ha : as ≠ []) (hb : bs ≠ []) :
    min (linkage dm crit xid as) (linkage dm crit xid bs)
      ≤ linkage dm crit xid (as ++ bs) := by
  cases crit with
  | average =>
    rw [linkage_average_eq, linkage_average_eq, linkage_average_eq,
      (crossVals_append_right dm xid as bs).sum_eq, List.sum_append]
    have hlen : xid.length * (as ++ bs).length
        = xid.length * as.length + xid.length * bs.length := by
      rw [List.length_append, Nat.mul_add]
    rw [hlen]
    push_cast
    apply mediant_ge_min
    · have h1 : 0 < xid.length := List.length_pos.2 hx
      have h2 : 0 < as.length := List.length_pos.2 ha
      positivity
    · have h1 : 0 < xid.length := List.length_pos.2 hx
      have h2 : 0 < bs.length := List.length_pos.2 hb
      positivity
  | max =>
    rw [linkage_max_eq, linkage_max_eq, linkage_max_eq,
      (crossVals_append_right dm xid as bs).foldl_eq, foldl_max_append_split]
    exact le_trans (min_le_left _ _) (le_max_left _ _)
  | min =>
    rw [linkage_min_eq, linkage_min_eq, linkage_min_eq,
      (crossVals_append_right dm xid as bs).foldl_eq, foldl_min_append_split]

theorem linkage_single_eq (dm : DistanceMatrix String) (crit : Criterion)
    {x y : String} {d : ℚ} (hd : dval dm x y = d) (h0 : 0 ≤ d)
    (hM : d ≤ 9223372036854775807) :
    linkage dm crit [x] [y] = d := by
  cases crit with
  | average =>
    rw [linkage_average_eq]
    simp [crossVals, hd]
  | max =>
    rw [linkage_max_eq]
    simp [crossVals, hd, max_eq_right h0]
  | min =>
    rw [linkage_min_eq]
    simp [crossVals, hd, min_eq_right hM]

/-! ## The initial working matrix -/

theorem singletonKey_inj : Function.Injective (fun o => (⟨[o], 0⟩ : NodeKey)) := by
  intro x y hxy
  simpa using hxy

theorem mem_pairs_to_nodes {dm : DistanceMatrix String} {t : NodeKey × NodeKey × ℚ} :
    t ∈ pairsOf dm.to_nodes ↔
      ∃ (x y : String) (d : ℚ), (x, y, d) ∈ pairsOf dm ∧
        t = (⟨[x], 0⟩, ⟨[y], 0⟩, d) := by
  constructor
  · intro ht
    obtain ⟨k1, k2, d0⟩ := t
    obtain ⟨r2, hr2, hr2k, hmem2⟩ := mem_pairsOf.1 ht
    obtain ⟨r, hr, hFr⟩ := List.mem_map.1 hr2
    obtain ⟨e, he, hGe⟩ := List.mem_map.1 (by
      rw [← hFr] at hmem2
      exact hmem2)
    refine ⟨r.1, e.1, e.2, mem_pairsOf.2 ⟨r, hr, rfl, by simpa using he⟩, ?_⟩
    have h1 : k1 = ⟨[r.1], 0⟩ := by rw [← hr2k, ← hFr]
    have h2 : (⟨[e.1], 0⟩ : NodeKey) = k2 := congrArg Prod.fst hGe
    have h3 : e.2 = d0 := congrArg Prod.snd hGe
    rw [h1, ← h2, ← h3]
  · rintro ⟨x, y, d, hmem, ht⟩
    obtain ⟨r, hr, hrx, hyd⟩ := mem_pairsOf.1 hmem
    subst ht
    refine mem_pairsOf.2 ⟨(⟨[r.1], 0⟩, r.2.map (fun e => (⟨[e.1], 0⟩, e.2))),
      List.mem_map.2 ⟨r, hr, rfl⟩, by rw [hrx], ?_⟩
    exact List.mem_map.2 ⟨(y, d), hyd, rfl⟩

theorem flatten_singletons (l : List String) :
    ((l.map fun o => ([o] : List String)).flatten) = l := by
  induction l with
  | nil => rfl
  | cons x xs ih => simp [ih]

theorem mem_to_nodes_obs {dm : DistanceMatrix String} {k : NodeKey} :
    k ∈ dm.to_nodes.obs ↔ ∃ x ∈ dm.obs, k = ⟨[x], 0⟩ := by
  unfold DistanceMatrix.to_nodes
  simp only [List.mem_map]
  constructor
  · rintro ⟨x, hx, rfl⟩; exact ⟨x, hx, rfl⟩
  · rintro ⟨x, hx, rfl⟩; exact ⟨x, hx, rfl⟩

theorem winv_init {dm : DistanceMatrix String} (hwf : WFdm dm) (crit : Criterion) :
    WInv dm crit dm.to_nodes := by
  have hsdm := wf_shape hwf
  refine { shape := MatrixShape.mk ?_ ?_ ?_, obs_nodup := ?_, rows_mem := ?_,
           pairs_mem := ?_, pairs_exist := ?_, pairs_val := ?_, pairs_lb := ?_,
           ids_ne := ?_, join_perm := ?_ }
  · -- rows_nodup
    show ((dm.distances.map _).map Prod.fst).Nodup
    rw [List.map_map]
    have he : (Prod.fst ∘ fun r : String × List (String × ℚ) =>
        ((⟨[r.1], 0⟩ : NodeKey), r.2.map (fun e => ((⟨[e.1], 0⟩ : NodeKey), e.2))))
        = (fun o => (⟨[o], 0⟩ : NodeKey)) ∘ Prod.fst := rfl
    rw [he, ← List.map_map]
    exact hsdm.rows_nodup.map singletonKey_inj
  · -- inner_nodup
    intro r2 hr2
    obtain ⟨r, hr, hFr⟩ := List.mem_map.1 hr2
    rw [← hFr]
    show ((r.2.map _).map Prod.fst).Nodup
    rw [List.map_map]
    have he2 : (Prod.fst ∘ fun e : String × ℚ => ((⟨[e.1], 0⟩ : NodeKey), e.2))
        = (fun o => (⟨[o], 0⟩ : NodeKey)) ∘ Prod.fst := rfl
    rw [he2, ← List.map_map]
    exact (hsdm.inner_nodup r hr).map singletonKey_inj
  · -- uniq
    rintro x2 y2 ⟨d, hd⟩ ⟨e, he⟩
    obtain ⟨x, y, d0, hmem, ht⟩ := mem_pairs_to_nodes.1 hd
    obtain ⟨y3, x3, e0, hmem2, ht2⟩ := mem_pairs_to_nodes.1 he
    have hx2 : x2 = ⟨[x], 0⟩ := congrArg Prod.fst ht
    have hy2 : y2 = ⟨[y], 0⟩ := congrArg (Prod.fst ∘ Prod.snd) ht
    have hy3 : y2 = ⟨[y3], 0⟩ := congrArg Prod.fst ht2
    have hx3 : x2 = ⟨[x3], 0⟩ := congrArg (Prod.fst ∘ Prod.snd) ht2
    have hyy : y3 = y := singletonKey_inj (hy3.symm.trans hy2)
    have hxx : x3 = x := singletonKey_inj (hx3.symm.trans hx2)
    rw [hyy, hxx] at hmem2
    exact hsdm.uniq x y ⟨d0, hmem⟩ ⟨e0, hmem2⟩
  · -- obs_nodup
    exact hwf.1.map singletonKey_inj
  · -- rows_mem
    intro r2 hr2
    obtain ⟨r, hr, hFr⟩ := List.mem_map.1 hr2
    have hr1 : r.1 ∈ dm.obs := by
      have h1 : r.1 ∈ dm.distances.map Prod.fst := List.mem_map.2 ⟨r, hr, rfl⟩
      rw [hwf.2.1] at h1
      exact List.mem_of_mem_drop h1
    rw [← hFr]
    exact mem_to_nodes_obs.2 ⟨r.1, hr1, rfl⟩
  · -- pairs_mem
    intro t ht
    obtain ⟨x, y, d, hmem, rfl⟩ := mem_pairs_to_nodes.1 ht
    obtain ⟨hx, hy, hne⟩ := wf_pairs_mem hwf hmem
    exact ⟨mem_to_nodes_obs.2 ⟨x, hx, rfl⟩, mem_to_nodes_obs.2 ⟨y, hy, rfl⟩,
      fun hc => hne (singletonKey_inj hc)⟩
  · -- pairs_exist
    intro x2 hx2 y2 hy2 hne
    obtain ⟨x, hx, rfl⟩ := mem_to_nodes_obs.1 hx2
    obtain ⟨y, hy, rfl⟩ := mem_to_nodes_obs.1 hy2
    have hnexy : x ≠ y := fun hc => hne (by rw [hc])
    rcases wf_pairs_exist hwf hx hy hnexy with ⟨d, hd | hd⟩
    · exact Or.inl ⟨d, mem_pairs_to_nodes.2 ⟨x, y, d, hd, rfl⟩⟩
    · exact Or.inr ⟨d, mem_pairs_to_nodes.2 ⟨y, x, d, hd, rfl⟩⟩
  · -- pairs_val
    intro t ht
    obtain ⟨x, y, d, hmem, rfl⟩ := mem_pairs_to_nodes.1 ht
    have hdist := (distance_eq_some_of_pair hsdm hmem).1
    have hbounds := wf_pairs_bounds hwf hmem
    exact (linkage_single_eq dm crit (by simp [dval, hdist]) hbounds.1 hbounds.2).symm
  · -- pairs_lb
    intro t ht
    obtain ⟨x, y, d, hmem, rfl⟩ := mem_pairs_to_nodes.1 ht
    have hbounds := wf_pairs_bounds hwf hmem
    constructor
    · simpa using hbounds.1
    · simpa using hbounds.1
  · -- ids_ne
    intro k hk
    obtain ⟨x, hx, rfl⟩ := mem_to_nodes_obs.1 hk
    simp
  · -- join_perm
    show ((dm.obs.map _).map NodeKey.id).flatten.Perm dm.obs
    rw [List.map_map]
    have he : (NodeKey.id ∘ fun o => (⟨[o], 0⟩ : NodeKey))
        = fun o => ([o] : List String) := rfl
    rw [he, flatten_singletons]

/-! ## The merge step -/

theorem merge_eq (h : HClust) (a b : NodeKey) :
    h.merge a b =
      { dist_matrix := h.dist_matrix, linkage_criterion := h.linkage_criterion,
        working_matrix := wmergeMatrix h.dist_matrix h.linkage_criterion
          h.working_matrix a b
          ⟨a.id ++ b.id, (h.working_matrix.distance a b).getD 0 * (1 / 2)⟩,
        clusters := cmergeClusters h.clusters a b
          ⟨a.id ++ b.id, (h.working_matrix.distance a b).getD 0 * (1 / 2)⟩ } := rfl

theorem mem_pairsOfRows {rows : List (α × List (α × ℚ))} {x y : α} {d : ℚ} :
    (x, y, d) ∈ pairsOfRows rows ↔ ∃ r ∈ rows, r.1 = x ∧ (y, d) ∈ r.2 := by
  unfold pairsOfRows
  simp only [List.mem_flatMap, List.mem_map]
  constructor
  · rintro ⟨r, hr, e, he, heq⟩
    refine ⟨r, hr, congrArg Prod.fst heq, ?_⟩
    have h2 : e = (y, d) := by
      have := congrArg Prod.snd heq
      simpa using this
    exact h2 ▸ he
  · rintro ⟨r, hr, hx, hy⟩
    exact ⟨r, hr, (y, d), hy, by simp [hx]⟩

theorem pairsOf_rows (m : DistanceMatrix α) : pairsOf m = pairsOfRows m.distances := rfl

theorem pairsOfRows_append (l1 l2 : List (α × List (α × ℚ))) :
    pairsOfRows (l1 ++ l2) = pairsOfRows l1 ++ pairsOfRows l2 := by
  unfold pairsOfRows
  rw [List.flatMap_append]

theorem mem_pairs_pruned {w : DistanceMatrix NodeKey} {a b : NodeKey}
    {x y : NodeKey} {d : ℚ} :
    (x, y, d) ∈ pairsOfRows (prunedRows w a b) ↔
      (x, y, d) ∈ pairsOf w ∧ x ≠ a ∧ x ≠ b ∧ y ≠ a ∧ y ≠ b := by
  constructor
  · intro h
    obtain ⟨r2, hr2, hx, hyd⟩ := mem_pairsOfRows.1 h
    obtain ⟨r, hrf, hFr⟩ := List.mem_map.1 hr2
    obtain ⟨hrmem, hrpred⟩ := List.mem_filter.1 hrf
    rw [← hFr] at hx hyd
    simp only at hx
    have hrkey : ¬(r.1 = a ∨ r.1 = b) := by simpa using hrpred
    simp only at hyd
    obtain ⟨hydmem, hydpred⟩ := List.mem_filter.1 hyd
    have hykey : ¬(y = a ∨ y = b) := by simpa using hydpred
    refine ⟨mem_pairsOf.2 ⟨r, hrmem, hx, hydmem⟩, ?_, ?_, ?_, ?_⟩
    · rw [← hx]; tauto
    · rw [← hx]; tauto
    · tauto
    · tauto
  · rintro ⟨h, hxa, hxb, hya, hyb⟩
    obtain ⟨r, hr, hx, hyd⟩ := mem_pairsOf.1 h
    refine mem_pairsOfRows.2 ⟨(r.1, r.2.filter (fun e => ¬(e.1 = a ∨ e.1 = b))),
      List.mem_map.2 ⟨r, List.mem_filter.2 ⟨hr, by simp [hx, hxa, hxb]⟩, rfl⟩,
      hx, List.mem_filter.2 ⟨hyd, by simp [hya, hyb]⟩⟩

theorem mem_pairs_linked {dm : DistanceMatrix String} {crit : Criterion}
    {w : DistanceMatrix NodeKey} {a b c : NodeKey} {x y : NodeKey} {d : ℚ} :
    (x, y, d) ∈ pairsOfRows ((prunedRows w a b).map
        (fun r => (r.1, r.2 ++ [(c, linkage dm crit r.1.id c.id)]))) ↔
      ((x, y, d) ∈ pairsOfRows (prunedRows w a b) ∨
        (x ∈ addedKeys w a b ∧ y = c ∧ d = linkage dm crit x.id c.id)) := by
  constructor
  · intro h
    obtain ⟨r3, hr3, hx, hyd⟩ := mem_pairsOfRows.1 h
    obtain ⟨r, hr, hFr⟩ := List.mem_map.1 hr3
    rw [← hFr] at hx hyd
    simp only at hx hyd
    rcases List.mem_append.1 hyd with hin | hnew
    · exact Or.inl (mem_pairsOfRows.2 ⟨r, hr, hx, hin⟩)
    · have h1 : y = c ∧ d = linkage dm crit r.1.id c.id := by
        have := List.mem_singleton.1 hnew
        exact ⟨congrArg Prod.fst this, congrArg Prod.snd this⟩
      refine Or.inr ⟨List.mem_map.2 ⟨r, hr, hx⟩, h1.1, ?_⟩
      rw [h1.2, hx]
  · rintro (h | ⟨hadd, hy, hd⟩)
    · obtain ⟨r, hr, hx, hyd⟩ := mem_pairsOfRows.1 h
      exact mem_pairsOfRows.2 ⟨(r.1, r.2 ++ [(c, linkage dm crit r.1.id c.id)]),
        List.mem_map.2 ⟨r, hr, rfl⟩, hx, List.mem_append.2 (Or.inl hyd)⟩
    · obtain ⟨r, hr, hx⟩ := List.mem_map.1 hadd
      refine mem_pairsOfRows.2 ⟨(r.1, r.2 ++ [(c, linkage dm crit r.1.id c.id)]),
        List.mem_map.2 ⟨r, hr, rfl⟩, hx, List.mem_append.2 (Or.inr ?_)⟩
      rw [hy, hd, hx]
      exact List.mem_singleton.2 rfl

theorem mem_newRow {dm : DistanceMatrix String} {crit : Criterion}
    {w : DistanceMatrix NodeKey} {a b c : NodeKey} {y : NodeKey} {d : ℚ} :
    (y, d) ∈ newRow dm crit w a b c ↔
      y ∈ (w.obs.erase a).erase b ∧ y ∉ addedKeys w a b ∧
        d = linkage dm crit y.id c.id := by
  unfold newRow
  constructor
  · intro h
    obtain ⟨z, hz, hzy⟩ := List.mem_map.1 h
    obtain ⟨hzmem, hzpred⟩ := List.mem_filter.1 hz
    have h1 : z = y := congrArg Prod.fst hzy
    have h2 : d = linkage dm crit z.id c.id := (congrArg Prod.snd hzy).symm
    subst h1
    exact ⟨hzmem, by simpa using hzpred, h2⟩
  · rintro ⟨hmem, hnadd, hd⟩
    refine List.mem_map.2 ⟨y, List.mem_filter.2 ⟨hmem, by simpa using hnadd⟩, ?_⟩
    rw [hd]

theorem mem_pairs_wmerge {dm : DistanceMatrix String} {crit : Criterion}
    {w : DistanceMatrix NodeKey} {a b c : NodeKey} {x y : NodeKey} {d : ℚ} :
    (x, y, d) ∈ pairsOf (wmergeMatrix dm crit w a b c) ↔
      (((x, y, d) ∈ pairsOf w ∧ x ≠ a ∧ x ≠ b ∧ y ≠ a ∧ y ≠ b) ∨
        (x ∈ addedKeys w a b ∧ y = c ∧ d = linkage dm crit x.id c.id) ∨
        (x = c ∧ y ∈ (w.obs.erase a).erase b ∧ y ∉ addedKeys w a b ∧
          d = linkage dm crit y.id c.id)) := by
  rw [pairsOf_rows]
  show (x, y, d) ∈ pairsOfRows (if (newRow dm crit w a b c).isEmpty then _ else _) ↔ _
  by_cases hempty : (newRow dm crit w a b c).isEmpty
  · rw [if_pos hempty]
    rw [mem_pairs_linked, mem_pairs_pruned]
    have hno : ¬(x = c ∧ y ∈ (w.obs.erase a).erase b ∧ y ∉ addedKeys w a b ∧
        d = linkage dm crit y.id c.id) := by
      rintro ⟨hx, hy, hna, hd⟩
      have : (y, d) ∈ newRow dm crit w a b c := mem_newRow.2 ⟨hy, hna, hd⟩
      rw [List.isEmpty_iff.1 hempty] at this
      exact absurd this (List.not_mem_nil _)
    constructor
    · rintro (h | h)
      · exact Or.inl h
      · exact Or.inr (Or.inl h)
    · rintro (h | h | h)
      · exact Or.inl h
      · exact Or.inr h
      · exact absurd h hno
  · rw [if_neg hempty, pairsOfRows_append, List.mem_append,
      mem_pairs_linked, mem_pairs_pruned]
    have hlast : (x, y, d) ∈ pairsOfRows [(c, newRow dm crit w a b c)] ↔
        (x = c ∧ y ∈ (w.obs.erase a).erase b ∧ y ∉ addedKeys w a b ∧
          d = linkage dm crit y.id c.id) := by
      constructor
      · intro h
        obtain ⟨r, hr, hx, hyd⟩ := mem_pairsOfRows.1 h
        have hrc : r = (c, newRow dm crit w a b c) := List.mem_singleton.1 hr
        subst hrc
        obtain ⟨h1, h2, h3⟩ := mem_newRow.1 hyd
        exact ⟨hx.symm, h1, h2, h3⟩
      · rintro ⟨hx, hy, hna, hd⟩
        exact mem_pairsOfRows.2 ⟨(c, newRow dm crit w a b c),
          List.mem_singleton.2 rfl, hx.symm, mem_newRow.2 ⟨hy, hna, hd⟩⟩
    rw [hlast]
    exact or_assoc

theorem winv_ids_disjoint {dm : DistanceMatrix String} {crit : Criterion}
    {w : DistanceMatrix NodeKey} (hnd : dm.obs.Nodup) (hw : WInv dm crit w) :
    ∀ x ∈ w.obs, ∀ y ∈ w.obs, x ≠ y → ∀ o ∈ x.id, o ∉ y.id := by
  have hflat : ((w.obs.map NodeKey.id).flatten).Nodup :=
    (hw.join_perm.nodup_iff).2 hnd
  have hpair : List.Pairwise List.Disjoint (w.obs.map NodeKey.id) :=
    (List.nodup_flatten.1 hflat).2
  intro x hx y hy hne o hox hoy
  obtain ⟨⟨i, hi⟩, hgi⟩ := List.mem_iff_get.1 hx
  obtain ⟨⟨j, hj⟩, hgj⟩ := List.mem_iff_get.1 hy
  have hij : i ≠ j := by
    intro hcon
    apply hne
    rw [← hgi, ← hgj]
    congr 1
    exact Fin.ext hcon
  rw [List.pairwise_iff_getElem] at hpair
  have hgi2 : w.obs[i] = x := by rw [← hgi]; simp [List.get_eq_getElem]
  have hgj2 : w.obs[j] = y := by rw [← hgj]; simp [List.get_eq_getElem]
  rcases Nat.lt_or_ge i j with hlt | hge
  · have hd := hpair i j (by simpa using hi) (by simpa using hj) hlt
    rw [List.getElem_map, List.getElem_map] at hd
    exact hd (hgi2 ▸ hox) (hgj2 ▸ hoy)
  · have hlt : j < i := by omega
    have hd := hpair j i (by simpa using hj) (by simpa using hi) hlt
    rw [List.getElem_map, List.getElem_map] at hd
    exact hd.symm (hgi2 ▸ hox) (hgj2 ▸ hoy)

theorem cid_not_mem {dm : DistanceMatrix String} {crit : Criterion}
    {w : DistanceMatrix NodeKey} (hnd : dm.obs.Nodup) (hw : WInv dm crit w)
    {a b : NodeKey} (ha : a ∈ w.obs) (hb : b ∈ w.obs) (hne : a ≠ b) :
    ∀ x ∈ w.obs, x.id ≠ a.id ++ b.id := by
  intro x hx hcon
  by_cases hxa : x = a
  · subst hxa
    have hb2 : b.id = [] := by
      have h1 : x.id ++ [] = x.id ++ b.id := by rw [List.append_nil]; exact hcon
      exact (List.append_cancel_left h1).symm
    exact hw.ids_ne b hb hb2
  · obtain ⟨o, ho⟩ := List.exists_mem_of_ne_nil a.id (hw.ids_ne a ha)
    have hoinx : o ∈ x.id := by
      rw [hcon]
      exact List.mem_append.2 (Or.inl ho)
    exact winv_ids_disjoint hnd hw x hx a ha hxa o hoinx ho

theorem mem_erase2 {l : List NodeKey} (hnd : l.Nodup) {a b x : NodeKey} :
    x ∈ (l.erase a).erase b ↔ x ∈ l ∧ x ≠ a ∧ x ≠ b := by
  rw [(hnd.erase a).mem_erase_iff, hnd.mem_erase_iff]
  tauto

theorem erase2_perm {l : List NodeKey} (hnd : l.Nodup) {a b : NodeKey}
    (ha : a ∈ l) (hb : b ∈ l) (hne : a ≠ b) :
    l.Perm (a :: b :: (l.erase a).erase b) := by
  refine (List.perm_cons_erase ha).trans (List.Perm.cons a ?_)
  exact List.perm_cons_erase (hnd.mem_erase_iff.2 ⟨Ne.symm hne, hb⟩)

theorem mem_addedKeys {w : DistanceMatrix NodeKey} {a b x : NodeKey} :
    x ∈ addedKeys w a b ↔ ∃ r ∈ w.distances, r.1 = x ∧ x ≠ a ∧ x ≠ b := by
  unfold addedKeys prunedRows
  rw [List.map_map]
  constructor
  · intro h
    obtain ⟨r, hr, hrx⟩ := List.mem_map.1 h
    obtain ⟨hrmem, hrpred⟩ := List.mem_filter.1 hr
    have hup : ¬(r.1 = a ∨ r.1 = b) := by simpa using hrpred
    simp only [Function.comp] at hrx
    exact ⟨r, hrmem, hrx, by rw [← hrx]; tauto, by rw [← hrx]; tauto⟩
  · rintro ⟨r, hr, hrx, hxa, hxb⟩
    exact List.mem_map.2 ⟨r, List.mem_filter.2 ⟨hr, by simp [hrx, hxa, hxb]⟩, hrx⟩

theorem addedKeys_nodup {w : DistanceMatrix NodeKey} (hs : MatrixShape w)
    (a b : NodeKey) : (addedKeys w a b).Nodup := by
  unfold addedKeys prunedRows
  rw [List.map_map]
  have he : (Prod.fst ∘ fun r : NodeKey × List (NodeKey × ℚ) =>
      (r.1, r.2.filter (fun e => ¬(e.1 = a ∨ e.1 = b)))) = Prod.fst := rfl
  rw [he]
  exact ((List.filter_sublist w.distances).map Prod.fst).nodup hs.rows_nodup

theorem linkage_to_c {dm : DistanceMatrix String} {crit : Criterion}
    {w : DistanceMatrix NodeKey} (hdm : WFdm dm) (hw : WInv dm crit w)
    {a b : NodeKey} {ds : ℚ}
    (hab : (a, b, ds) ∈ pairsOf w) (hmin : ∀ t ∈ pairsOf w, ds ≤ t.2.2)
    {x : NodeKey} (hx : x ∈ w.obs) (hxa : x ≠ a) (hxb : x ≠ b) :
    2 * x.depth ≤ linkage dm crit x.id (a.id ++ b.id) ∧
      ds ≤ linkage dm crit x.id (a.id ++ b.id) := by
  obtain ⟨ha, hb, hne⟩ := hw.pairs_mem (a, b, ds) hab
  have hfa : 2 * x.depth ≤ linkage dm crit x.id a.id ∧
      ds ≤ linkage dm crit x.id a.id := by
    rcases hw.pairs_exist x hx a ha hxa with ⟨da, hda⟩ | ⟨da, hda⟩
    · have hv := hw.pairs_val _ hda
      have hl := hw.pairs_lb _ hda
      have hm := hmin _ hda
      simp only at hv hl hm
      exact ⟨hv ▸ hl.1, hv ▸ hm⟩
    · have hv := hw.pairs_val _ hda
      have hl := hw.pairs_lb _ hda
      have hm := hmin _ hda
      simp only at hv hl hm
      rw [linkage_comm (wf_shape hdm) crit a.id x.id] at hv
      exact ⟨hv ▸ hl.2, hv ▸ hm⟩
  have hfb : 2 * x.depth ≤ linkage dm crit x.id b.id ∧
      ds ≤ linkage dm crit x.id b.id := by
    rcases hw.pairs_exist x hx b hb hxb with ⟨db, hdb⟩ | ⟨db, hdb⟩
    · have hv := hw.pairs_val _ hdb
      have hl := hw.pairs_lb _ hdb
      have hm := hmin _ hdb
      simp only at hv hl hm
      exact ⟨hv ▸ hl.1, hv ▸ hm⟩
    · have hv := hw.pairs_val _ hdb
      have hl := hw.pairs_lb _ hdb
      have hm := hmin _ hdb
      simp only at hv hl hm
      rw [linkage_comm (wf_shape hdm) crit b.id x.id] at hv
      exact ⟨hv ▸ hl.2, hv ▸ hm⟩
  have hcat := min_le_linkage_concat dm crit x.id a.id b.id
    (hw.ids_ne x hx) (hw.ids_ne a ha) (hw.ids_ne b hb)
  constructor
  · exact le_trans (le_min hfa.1 hfb.1) hcat
  · exact le_trans (le_min hfa.2 hfb.2) hcat

theorem wmerge_obs (dm : DistanceMatrix String) (crit : Criterion)
    (w : DistanceMatrix NodeKey) (a b c : NodeKey) :
    (wmergeMatrix dm crit w a b c).obs = (w.obs.erase a).erase b ++ [c] := rfl

theorem wmerge_distances (dm : DistanceMatrix String) (crit : Criterion)
    (w : DistanceMatrix NodeKey) (a b c : NodeKey) :
    (wmergeMatrix dm crit w a b c).distances =
      if (newRow dm crit w a b c).isEmpty then
        (prunedRows w a b).map
          (fun r => (r.1, r.2 ++ [(c, linkage dm crit r.1.id c.id)]))
      else
        ((prunedRows w a b).map
          (fun r => (r.1, r.2 ++ [(c, linkage dm crit r.1.id c.id)])))
          ++ [(c, newRow dm crit w a b c)] := rfl

theorem linked_keys (dm : DistanceMatrix String) (crit : Criterion)
    (w : DistanceMatrix NodeKey) (a b c : NodeKey) :
    ((prunedRows w a b).map
      (fun r => (r.1, r.2 ++ [(c, linkage dm crit r.1.id c.id)]))).map Prod.fst
      = addedKeys w a b := by
  rw [List.map_map]
  rfl

theorem mem_prunedRows {w : DistanceMatrix NodeKey} {a b : NodeKey}
    {r2 : NodeKey × List (NodeKey × ℚ)} :
    r2 ∈ prunedRows w a b ↔ ∃ r ∈ w.distances, ¬(r.1 = a ∨ r.1 = b) ∧
      r2 = (r.1, r.2.filter (fun e => ¬(e.1 = a ∨ e.1 = b))) := by
  unfold prunedRows
  constructor
  · intro h
    obtain ⟨r, hrf, hFr⟩ := List.mem_map.1 h
    obtain ⟨hrmem, hrpred⟩ := List.mem_filter.1 hrf
    exact ⟨r, hrmem, by simpa using hrpred, hFr.symm⟩
  · rintro ⟨r, hr, hpred, rfl⟩
    exact List.mem_map.2 ⟨r, List.mem_filter.2 ⟨hr, by simpa using hpred⟩, rfl⟩

theorem newRow_keys (dm : DistanceMatrix String) (crit : Criterion)
    (w : DistanceMatrix NodeKey) (a b c : NodeKey) :
    (newRow dm crit w a b c).map Prod.fst
      = ((w.obs.erase a).erase b).filter (fun x => ¬ x ∈ addedKeys w a b) := by
  unfold newRow
  rw [List.map_map]
  exact List.map_id _

theorem merge_preserves {dm : DistanceMatrix String} {crit : Criterion}
    (hdm : WFdm dm) {w : DistanceMatrix NodeKey} (hw : WInv dm crit w)
    {a b : NodeKey} {ds : ℚ}
    (hab : (a, b, ds) ∈ pairsOf w) (hmin : ∀ t ∈ pairsOf w, ds ≤ t.2.2) :
    WInv dm crit (wmergeMatrix dm crit w a b ⟨a.id ++ b.id, ds * (1 / 2)⟩) := by
  obtain ⟨ha, hb, hne⟩ := hw.pairs_mem (a, b, ds) hab
  set c : NodeKey := ⟨a.id ++ b.id, ds * (1 / 2)⟩ with hcdef
  have hcid : c.id = a.id ++ b.id := rfl
  have hcdepth : c.depth = ds * (1 / 2) := rfl
  have hobs1 : ∀ x : NodeKey, x ∈ (w.obs.erase a).erase b ↔
      x ∈ w.obs ∧ x ≠ a ∧ x ≠ b := fun x => mem_erase2 hw.obs_nodup
  have hobs1nd : ((w.obs.erase a).erase b).Nodup := (hw.obs_nodup.erase a).erase b
  have hcidnm := cid_not_mem hdm.1 hw ha hb hne
  have hcnm : c ∉ w.obs := fun hcmem => hcidnm c hcmem rfl
  have hcno1 : c ∉ (w.obs.erase a).erase b := fun hx => hcnm ((hobs1 c).1 hx).1
  have haddmem : ∀ x ∈ addedKeys w a b, x ∈ w.obs ∧ x ≠ a ∧ x ≠ b := by
    intro x hx
    obtain ⟨r, hr, hrx, hxa, hxb⟩ := mem_addedKeys.1 hx
    exact ⟨hrx ▸ hw.rows_mem r hr, hxa, hxb⟩
  have hcnadd : c ∉ addedKeys w a b := fun hx => hcnm (haddmem c hx).1
  have hlink : ∀ {x : NodeKey}, x ∈ w.obs → x ≠ a → x ≠ b →
      2 * x.depth ≤ linkage dm crit x.id c.id ∧ ds ≤ linkage dm crit x.id c.id := by
    intro x hx hxa hxb
    rw [hcid]
    exact linkage_to_c hdm hw hab hmin hx hxa hxb
  have hvalc : ∀ {x : NodeKey}, x ∈ w.obs →
      linkage dm crit x.id c.id = linkage dm crit c.id x.id :=
    fun {x} _ => linkage_comm (wf_shape hdm) crit x.id c.id
  refine { shape := MatrixShape.mk ?_ ?_ ?_, obs_nodup := ?_, rows_mem := ?_,
           pairs_mem := ?_, pairs_exist := ?_, pairs_val := ?_, pairs_lb := ?_,
           ids_ne := ?_, join_perm := ?_ }
  · -- rows_nodup
    rw [wmerge_distances]
    have hadnd := addedKeys_nodup hw.shape a b
    by_cases hemp : (newRow dm crit w a b c).isEmpty
    · rw [if_pos hemp, linked_keys]
      exact hadnd
    · rw [if_neg hemp, List.map_append, linked_keys]
      rw [List.nodup_append]
      refine ⟨hadnd, by simp, ?_⟩
      intro x hx
      simp only [List.map_cons, List.map_nil, List.mem_singleton]
      intro hxc
      exact hcnadd (hxc ▸ hx)
  · -- inner_nodup
    intro r2 hr2
    rw [wmerge_distances] at hr2
    have hlinked : ∀ r3 ∈ (prunedRows w a b).map
        (fun r => (r.1, r.2 ++ [(c, linkage dm crit r.1.id c.id)])),
        (r3.2.map Prod.fst).Nodup := by
      intro r3 hr3
      obtain ⟨rp, hrp, hFrp⟩ := List.mem_map.1 hr3
      obtain ⟨r, hr, hpred, hrpdef⟩ := mem_prunedRows.1 hrp
      rw [← hFrp, hrpdef]
      simp only [List.map_append, List.map_cons, List.map_nil]
      rw [List.nodup_append]
      refine ⟨?_, by simp, ?_⟩
      · exact ((List.filter_sublist r.2).map Prod.fst).nodup (hw.shape.inner_nodup r hr)
      · intro y hy
        simp only [List.mem_singleton]
        intro hyc
        obtain ⟨e, he, hey⟩ := List.mem_map.1 hy
        obtain ⟨hemem, _⟩ := List.mem_filter.1 he
        have hp : (r.1, e.1, e.2) ∈ pairsOf w :=
          mem_pairsOf.2 ⟨r, hr, rfl, by simpa using hemem⟩
        have : e.1 ∈ w.obs := (hw.pairs_mem _ hp).2.1
        rw [hey, hyc] at this
        exact hcnm this
    by_cases hemp : (newRow dm crit w a b c).isEmpty
    · rw [if_pos hemp] at hr2
      exact hlinked r2 hr2
    · rw [if_neg hemp] at hr2
      rcases List.mem_append.1 hr2 with h | h
      · exact hlinked r2 h
      · have hr2c : r2 = (c, newRow dm crit w a b c) := List.mem_singleton.1 h
        rw [hr2c]
        show ((newRow dm crit w a b c).map Prod.fst).Nodup
        rw [newRow_keys]
        exact (List.filter_sublist _).nodup hobs1nd
  · -- uniq
    rintro x y ⟨d1, hd1⟩ ⟨d2, hd2⟩
    rcases mem_pairs_wmerge.1 hd1 with
      ⟨hp1, hx1a, hx1b, hy1a, hy1b⟩ | ⟨hadd1, hy1c, _⟩ | ⟨hx1c, hy1o, hy1na, _⟩ <;>
      rcases mem_pairs_wmerge.1 hd2 with
        ⟨hp2, hy2a2, hy2b2, hx2a2, hx2b2⟩ | ⟨hadd2, hx2c, _⟩ | ⟨hy2c, hx2o, hx2na, _⟩
    · exact hw.shape.uniq x y ⟨d1, hp1⟩ ⟨d2, hp2⟩
    · exact hcnm (hx2c ▸ (hw.pairs_mem _ hp1).1)
    · exact hcnm (hy2c ▸ (hw.pairs_mem _ hp1).2.1)
    · exact hcnm (hy1c ▸ (hw.pairs_mem _ hp2).1)
    · exact hcnm (hy1c ▸ (haddmem y hadd2).1)
    · exact absurd hadd1 hx2na
    · exact hcnm (hx1c ▸ (hw.pairs_mem _ hp2).2.1)
    · exact absurd hadd2 hy1na
    · exact hcno1 (hy2c ▸ hy1o)
  · -- obs_nodup
    rw [wmerge_obs, List.nodup_append]
    refine ⟨hobs1nd, by simp, ?_⟩
    intro x hx
    simp only [List.mem_singleton]
    intro hxc
    exact hcno1 (hxc ▸ hx)
  · -- rows_mem
    intro r2 hr2
    rw [wmerge_obs]
    rw [wmerge_distances] at hr2
    have hlinked : ∀ r3 ∈ (prunedRows w a b).map
        (fun r => (r.1, r.2 ++ [(c, linkage dm crit r.1.id c.id)])),
        r3.1 ∈ (w.obs.erase a).erase b ++ [c] := by
      intro r3 hr3
      obtain ⟨rp, hrp, hFrp⟩ := List.mem_map.1 hr3
      have hprf : r3.1 ∈ addedKeys w a b := by
        rw [← hFrp]
        exact List.mem_map.2 ⟨rp, hrp, rfl⟩
      obtain ⟨hmem, hxa, hxb⟩ := haddmem _ hprf
      exact List.mem_append.2 (Or.inl ((hobs1 _).2 ⟨hmem, hxa, hxb⟩))
    by_cases hemp : (newRow dm crit w a b c).isEmpty
    · rw [if_pos hemp] at hr2
      exact hlinked r2 hr2
    · rw [if_neg hemp] at hr2
      rcases List.mem_append.1 hr2 with h | h
      · exact hlinked r2 h
      · rw [List.mem_singleton.1 h]
        exact List.mem_append.2 (Or.inr (List.mem_singleton.2 rfl))
  · -- pairs_mem
    rintro ⟨x, y, d⟩ ht
    rw [wmerge_obs]
    rcases mem_pairs_wmerge.1 ht with
      ⟨hp, hxa, hxb, hya, hyb⟩ | ⟨hadd, hyc, _⟩ | ⟨hxc, hyo, hyna, _⟩
    · obtain ⟨hx, hy, hxy⟩ := hw.pairs_mem _ hp
      exact ⟨List.mem_append.2 (Or.inl ((hobs1 x).2 ⟨hx, hxa, hxb⟩)),
        List.mem_append.2 (Or.inl ((hobs1 y).2 ⟨hy, hya, hyb⟩)), hxy⟩
    · obtain ⟨hx, hxa, hxb⟩ := haddmem x hadd
      refine ⟨List.mem_append.2 (Or.inl ((hobs1 x).2 ⟨hx, hxa, hxb⟩)),
        List.mem_append.2 (Or.inr (by simp [hyc])), ?_⟩
      intro hcon
      simp only at hcon
      have hxc3 : x = c := hcon.trans hyc
      rw [hxc3] at hx
      exact hcnm hx
    · refine ⟨List.mem_append.2 (Or.inr (by simp [hxc])),
        List.mem_append.2 (Or.inl hyo), ?_⟩
      intro hcon
      simp only at hcon
      have hyc3 : y = c := hcon.symm.trans hxc
      rw [hyc3] at hyo
      exact hcno1 hyo
  · -- pairs_exist
    intro x hx y hy hnexy
    rw [wmerge_obs] at hx hy
    rcases List.mem_append.1 hx with hx1 | hxc <;>
      rcases List.mem_append.1 hy with hy1 | hyc
    · obtain ⟨hxo, hxa, hxb⟩ := (hobs1 x).1 hx1
      obtain ⟨hyo, hya, hyb⟩ := (hobs1 y).1 hy1
      rcases hw.pairs_exist x hxo y hyo hnexy with ⟨d, hd⟩ | ⟨d, hd⟩
      · exact Or.inl ⟨d, mem_pairs_wmerge.2 (Or.inl ⟨hd, hxa, hxb, hya, hyb⟩)⟩
      · exact Or.inr ⟨d, mem_pairs_wmerge.2 (Or.inl ⟨hd, hya, hyb, hxa, hxb⟩)⟩
    · have hyc2 : y = c := List.mem_singleton.1 hyc
      by_cases hxadd : x ∈ addedKeys w a b
      · exact Or.inl ⟨linkage dm crit x.id c.id,
          mem_pairs_wmerge.2 (Or.inr (Or.inl ⟨hxadd, hyc2, rfl⟩))⟩
      · exact Or.inr ⟨linkage dm crit x.id c.id,
          mem_pairs_wmerge.2 (Or.inr (Or.inr ⟨hyc2, hx1, hxadd, rfl⟩))⟩
    · have hxc2 : x = c := List.mem_singleton.1 hxc
      by_cases hyadd : y ∈ addedKeys w a b
      · exact Or.inr ⟨linkage dm crit y.id c.id,
          mem_pairs_wmerge.2 (Or.inr (Or.inl ⟨hyadd, hxc2, rfl⟩))⟩
      · exact Or.inl ⟨linkage dm crit y.id c.id,
          mem_pairs_wmerge.2 (Or.inr (Or.inr ⟨hxc2, hy1, hyadd, rfl⟩))⟩
    · exact absurd ((List.mem_singleton.1 hxc).trans
        (List.mem_singleton.1 hyc).symm) hnexy
  · -- pairs_val
    rintro ⟨x, y, d⟩ ht
    rcases mem_pairs_wmerge.1 ht with
      ⟨hp, _, _, _, _⟩ | ⟨hadd, hyc, hd⟩ | ⟨hxc, hyo, _, hd⟩
    · exact hw.pairs_val _ hp
    · show d = linkage dm crit x.id y.id
      rw [hyc, hd]
    · show d = linkage dm crit x.id y.id
      rw [hxc, hd, hvalc ((hobs1 y).1 hyo).1]
  · -- pairs_lb
    rintro ⟨x, y, d⟩ ht
    rcases mem_pairs_wmerge.1 ht with
      ⟨hp, _, _, _, _⟩ | ⟨hadd, hyc, hd⟩ | ⟨hxc, hyo, _, hd⟩
    · exact hw.pairs_lb _ hp
    · obtain ⟨hx, hxa, hxb⟩ := haddmem x hadd
      have hl := hlink hx hxa hxb
      constructor
      · show 2 * x.depth ≤ d
        rw [hd]
        exact hl.1
      · show 2 * y.depth ≤ d
        rw [hyc, hd, hcdepth]
        have := hl.2
        linarith
    · obtain ⟨hy, hya, hyb⟩ := (hobs1 y).1 hyo
      have hl := hlink hy hya hyb
      constructor
      · show 2 * x.depth ≤ d
        rw [hxc, hd, hcdepth]
        have := hl.2
        linarith
      · show 2 * y.depth ≤ d
        rw [hd]
        exact hl.1
  · -- ids_ne
    intro k hk
    rw [wmerge_obs] at hk
    rcases List.mem_append.1 hk with h1 | hc1
    · exact hw.ids_ne k ((hobs1 k).1 h1).1
    · rw [List.mem_singleton.1 hc1, hcid]
      intro hcon
      exact hw.ids_ne a ha (List.append_eq_nil.1 hcon).1
  · -- join_perm
    rw [wmerge_obs, List.map_append]
    have h1 : (((w.obs.erase a).erase b).map NodeKey.id ++ [c].map NodeKey.id).flatten
        = (((w.obs.erase a).erase b).map NodeKey.id).flatten ++ c.id := by
      rw [List.flatten_append]
      simp
    rw [h1]
    have hperm0 := erase2_perm hw.obs_nodup ha hb hne
    have h2 : (w.obs.map NodeKey.id).flatten.Perm
        ((a :: b :: (w.obs.erase a).erase b).map NodeKey.id).flatten :=
      (hperm0.map NodeKey.id).flatten
    have h3 : ((a :: b :: (w.obs.erase a).erase b).map NodeKey.id).flatten
        = a.id ++ (b.id ++ (((w.obs.erase a).erase b).map NodeKey.id).flatten) := by
      simp
    refine List.Perm.trans ?_ hw.join_perm
    refine List.Perm.trans ?_ h2.symm
    rw [h3, hcid]
    refine List.Perm.trans (List.perm_append_comm) ?_
    rw [List.append_assoc]

theorem merge_facts {dm : DistanceMatrix String} {crit : Criterion}
    {w : DistanceMatrix NodeKey} (hw : WInv dm crit w) {a b : NodeKey} {ds : ℚ}
    (hab : (a, b, ds) ∈ pairsOf w) :
    (w.distance a b).getD 0 = ds ∧ a ∈ w.obs ∧ b ∈ w.obs ∧ a ≠ b ∧
      a.depth ≤ ds * (1 / 2) ∧ b.depth ≤ ds * (1 / 2) ∧
      ds = linkage dm crit a.id b.id := by
  obtain ⟨ha, hb, hne⟩ := hw.pairs_mem (a, b, ds) hab
  have hdist := (distance_eq_some_of_pair hw.shape hab).1
  have hlb := hw.pairs_lb (a, b, ds) hab
  simp only at ha hb hne hlb
  refine ⟨by rw [hdist]; rfl, ha, hb, hne, by linarith [hlb.1], by linarith [hlb.2],
    hw.pairs_val (a, b, ds) hab⟩

theorem closest_winv {dm : DistanceMatrix String} {crit : Criterion}
    {w : DistanceMatrix NodeKey} (hw : WInv dm crit w) (h2 : 2 ≤ w.obs.length) :
    ∃ (a b : NodeKey) (ds : ℚ), w.closest = some (some a, some b) ∧
      (a, b, ds) ∈ pairsOf w ∧ ∀ t ∈ pairsOf w, ds ≤ t.2.2 := by
  have hne : pairsOf w ≠ [] := by
    match hobs : w.obs, h2 with
    | x :: y :: rest, _ =>
      have hnd : (x :: y :: rest).Nodup := hobs ▸ hw.obs_nodup
      have hxy : x ≠ y := by
        intro hcon
        rw [hcon] at hnd
        exact (List.nodup_cons.1 hnd).1 (List.mem_cons_self y rest)
      have hx : x ∈ w.obs := by rw [hobs]; exact List.mem_cons_self ..
      have hy : y ∈ w.obs := by rw [hobs]; exact List.mem_cons_of_mem x (List.mem_cons_self ..)
      rcases hw.pairs_exist x hx y hy hxy with ⟨d, hd⟩ | ⟨d, hd⟩
      · exact List.ne_nil_of_mem hd
      · exact List.ne_nil_of_mem hd
  exact closest_spec h2 hne

theorem cluster_parent_fields {cs : List Node} {k p : NodeKey} :
    ∀ nd ∈ cluster_parent cs k p, ∃ nd0 ∈ cs,
      nd.id = nd0.id ∧ nd.depth = nd0.depth ∧ nd.children = nd0.children := by
  intro nd hnd
  obtain ⟨nd0, hnd0, hF⟩ := List.mem_map.1 hnd
  by_cases hk : nd0.key = k
  · rw [if_pos hk] at hF
    exact ⟨nd0, hnd0, by rw [← hF], by rw [← hF], by rw [← hF]⟩
  · rw [if_neg hk] at hF
    exact ⟨nd0, hnd0, by rw [← hF], by rw [← hF], by rw [← hF]⟩

theorem depthSpec_merge {dm : DistanceMatrix String} {crit : Criterion}
    {cs : List Node} (hds : DepthSpec dm crit cs) {a b : NodeKey} {ds : ℚ}
    (hval : ds = linkage dm crit a.id b.id) :
    DepthSpec dm crit (cmergeClusters cs a b ⟨a.id ++ b.id, ds * (1 / 2)⟩) := by
  intro nd hnd
  unfold cmergeClusters at hnd
  rcases List.mem_append.1 hnd with h | h
  · obtain ⟨nd1, hnd1, hid1, hdep1, hch1⟩ := cluster_parent_fields nd h
    obtain ⟨nd0, hnd0, hid0, hdep0, hch0⟩ := cluster_parent_fields nd1 hnd1
    have hspec := hds nd0 hnd0
    constructor
    · intro hchn
      rw [hdep1, hdep0]
      exact hspec.1 (by rw [← hch0, ← hch1]; exact hchn)
    · intro k1 k2 hchs
      rw [hdep1, hdep0]
      exact hspec.2 k1 k2 (by rw [← hch0, ← hch1]; exact hchs)
  · rw [List.mem_singleton.1 h]
    constructor
    · intro hcon
      exact absurd hcon (by simp)
    · intro k1 k2 hchs
      simp only at hchs
      obtain ⟨h1, h2⟩ := Prod.mk.injEq .. ▸ Option.some.injEq .. ▸ hchs
      simp only [Option.some.injEq, Prod.mk.injEq] at hchs
      rw [← hchs.1, ← hchs.2]
      exact hval ▸ rfl

theorem buildLoop_succ (fuel : Nat) (st : HClust) :
    buildLoop (fuel + 1) st =
      match st.working_matrix.closest with
      | none => st
      | some (some a, some b) => buildLoop fuel (st.merge a b)
      | some _ => st := rfl

theorem built_count {allObs : List String} {L : List Node} {opens : List NodeKey}
    (hb : Built allObs L opens) : L.length + opens.length = 2 * allObs.length := by
  induction hb with
  | init => simp; omega
  | step L opens a b h hb ha hbmem hne hda hdb ih =>
    have hbe : b ∈ opens.erase a := List.mem_erase_of_ne (Ne.symm hne) |>.2 hbmem
    have h1 : (opens.erase a).length = opens.length - 1 := List.length_erase_of_mem ha
    have h2 : ((opens.erase a).erase b).length = (opens.erase a).length - 1 :=
      List.length_erase_of_mem hbe
    have h3 : 1 ≤ opens.length := List.length_pos_of_mem ha
    have h4 : 1 ≤ (opens.erase a).length := List.length_pos_of_mem hbe
    unfold cluster_parent
    simp only [List.length_append, List.length_map, List.length_cons, List.length_nil]
    omega

theorem loopInv_step {dm : DistanceMatrix String} {crit : Criterion} {st : HClust}
    (hdm : WFdm dm) (hinv : LoopInv dm crit st)
    (h2 : 2 ≤ st.working_matrix.obs.length) :
    ∃ a b : NodeKey, st.working_matrix.closest = some (some a, some b) ∧
      LoopInv dm crit (st.merge a b) ∧
      (st.merge a b).working_matrix.obs.length + 1 = st.working_matrix.obs.length := by
  obtain ⟨a, b, ds, hcl, hab, hmin⟩ := closest_winv hinv.winv h2
  obtain ⟨hgetD, ha, hb, hne, hda, hdb, hval⟩ := merge_facts hinv.winv hab
  refine ⟨a, b, hcl, ?_, ?_⟩
  · rw [merge_eq, hinv.dmEq, hinv.critEq, hgetD]
    refine ⟨rfl, rfl, merge_preserves hdm hinv.winv hab hmin, ?_, ?_⟩
    · show Built dm.obs
        (cmergeClusters st.clusters a b ⟨a.id ++ b.id, ds * (1 / 2)⟩)
        ((st.working_matrix.obs.erase a).erase b ++ [⟨a.id ++ b.id, ds * (1 / 2)⟩])
      exact Built.step st.clusters st.working_matrix.obs a b (ds * (1 / 2))
        hinv.built ha hb hne hda hdb
    · exact depthSpec_merge hinv.depths hval
  · rw [merge_eq]
    show ((st.working_matrix.obs.erase a).erase b ++ _).length + 1
      = st.working_matrix.obs.length
    have hbe : b ∈ st.working_matrix.obs.erase a :=
      List.mem_erase_of_ne (Ne.symm hne) |>.2 hb
    have h1 := List.length_erase_of_mem ha
    have h3 := List.length_erase_of_mem hbe
    simp only [List.length_append, List.length_cons, List.length_nil]
    omega

theorem buildLoop_inv {dm : DistanceMatrix String} {crit : Criterion}
    (hdm : WFdm dm) :
    ∀ (fuel : Nat) (st : HClust), LoopInv dm crit st →
      st.working_matrix.obs.length ≤ fuel →
      LoopInv dm crit (buildLoop fuel st) ∧
        (buildLoop fuel st).working_matrix.obs.length ≤ 1 := by
  intro fuel
  induction fuel with
  | zero =>
    intro st hinv hlen
    have h0 : buildLoop 0 st = st := rfl
    rw [h0]
    exact ⟨hinv, by omega⟩
  | succ fuel ih =>
    intro st hinv hlen
    by_cases h2 : 2 ≤ st.working_matrix.obs.length
    · obtain ⟨a, b, hcl, hinv2, hlen2⟩ := loopInv_step hdm hinv h2
      have hstep : buildLoop (fuel + 1) st = buildLoop fuel (st.merge a b) := by
        rw [buildLoop_succ, hcl]
      rw [hstep]
      exact ih (st.merge a b) hinv2 (by omega)
    · have hstep : buildLoop (fuel + 1) st = st := by
        unfold buildLoop
        rw [closest_of_lt (by omega)]
      rw [hstep]
      exact ⟨hinv, by omega⟩

theorem loopInv_init {dm : DistanceMatrix String} (hdm : WFdm dm) (crit : Criterion) :
    LoopInv dm crit
      { dist_matrix := dm, linkage_criterion := crit, working_matrix := dm.to_nodes,
        clusters := dm.to_nodes.obs.map (fun k => { id := k.id, depth := k.depth }) } := by
  refine ⟨rfl, rfl, winv_init hdm crit, ?_, ?_⟩
  · show Built dm.obs ((dm.obs.map fun o => (⟨[o], 0⟩ : NodeKey)).map
      (fun k => { id := k.id, depth := k.depth })) dm.to_nodes.obs
    rw [List.map_map]
    exact Built.init
  · intro nd hnd
    obtain ⟨k, hk, hF⟩ := List.mem_map.1 hnd
    obtain ⟨x, hx, rfl⟩ := mem_to_nodes_obs.1 hk
    constructor
    · intro _
      rw [← hF]
    · intro k1 k2 hchs
      rw [← hF] at hchs
      exact absurd hchs (by simp)

theorem build_inv {dm : DistanceMatrix String} (hdm : WFdm dm) (crit : Criterion) :
    LoopInv dm crit (build dm crit) ∧
      (build dm crit).working_matrix.obs.length ≤ 1 := by
  unfold build
  refine buildLoop_inv hdm dm.obs.length _ (loopInv_init hdm crit) ?_
  show (dm.obs.map fun o => (⟨[o], 0⟩ : NodeKey)).length ≤ dm.obs.length
  simp

theorem winv_obs_ne {dm : DistanceMatrix String} {crit : Criterion}
    {w : DistanceMatrix NodeKey} (hw : WInv dm crit w) (hN : dm.obs ≠ []) :
    w.obs ≠ [] := by
  intro hcon
  have := hw.join_perm
  rw [hcon] at this
  simp only [List.map_nil, List.flatten_nil] at this
  exact hN (this.nil_eq).symm

theorem build_final_len {dm : DistanceMatrix String} (hdm : WFdm dm)
    (crit : Criterion) (hN : 1 ≤ dm.obs.length) :
    (build dm crit).working_matrix.obs.length = 1 := by
  obtain ⟨hinv, hle⟩ := build_inv hdm crit
  have hne : (build dm crit).working_matrix.obs ≠ [] :=
    winv_obs_ne hinv.winv (by intro hcon; rw [hcon] at hN; simp at hN)
  have : 1 ≤ (build dm crit).working_matrix.obs.length := List.length_pos.2 hne
  omega

theorem cluster_parent_map_fields (cs : List Node) (k p : NodeKey) :
    (cluster_parent cs k p).map (fun nd => (nd.id, nd.depth, nd.children))
      = cs.map (fun nd => (nd.id, nd.depth, nd.children)) := by
  unfold cluster_parent
  rw [List.map_map]
  apply List.map_congr_left
  intro nd _
  by_cases h : nd.key = k <;> simp [h]

theorem built_shape {allObs : List String} {L : List Node} {opens : List NodeKey}
    (hb : Built allObs L opens) :
    ∃ tail, L.map (fun nd => (nd.id, nd.depth, nd.children))
        = allObs.map (fun o => ([o], (0 : ℚ), (none : Option (NodeKey × NodeKey))))
          ++ tail ∧
      ∀ t ∈ tail, t.2.2 ≠ none := by
  induction hb with
  | init =>
    refine ⟨[], by rw [List.map_map, List.append_nil]; rfl, by simp⟩
  | step L opens a b h hb ha hbm hne hda hdb ih =>
    obtain ⟨tail, heq, htail⟩ := ih
    refine ⟨tail ++ [(a.id ++ b.id, h, some (a, b))], ?_, ?_⟩
    · rw [List.map_append, cluster_parent_map_fields, cluster_parent_map_fields, heq]
      simp [List.append_assoc]
    · intro t ht
      rcases List.mem_append.1 ht with h1 | h1
      · exact htail t h1
      · rw [List.mem_singleton.1 h1]
        simp

theorem built_children_id {allObs : List String} {L : List Node} {opens : List NodeKey}
    (hb : Built allObs L opens) :
    ∀ nd ∈ L, ∀ k1 k2, nd.children = some (k1, k2) → nd.id = k1.id ++ k2.id := by
  induction hb with
  | init =>
    intro nd hnd k1 k2 hch
    obtain ⟨o, ho, hF⟩ := List.mem_map.1 hnd
    rw [← hF] at hch
    exact absurd hch (by simp)
  | step L opens a b h hb ha hbm hne hda hdb ih =>
    intro nd hnd k1 k2 hch
    rcases List.mem_append.1 hnd with h1 | h1
    · obtain ⟨nd1, hnd1, hid1, _, hch1⟩ := cluster_parent_fields nd h1
      obtain ⟨nd0, hnd0, hid0, _, hch0⟩ := cluster_parent_fields nd1 hnd1
      rw [hid1, hid0]
      exact ih nd0 hnd0 k1 k2 (by rw [← hch0, ← hch1]; exact hch)
    · rw [List.mem_singleton.1 h1] at hch ⊢
      simp only [Option.some.injEq, Prod.mk.injEq] at hch
      simp [← hch.1, ← hch.2]

theorem built_last {allObs : List String} {L : List Node} {opens : List NodeKey}
    (hb : Built allObs L opens) {t : NodeKey} (hopens : opens = [t]) :
    ∃ last, L.getLast? = some last ∧ last.key = t := by
  cases hb with
  | init =>
    match hAll : allObs, hopens with
    | [o], _ =>
      rw [hAll] at hopens
      simp only [List.map_cons, List.map_nil] at hopens
      have ht : (⟨[o], 0⟩ : NodeKey) = t := by
        have := List.cons.injEq .. ▸ hopens
        simpa using hopens
      exact ⟨{ id := [o], depth := 0 }, rfl, ht⟩
  | step L0 opens0 a b h hb0 ha hbm hne hda hdb =>
    have hsplit : (opens0.erase a).erase b = [] ∧ (⟨a.id ++ b.id, h⟩ : NodeKey) = t := by
      have hlen := congrArg List.length hopens
      simp only [List.length_append, List.length_cons, List.length_nil] at hlen
      have hX : (opens0.erase a).erase b = [] := List.eq_nil_of_length_eq_zero (by omega)
      rw [hX] at hopens
      simp only [List.nil_append, List.cons.injEq] at hopens
      exact ⟨hX, hopens.1⟩
    refine ⟨{ id := a.id ++ b.id, depth := h, parent := none, children := some (a, b) },
      ?_, hsplit.2⟩
    rw [List.getLast?_concat]

theorem build_trunk_perm {dm : DistanceMatrix String} {crit : Criterion}
    (hwf : WFdm dm) (hN : 1 ≤ dm.obs.length) :
    ∃ last : Node, (build dm crit).clusters.getLast? = some last ∧
      last.id.Perm dm.obs := by
  obtain ⟨hinv, _⟩ := build_inv hwf crit
  have hlen := build_final_len hwf crit hN
  obtain ⟨t, ht⟩ := List.length_eq_one.1 hlen
  obtain ⟨last, hlast, hkey⟩ := built_last hinv.built ht
  refine ⟨last, hlast, ?_⟩
  have hjoin := hinv.winv.join_perm
  rw [ht] at hjoin
  simp only [List.map_cons, List.map_nil, List.flatten_cons, List.flatten_nil,
    List.append_nil] at hjoin
  have hid : last.id = t.id := congrArg NodeKey.id hkey
  rw [hid]
  exact hjoin

/-- C1: for every well-formed distance table over `N ≥ 1` observations, the
finished builder's `clusters` list holds exactly `2N - 1` nodes — the `N`
singleton leaves (in input order) followed by `N - 1` internal merge nodes —
and the member tuple of the final node contains each of the `N` original
observation identifiers exactly once. -/
theorem claim_C1 (dm : DistanceMatrix String) (crit : Criterion)
    (hwf : WFdm dm) (hN : 1 ≤ dm.obs.length) :
    (build dm crit).clusters.length = 2 * dm.obs.length - 1 ∧
    ((build dm crit).clusters.take dm.obs.length).map Node.id
        = dm.obs.map (fun o => [o]) ∧
    (∀ nd ∈ (build dm crit).clusters.take dm.obs.length, nd.children = none) ∧
    (∀ nd ∈ (build dm crit).clusters.drop dm.obs.length, nd.children ≠ none) ∧
    ∃ last : Node, (build dm crit).clusters.getLast? = some last ∧
      last.id.Perm dm.obs ∧ ∀ o ∈ dm.obs, last.id.count o = 1 := by
  obtain ⟨hinv, _⟩ := build_inv hwf crit
  have hlen := build_final_len hwf crit hN
  have hcount := built_count hinv.built
  rw [hlen] at hcount
  obtain ⟨tail, hshape, htail⟩ := built_shape hinv.built
  have hpreflen : (dm.obs.map (fun o =>
      (([o] : List String), (0 : ℚ), (none : Option (NodeKey × NodeKey))))).length
      = dm.obs.length := by simp
  refine ⟨by omega, ?_, ?_, ?_, ?_⟩
  · have h1 : ((build dm crit).clusters.map
        (fun nd => (nd.id, nd.depth, nd.children))).take dm.obs.length
        = dm.obs.map (fun o => ([o], (0 : ℚ), (none : Option (NodeKey × NodeKey)))) := by
      rw [hshape, ← hpreflen, List.take_left]
    have h2 := congrArg (List.map (fun t : List String × ℚ × Option (NodeKey × NodeKey)
      => t.1)) h1
    rw [← List.map_take, List.map_map, List.map_map] at h2
    exact h2
  · intro nd hnd
    have h1 : ((build dm crit).clusters.take dm.obs.length).map
        (fun nd => (nd.id, nd.depth, nd.children))
        = dm.obs.map (fun o => ([o], (0 : ℚ), (none : Option (NodeKey × NodeKey)))) := by
      rw [List.map_take, hshape, ← hpreflen, List.take_left]
    have h2 : (nd.id, nd.depth, nd.children) ∈ dm.obs.map
        (fun o => (([o] : List String), (0 : ℚ), (none : Option (NodeKey × NodeKey)))) := by
      rw [← h1]
      exact List.mem_map.2 ⟨nd, hnd, rfl⟩
    obtain ⟨o, _, hF⟩ := List.mem_map.1 h2
    exact (congrArg (fun t : List String × ℚ × Option (NodeKey × NodeKey) => t.2.2)
      hF).symm
  · intro nd hnd
    have h1 : ((build dm crit).clusters.drop dm.obs.length).map
        (fun nd => (nd.id, nd.depth, nd.children)) = tail := by
      rw [List.map_drop, hshape, ← hpreflen, List.drop_left]
    have h2 : (nd.id, nd.depth, nd.children) ∈ tail := by
      rw [← h1]
      exact List.mem_map.2 ⟨nd, hnd, rfl⟩
    exact htail _ h2
  · obtain ⟨last, hlast, hperm⟩ := @build_trunk_perm dm crit hwf hN
    exact ⟨last, hlast, hperm, fun o ho =>
      (hperm.count_eq o).trans (List.count_eq_one_of_mem hwf.1 ho)⟩

theorem claim_C1_witness :
    WFdm smallDM ∧ 1 ≤ smallDM.obs.length ∧
    ((build smallDM Criterion.average).clusters.length = 2 * smallDM.obs.length - 1 ∧
    ((build smallDM Criterion.average).clusters.take smallDM.obs.length).map Node.id
        = smallDM.obs.map (fun o => [o]) ∧
    (∀ nd ∈ (build smallDM Criterion.average).clusters.take smallDM.obs.length,
      nd.children = none) ∧
    (∀ nd ∈ (build smallDM Criterion.average).clusters.drop smallDM.obs.length,
      nd.children ≠ none) ∧
    ∃ last : Node, (build smallDM Criterion.average).clusters.getLast? = some last ∧
      last.id.Perm smallDM.obs ∧ ∀ o ∈ smallDM.obs, last.id.count o = 1) :=
  ⟨by decide, by decide, claim_C1 smallDM Criterion.average (by decide) (by decide)⟩

/-- C2: in every dendrogram the builder produces from a well-formed table,
every leaf node has height 0, and every internal node's height is exactly
half the raw `_linkage` distance (on the original matrix) between its two
children — and its member tuple is the first child's members followed by the
second child's members. -/
theorem claim_C2 (dm : DistanceMatrix String) (crit : Criterion) (hwf : WFdm dm) :
    ∀ nd ∈ (build dm crit).clusters,
      (nd.children = none → nd.depth = 0) ∧
      (∀ k1 k2, nd.children = some (k1, k2) →
        nd.depth = linkage dm crit k1.id k2.id * (1 / 2) ∧ nd.id = k1.id ++ k2.id) := by
  obtain ⟨hinv, _⟩ := build_inv hwf crit
  intro nd hnd
  refine ⟨(hinv.depths nd hnd).1, fun k1 k2 hch => ?_⟩
  exact ⟨(hinv.depths nd hnd).2 k1 k2 hch, built_children_id hinv.built nd hnd k1 k2 hch⟩

theorem claim_C2_witness :
    WFdm smallDM ∧
    (∀ nd ∈ (build smallDM Criterion.average).clusters,
      (nd.children = none → nd.depth = 0) ∧
      (∀ k1 k2, nd.children = some (k1, k2) →
        nd.depth = linkage smallDM Criterion.average k1.id k2.id * (1 / 2) ∧
        nd.id = k1.id ++ k2.id)) :=
  ⟨by decide, claim_C2 smallDM Criterion.average (by decide)⟩

/-- C7: the claim says the trunk accessor returns the member tuple of the
last element of `clusters`; the code's `_get_trunk` reads `.id` off the
uncalled bound method `self._trunk` and therefore raises `AttributeError` on
every access.  On every built dendrogram the claimed value exists — the final
node is there and `trunkSpec` (the spec's words: `clusters[-1]`'s member
tuple) yields it, a permutation of the observations — but the accessor
embedded from the source yields no value at all, so the claim is false of the
program. -/
theorem claim_C7 (dm : DistanceMatrix String) (crit : Criterion)
    (hwf : WFdm dm) (hN : 1 ≤ dm.obs.length) :
    (build dm crit).trunk = none ∧
    ∃ last : Node, (build dm crit).clusters.getLast? = some last ∧
      trunkSpec (build dm crit) = some last.id ∧ last.id.Perm dm.obs := by
  obtain ⟨last, hlast, hperm⟩ := @build_trunk_perm dm crit hwf hN
  refine ⟨rfl, last, hlast, ?_, hperm⟩
  unfold trunkSpec
  rw [hlast]
  rfl

theorem claim_C7_witness :
    WFdm smallDM ∧ 1 ≤ smallDM.obs.length ∧
    ((build smallDM Criterion.average).trunk = none ∧
    ∃ last : Node, (build smallDM Criterion.average).clusters.getLast? = some last ∧
      trunkSpec (build smallDM Criterion.average) = some last.id ∧
      last.id.Perm smallDM.obs) :=
  ⟨by decide, by decide, claim_C7 smallDM Criterion.average (by decide) (by decide)⟩

/-! ## The cluster forest -/

theorem ids_disjoint_of_join_perm {ks : List NodeKey} {allObs : List String}
    (hnd : allObs.Nodup)
    (hperm : ((ks.map NodeKey.id).flatten).Perm allObs) :
    ∀ x ∈ ks, ∀ y ∈ ks, x ≠ y → ∀ o ∈ x.id, o ∉ y.id := by
  have hflat : ((ks.map NodeKey.id).flatten).Nodup := (hperm.nodup_iff).2 hnd
  have hpair : List.Pairwise List.Disjoint (ks.map NodeKey.id) :=
    (List.nodup_flatten.1 hflat).2
  intro x hx y hy hne o hox hoy
  obtain ⟨⟨i, hi⟩, hgi⟩ := List.mem_iff_get.1 hx
  obtain ⟨⟨j, hj⟩, hgj⟩ := List.mem_iff_get.1 hy
  have hij : i ≠ j := by
    intro hcon
    apply hne
    rw [← hgi, ← hgj]
    congr 1
    exact Fin.ext hcon
  rw [List.pairwise_iff_getElem] at hpair
  have hgi2 : ks[i] = x := by rw [← hgi]; simp [List.get_eq_getElem]
  have hgj2 : ks[j] = y := by rw [← hgj]; simp [List.get_eq_getElem]
  rcases Nat.lt_or_ge i j with hlt | hge
  · have hd := hpair i j (by simpa using hi) (by simpa using hj) hlt
    rw [List.getElem_map, List.getElem_map] at hd
    exact hd (hgi2 ▸ hox) (hgj2 ▸ hoy)
  · have hlt : j < i := by omega
    have hd := hpair j i (by simpa using hj) (by simpa using hi) hlt
    rw [List.getElem_map, List.getElem_map] at hd
    exact hd.symm (hgi2 ▸ hox) (hgj2 ▸ hoy)

theorem key_unique {L : List Node} (hnd : (L.map Node.key).Nodup) :
    ∀ u ∈ L, ∀ v ∈ L, u.key = v.key → u = v :=
  fun u hu v hv h => List.inj_on_of_nodup_map hnd hu hv h

theorem mergeImg_key (a b c : NodeKey) (u : Node) : (mergeImg a b c u).key = u.key := by
  unfold mergeImg
  split <;> rfl

theorem mergeImg_id (a b c : NodeKey) (u : Node) : (mergeImg a b c u).id = u.id := by
  unfold mergeImg
  split <;> rfl

theorem mergeImg_depth (a b c : NodeKey) (u : Node) :
    (mergeImg a b c u).depth = u.depth := by
  unfold mergeImg
  split <;> rfl

theorem mergeImg_children (a b c : NodeKey) (u : Node) :
    (mergeImg a b c u).children = u.children := by
  unfold mergeImg
  split <;> rfl

theorem mergeImg_parent_hit {a b c : NodeKey} {u : Node}
    (h : u.key = a ∨ u.key = b) : (mergeImg a b c u).parent = some c := by
  unfold mergeImg
  simp [h]

theorem mergeImg_parent_miss {a b c : NodeKey} {u : Node}
    (h : ¬(u.key = a ∨ u.key = b)) : mergeImg a b c u = u := by
  unfold mergeImg
  simp [h]

theorem cluster_parent_two {L : List Node} {a b c : NodeKey} (hne : a ≠ b) :
    cluster_parent (cluster_parent L a c) b c = L.map (mergeImg a b c) := by
  unfold cluster_parent
  rw [List.map_map]
  apply List.map_congr_left
  intro u _
  simp only [Function.comp]
  by_cases hua : u.key = a
  · rw [if_pos hua,
      show ({ u with parent := some c } : Node).key = u.key from rfl, hua,
      if_neg hne]
    unfold mergeImg
    rw [if_pos (Or.inl hua)]
  · rw [if_neg hua]
    by_cases hub : u.key = b
    · rw [if_pos hub]
      unfold mergeImg
      rw [if_pos (Or.inr hub)]
    · rw [if_neg hub]
      unfold mergeImg
      rw [if_neg (by tauto)]

theorem anc_trans {L : List Node} {u v w : Node} (h1 : Anc L u v) (h2 : Anc L v w) :
    Anc L u w := by
  induction h1 with
  | refl => exact h2
  | step hp hmem hkey _ ih => exact Anc.step hp hmem hkey (ih h2)

theorem anc_map_mergeImg {L : List Node} {a b c : NodeKey} {cRec : Node}
    (hopen : ∀ u ∈ L, (u.key = a ∨ u.key = b) → u.parent = none) :
    ∀ u ∈ L, ∀ v : Node, Anc L u v →
      Anc (L.map (mergeImg a b c) ++ [cRec]) (mergeImg a b c u) (mergeImg a b c v) := by
  intro u hu v hanc
  induction hanc with
  | refl => exact Anc.refl _
  | step hp hmem hkey hrest ih =>
    rename_i nd p vv pk
    have hndk : ¬(nd.key = a ∨ nd.key = b) := by
      intro hk
      rw [hopen nd hu hk] at hp
      cases hp
    have himg : mergeImg a b c nd = nd := mergeImg_parent_miss hndk
    rw [himg]
    exact Anc.step hp
      (List.mem_append.2 (Or.inl (List.mem_map.2 ⟨p, hmem, rfl⟩)))
      (by rw [mergeImg_key]; exact hkey) (ih hmem)

theorem erase2_eq_filter {ks : List NodeKey} (hnd : ks.Nodup) (a b : NodeKey) :
    (ks.erase a).erase b = ks.filter (fun k => ¬(k = a ∨ k = b)) := by
  rw [hnd.erase_eq_filter a, ((hnd.filter _)).erase_eq_filter b, List.filter_filter]
  apply List.filter_congr
  intro k _
  by_cases hka : k = a <;> by_cases hkb : k = b <;> simp [hka, hkb]

theorem forest_init {allObs : List String} (hnd : allObs.Nodup) :
    ForestInv allObs (allObs.map fun o => { id := [o], depth := 0 })
      (allObs.map fun o => ⟨[o], 0⟩) := by
  have hmemL : ∀ nd ∈ (allObs.map fun o => ({ id := [o], depth := 0 } : Node)),
      ∃ o ∈ allObs, nd = { id := [o], depth := 0 } := by
    intro nd hnd2
    obtain ⟨o, ho, hF⟩ := List.mem_map.1 hnd2
    exact ⟨o, ho, hF.symm⟩
  refine { keys_nodup := ?_, opens_eq := ?_, join_perm := ?_, ids_ne := ?_,
           ids_nodup := ?_, ids_sub := ?_, covered := ?_, nested := ?_,
           sub_eq := ?_, anc_of_sub := ?_, parent_spec := ?_, parent_idx := ?_,
           children_spec := ?_, leaf_depth := ?_, leaves_eq := ?_ }
  · rw [List.map_map]
    exact hnd.map singletonKey_inj
  · rw [List.filter_eq_self.2 (by intro nd hnd2; obtain ⟨o, _, rfl⟩ := hmemL nd hnd2; simp),
      List.map_map]
    rfl
  · rw [List.map_map]
    have he : (NodeKey.id ∘ fun o => (⟨[o], 0⟩ : NodeKey)) = fun o => ([o] : List String) := rfl
    rw [he, flatten_singletons]
  · intro nd hnd2
    obtain ⟨o, _, rfl⟩ := hmemL nd hnd2
    simp
  · intro nd hnd2
    obtain ⟨o, _, rfl⟩ := hmemL nd hnd2
    simp
  · intro nd hnd2
    obtain ⟨o, ho, rfl⟩ := hmemL nd hnd2
    intro o2 ho2
    simp only [List.mem_singleton] at ho2
    rw [ho2]
    exact ho
  · intro nd hnd2
    obtain ⟨o, ho, rfl⟩ := hmemL nd hnd2
    exact ⟨⟨[o], 0⟩, List.mem_map.2 ⟨o, ho, rfl⟩, fun o2 ho2 => ho2⟩
  · intro u hu v hv o hou hov
    obtain ⟨o1, _, rfl⟩ := hmemL u hu
    obtain ⟨o2, _, rfl⟩ := hmemL v hv
    simp only [List.mem_singleton] at hou hov
    left
    intro p hp
    simp only [List.mem_singleton] at hp ⊢
    rw [hp, ← hou, hov]
  · intro u hu v hv h1 h2
    obtain ⟨o1, _, rfl⟩ := hmemL u hu
    obtain ⟨o2, _, rfl⟩ := hmemL v hv
    have : o1 ∈ ([o2] : List String) := h1 o1 (by simp)
    simp only [List.mem_singleton] at this
    rw [this]
  · intro u hu v hv h1
    obtain ⟨o1, _, hu2⟩ := hmemL u hu
    obtain ⟨o2, _, hv2⟩ := hmemL v hv
    have heq : o1 ∈ ([o2] : List String) := by
      have := h1 o1 (by rw [hu2]; simp)
      rwa [hv2] at this
    simp only [List.mem_singleton] at heq
    have : u = v := by rw [hu2, hv2, heq]
    rw [this]
    exact Anc.refl v
  · intro nd hnd2 pk hpk
    obtain ⟨o, _, rfl⟩ := hmemL nd hnd2
    exact absurd hpk (by simp)
  · intro i hi pk hpk
    have : (allObs.map fun o => ({ id := [o], depth := 0 } : Node)).get ⟨i, hi⟩
        ∈ allObs.map fun o => ({ id := [o], depth := 0 } : Node) :=
      List.get_mem _ _ _
    obtain ⟨o, _, hF⟩ := hmemL _ this
    rw [hF] at hpk
    exact absurd hpk (by simp)
  · intro nd hnd2 k1 k2 hch
    obtain ⟨o, _, rfl⟩ := hmemL nd hnd2
    exact absurd hch (by simp)
  · intro nd hnd2 _
    obtain ⟨o, _, rfl⟩ := hmemL nd hnd2
    rfl
  · rw [List.filter_eq_self.2 (by intro nd hnd2; obtain ⟨o, _, rfl⟩ := hmemL nd hnd2; simp),
      List.map_map]
    rfl

theorem forest_step {allObs : List String} {L : List Node} {opens : List NodeKey}
    (hnd : allObs.Nodup) (hf : ForestInv allObs L opens)
    {a b : NodeKey} {h : ℚ} (ha : a ∈ opens) (hb : b ∈ opens) (hne : a ≠ b)
    (hda : a.depth ≤ h) (hdb : b.depth ≤ h) :
    ForestInv allObs
      (L.map (mergeImg a b ⟨a.id ++ b.id, h⟩)
        ++ [{ id := a.id ++ b.id, depth := h, parent := none,
              children := some (a, b) }])
      ((opens.erase a).erase b ++ [⟨a.id ++ b.id, h⟩]) := by
  set c : NodeKey := ⟨a.id ++ b.id, h⟩ with hcdef
  set cR : Node := { id := a.id ++ b.id, depth := h, parent := none, children := some (a, b) } with hcRdef
  have hcRkey : cR.key = c := rfl
  have hcRid : cR.id = a.id ++ b.id := rfl
  have hcid : c.id = a.id ++ b.id := rfl
  have keyu := key_unique hf.keys_nodup
  have hopens_nodup : opens.Nodup := by
    rw [hf.opens_eq]
    exact ((List.filter_sublist L).map Node.key).nodup hf.keys_nodup
  have hodisj := ids_disjoint_of_join_perm hnd hf.join_perm
  have hopenrec : ∀ k ∈ opens, ∃ K, K ∈ L ∧ K.key = k ∧ K.parent = none := by
    intro k hk
    rw [hf.opens_eq] at hk
    obtain ⟨K, hKf, hKkey⟩ := List.mem_map.1 hk
    obtain ⟨hKL, hKp⟩ := List.mem_filter.1 hKf
    exact ⟨K, hKL, hKkey, by simpa using hKp⟩
  obtain ⟨A, hAL, hAkey, hAnone⟩ := hopenrec a ha
  obtain ⟨B, hBL, hBkey, hBnone⟩ := hopenrec b hb
  have hAid : A.id = a.id := congrArg NodeKey.id hAkey
  have hBid : B.id = b.id := congrArg NodeKey.id hBkey
  have hopen_ab : ∀ u ∈ L, (u.key = a ∨ u.key = b) → u.parent = none := by
    intro u hu hk
    rcases hk with hk | hk
    · rw [keyu u hu A hAL (hk.trans hAkey.symm)]
      exact hAnone
    · rw [keyu u hu B hBL (hk.trans hBkey.symm)]
      exact hBnone
  have hopens_idne : ∀ k ∈ opens, k.id ≠ [] := by
    intro k hk
    obtain ⟨K, hKL, hKkey, _⟩ := hopenrec k hk
    rw [← congrArg NodeKey.id hKkey]
    exact hf.ids_ne K hKL
  have haid_ne : a.id ≠ [] := hopens_idne a ha
  have hbid_ne : b.id ≠ [] := hopens_idne b hb
  have hopen_max : ∀ u ∈ L, ∀ k ∈ opens, (∀ o ∈ k.id, o ∈ u.id) →
      ∀ o ∈ u.id, o ∈ k.id := by
    intro u hu k hk hsub
    obtain ⟨w, hw, hcov⟩ := hf.covered u hu
    by_cases hkw : k = w
    · subst hkw
      exact hcov
    · exfalso
      obtain ⟨o, ho⟩ := List.exists_mem_of_ne_nil k.id (hopens_idne k hk)
      exact hodisj k hk w hw hkw o ho (hcov o (hsub o ho))
  have hsub_ac : ∀ o ∈ a.id, o ∈ c.id := fun o ho => List.mem_append.2 (Or.inl ho)
  have hsub_bc : ∀ o ∈ b.id, o ∈ c.id := fun o ho => List.mem_append.2 (Or.inr ho)
  have hc_fresh : ∀ u ∈ L, ¬((∀ o ∈ u.id, o ∈ c.id) ∧ (∀ o ∈ c.id, o ∈ u.id)) := by
    rintro u hu ⟨_, h2⟩
    have hau : ∀ o ∈ a.id, o ∈ u.id := fun o ho => h2 o (hsub_ac o ho)
    have hua : ∀ o ∈ u.id, o ∈ a.id := hopen_max u hu a ha hau
    obtain ⟨o, ho⟩ := List.exists_mem_of_ne_nil b.id hbid_ne
    exact hodisj a ha b hb hne o (hua o (h2 o (hsub_bc o ho))) ho
  have hc_freshkey : ∀ u ∈ L, u.key ≠ c := by
    intro u hu hcon
    have hido : u.id = c.id := congrArg NodeKey.id hcon
    exact hc_fresh u hu ⟨fun o ho => hido ▸ ho, fun o ho => hido.symm ▸ ho⟩
  have hsub_c : ∀ u ∈ L, ∀ o, o ∈ u.id → o ∈ c.id →
      (∀ p ∈ u.id, p ∈ a.id) ∨ (∀ p ∈ u.id, p ∈ b.id) := by
    intro u hu o hou hoc
    rcases List.mem_append.1 hoc with hoa | hob
    · rcases hf.nested u hu A hAL o hou (by rw [hAid]; exact hoa) with hs | hs
      · left
        intro p hp
        rw [← hAid]
        exact hs p hp
      · left
        refine hopen_max u hu a ha ?_
        intro o2 ho2
        exact hs o2 (by rw [hAid]; exact ho2)
    · rcases hf.nested u hu B hBL o hou (by rw [hBid]; exact hob) with hs | hs
      · right
        intro p hp
        rw [← hBid]
        exact hs p hp
      · right
        refine hopen_max u hu b hb ?_
        intro o2 ho2
        exact hs o2 (by rw [hBid]; exact ho2)
  have hdecomp : ∀ u' ∈ L.map (mergeImg a b c) ++ [cR],
      (∃ u, u ∈ L ∧ u' = mergeImg a b c u) ∨ u' = cR := by
    intro u' hu'
    rcases List.mem_append.1 hu' with h1 | h1
    · obtain ⟨u, hu, hF⟩ := List.mem_map.1 h1
      exact Or.inl ⟨u, hu, hF.symm⟩
    · exact Or.inr (List.mem_singleton.1 h1)
  have himgL : ∀ u ∈ L, mergeImg a b c u ∈ L.map (mergeImg a b c) ++ [cR] :=
    fun u hu => List.mem_append.2 (Or.inl (List.mem_map.2 ⟨u, hu, rfl⟩))
  have hcRmem : cR ∈ L.map (mergeImg a b c) ++ [cR] :=
    List.mem_append.2 (Or.inr (List.mem_singleton.2 rfl))
  refine { keys_nodup := ?_, opens_eq := ?_, join_perm := ?_, ids_ne := ?_,
           ids_nodup := ?_, ids_sub := ?_, covered := ?_, nested := ?_,
           sub_eq := ?_, anc_of_sub := ?_, parent_spec := ?_, parent_idx := ?_,
           children_spec := ?_, leaf_depth := ?_, leaves_eq := ?_ }
  · -- keys_nodup
    rw [List.map_append, List.map_map]
    have he : (Node.key ∘ mergeImg a b c) = Node.key := funext (mergeImg_key a b c)
    rw [he]
    refine List.Nodup.append hf.keys_nodup (by simp) ?_
    intro k hk
    obtain ⟨u, hu, hF⟩ := List.mem_map.1 hk
    simp only [List.map_cons, List.map_nil, List.mem_singleton]
    intro hcon
    exact hc_freshkey u hu (by rw [hF, hcon, hcRkey])
  · -- opens_eq
    rw [List.filter_append, List.filter_map, List.map_append, List.map_map]
    have he : (Node.key ∘ mergeImg a b c) = Node.key := funext (mergeImg_key a b c)
    rw [he, erase2_eq_filter hopens_nodup, hf.opens_eq, List.filter_map,
      List.filter_filter]
    congr 1
    · congr 1
      apply List.filter_congr
      intro u _
      by_cases h1 : u.parent = none <;> by_cases h2 : u.key = a <;>
        by_cases h3 : u.key = b <;>
        simp [Function.comp, mergeImg, h1, h2, h3]
  · -- join_perm
    rw [List.map_append]
    have h1 : ((((opens.erase a).erase b).map NodeKey.id) ++ [c].map NodeKey.id).flatten
        = (((opens.erase a).erase b).map NodeKey.id).flatten ++ c.id := by
      rw [List.flatten_append]
      simp
    rw [h1]
    have hperm0 := erase2_perm hopens_nodup ha hb hne
    have h2 : ((opens.map NodeKey.id).flatten).Perm
        (((a :: b :: (opens.erase a).erase b).map NodeKey.id)).flatten :=
      (hperm0.map NodeKey.id).flatten
    have h3 : (((a :: b :: (opens.erase a).erase b).map NodeKey.id)).flatten
        = a.id ++ (b.id ++ (((opens.erase a).erase b).map NodeKey.id).flatten) := by
      simp
    refine List.Perm.trans ?_ hf.join_perm
    refine List.Perm.trans ?_ h2.symm
    rw [h3, hcid]
    refine List.Perm.trans (List.perm_append_comm) ?_
    rw [List.append_assoc]
  · -- ids_ne
    intro nd hnd2
    rcases hdecomp nd hnd2 with ⟨u, hu, rfl⟩ | rfl
    · rw [mergeImg_id]
      exact hf.ids_ne u hu
    · rw [hcRid]
      exact fun hcon => haid_ne (List.append_eq_nil.1 hcon).1
  · -- ids_nodup
    intro nd hnd2
    rcases hdecomp nd hnd2 with ⟨u, hu, rfl⟩ | rfl
    · rw [mergeImg_id]
      exact hf.ids_nodup u hu
    · rw [hcRid]
      refine List.Nodup.append (hAid ▸ hf.ids_nodup A hAL) (hBid ▸ hf.ids_nodup B hBL) ?_
      rw [List.disjoint_left]
      intro o hoa hob
      exact hodisj a ha b hb hne o hoa hob
  · -- ids_sub
    intro nd hnd2 o ho
    rcases hdecomp nd hnd2 with ⟨u, hu, rfl⟩ | rfl
    · rw [mergeImg_id] at ho
      exact hf.ids_sub u hu o ho
    · rw [hcRid] at ho
      rcases List.mem_append.1 ho with h1 | h1
      · exact hf.ids_sub A hAL o (hAid ▸ h1)
      · exact hf.ids_sub B hBL o (hBid ▸ h1)
  · -- covered
    intro nd hnd2
    rcases hdecomp nd hnd2 with ⟨u, hu, rfl⟩ | rfl
    · obtain ⟨k, hk, hcov⟩ := hf.covered u hu
      by_cases hka : k = a
      · refine ⟨c, List.mem_append.2 (Or.inr (by simp)), ?_⟩
        intro o ho
        rw [mergeImg_id] at ho
        exact hsub_ac o (hka ▸ hcov o ho)
      · by_cases hkb : k = b
        · refine ⟨c, List.mem_append.2 (Or.inr (by simp)), ?_⟩
          intro o ho
          rw [mergeImg_id] at ho
          exact hsub_bc o (hkb ▸ hcov o ho)
        · refine ⟨k, List.mem_append.2 (Or.inl ((mem_erase2 hopens_nodup).2
            ⟨hk, hka, hkb⟩)), ?_⟩
          intro o ho
          rw [mergeImg_id] at ho
          exact hcov o ho
    · exact ⟨c, List.mem_append.2 (Or.inr (by simp)), fun o ho => ho⟩
  · -- nested
    intro u' hu' v' hv' o hou hov
    rcases hdecomp u' hu' with ⟨u, hu, rfl⟩ | rfl <;>
      rcases hdecomp v' hv' with ⟨v, hv, rfl⟩ | rfl
    · rw [mergeImg_id] at hou hov
      rcases hf.nested u hu v hv o hou hov with hs | hs
      · left
        intro p hp
        rw [mergeImg_id] at hp ⊢
        exact hs p hp
      · right
        intro p hp
        rw [mergeImg_id] at hp ⊢
        exact hs p hp
    · rw [mergeImg_id] at hou
      left
      rcases hsub_c u hu o hou hov with hs | hs
      · intro p hp
        rw [mergeImg_id] at hp
        exact hsub_ac p (hs p hp)
      · intro p hp
        rw [mergeImg_id] at hp
        exact hsub_bc p (hs p hp)
    · rw [mergeImg_id] at hov
      right
      rcases hsub_c v hv o hov hou with hs | hs
      · intro p hp
        rw [mergeImg_id] at hp
        exact hsub_ac p (hs p hp)
      · intro p hp
        rw [mergeImg_id] at hp
        exact hsub_bc p (hs p hp)
    · left
      exact fun p hp => hp
  · -- sub_eq
    intro u' hu' v' hv' h1 h2
    rcases hdecomp u' hu' with ⟨u, hu, rfl⟩ | rfl <;>
      rcases hdecomp v' hv' with ⟨v, hv, rfl⟩ | rfl
    · rw [show u = v from hf.sub_eq u hu v hv
        (fun o ho => by
          have := h1 o (by rw [mergeImg_id]; exact ho)
          rwa [mergeImg_id] at this)
        (fun o ho => by
          have := h2 o (by rw [mergeImg_id]; exact ho)
          rwa [mergeImg_id] at this)]
    · exfalso
      refine hc_fresh u hu ⟨?_, ?_⟩
      · intro o ho
        exact h1 o (by rw [mergeImg_id]; exact ho)
      · intro o ho
        have := h2 o ho
        rwa [mergeImg_id] at this
    · exfalso
      refine hc_fresh v hv ⟨?_, ?_⟩
      · intro o ho
        exact h2 o (by rw [mergeImg_id]; exact ho)
      · intro o ho
        have := h1 o ho
        rwa [mergeImg_id] at this
    · rfl
  · -- anc_of_sub
    intro u' hu' v' hv' hsub
    rcases hdecomp u' hu' with ⟨u, hu, rfl⟩ | rfl <;>
      rcases hdecomp v' hv' with ⟨v, hv, rfl⟩ | rfl
    · refine anc_map_mergeImg hopen_ab u hu v (hf.anc_of_sub u hu v hv ?_)
      intro o ho
      have := hsub o (by rw [mergeImg_id]; exact ho)
      rwa [mergeImg_id] at this
    · obtain ⟨o, ho⟩ := List.exists_mem_of_ne_nil u.id (hf.ids_ne u hu)
      have hoc : o ∈ c.id := hsub o (by rw [mergeImg_id]; exact ho)
      rcases hsub_c u hu o ho hoc with hs | hs
      · have hanc1 : Anc L u A := hf.anc_of_sub u hu A hAL
          (fun p hp => by rw [hAid]; exact hs p hp)
        refine anc_trans (anc_map_mergeImg hopen_ab u hu A hanc1) ?_
        exact Anc.step (mergeImg_parent_hit (Or.inl hAkey)) hcRmem hcRkey (Anc.refl cR)
      · have hanc1 : Anc L u B := hf.anc_of_sub u hu B hBL
          (fun p hp => by rw [hBid]; exact hs p hp)
        refine anc_trans (anc_map_mergeImg hopen_ab u hu B hanc1) ?_
        exact Anc.step (mergeImg_parent_hit (Or.inr hBkey)) hcRmem hcRkey (Anc.refl cR)
    · exfalso
      have hav : ∀ o ∈ a.id, o ∈ v.id := by
        intro o ho
        have := hsub o (hsub_ac o ho)
        rwa [mergeImg_id] at this
      have hva : ∀ o ∈ v.id, o ∈ a.id := hopen_max v hv a ha hav
      obtain ⟨o, ho⟩ := List.exists_mem_of_ne_nil b.id hbid_ne
      have hbv : o ∈ v.id := by
        have := hsub o (hsub_bc o ho)
        rwa [mergeImg_id] at this
      exact hodisj a ha b hb hne o (hva o hbv) ho
    · exact Anc.refl cR
  · -- parent_spec
    intro nd hnd2 pk hpk
    rcases hdecomp nd hnd2 with ⟨u, hu, rfl⟩ | rfl
    · by_cases hk : u.key = a ∨ u.key = b
      · have hpc : (mergeImg a b c u).parent = some c := mergeImg_parent_hit hk
        rw [hpc] at hpk
        have hpkc : pk = c := (Option.some_inj.1 hpk).symm
        refine ⟨cR, hcRmem, ?_, ?_, a, b, rfl, ?_⟩
        · rw [hcRkey, hpkc]
        · rw [mergeImg_depth]
          rcases hk with hk2 | hk2
          · rw [keyu u hu A hAL (hk2.trans hAkey.symm),
              show A.depth = a.depth from congrArg NodeKey.depth hAkey]
            exact hda
          · rw [keyu u hu B hBL (hk2.trans hBkey.symm),
              show B.depth = b.depth from congrArg NodeKey.depth hBkey]
            exact hdb
        · rw [mergeImg_key]
          exact hk
      · rw [mergeImg_parent_miss hk] at hpk
        obtain ⟨p, hpL, hpkey, hpdepth, k1, k2, hpch, hndk⟩ :=
          hf.parent_spec u hu pk hpk
        refine ⟨mergeImg a b c p, himgL p hpL, ?_, ?_, k1, k2, ?_, ?_⟩
        · rw [mergeImg_key]
          exact hpkey
        · rw [mergeImg_depth, mergeImg_depth]
          exact hpdepth
        · rw [mergeImg_children]
          exact hpch
        · rw [mergeImg_key]
          exact hndk
    · exact Option.noConfusion hpk
  · -- parent_idx
    intro i hi pk hpk
    have hlen : (L.map (mergeImg a b c) ++ [cR]).length = L.length + 1 := by
      simp
    by_cases hiL : i < L.length
    · have hgi : (L.map (mergeImg a b c) ++ [cR]).get ⟨i, hi⟩
          = mergeImg a b c (L.get ⟨i, hiL⟩) := by
        rw [List.get_eq_getElem, List.get_eq_getElem,
          List.getElem_append_left (by simpa using hiL), List.getElem_map]
      by_cases hk : (L.get ⟨i, hiL⟩).key = a ∨ (L.get ⟨i, hiL⟩).key = b
      · have hpc : (mergeImg a b c (L.get ⟨i, hiL⟩)).parent = some c :=
          mergeImg_parent_hit hk
        rw [hgi, hpc] at hpk
        have hpkc : pk = c := (Option.some_inj.1 hpk).symm
        refine ⟨L.length, by omega, hiL, ?_⟩
        have hgj : (L.map (mergeImg a b c) ++ [cR]).get ⟨L.length, by omega⟩ = cR := by
          rw [List.get_eq_getElem]
          exact List.getElem_concat_length (L.map (mergeImg a b c)) cR L.length
            (by simp) (by simp)
        rw [hgj, hcRkey, hpkc]
      · rw [hgi, mergeImg_parent_miss hk] at hpk
        obtain ⟨j, hj, hij, hkey⟩ := hf.parent_idx i hiL pk hpk
        refine ⟨j, by omega, hij, ?_⟩
        have hgj : (L.map (mergeImg a b c) ++ [cR]).get ⟨j, by omega⟩
            = mergeImg a b c (L.get ⟨j, hj⟩) := by
          rw [List.get_eq_getElem, List.get_eq_getElem,
            List.getElem_append_left (by simpa using hj), List.getElem_map]
        rw [hgj, mergeImg_key]
        exact hkey
    · have hieq : i = (L.map (mergeImg a b c)).length := by
        rw [hlen] at hi
        simp only [List.length_map]
        omega
      have hgi : (L.map (mergeImg a b c) ++ [cR]).get ⟨i, hi⟩ = cR := by
        rw [List.get_eq_getElem]
        exact List.getElem_concat_length (L.map (mergeImg a b c)) cR i hieq hi
      rw [hgi] at hpk
      exact Option.noConfusion hpk
  · -- children_spec
    intro nd hnd2 k1 k2 hch
    rcases hdecomp nd hnd2 with ⟨u, hu, rfl⟩ | rfl
    · rw [mergeImg_children] at hch
      obtain ⟨hne12, hid, ⟨r1, hr1L, hr1key, hr1par⟩, ⟨r2, hr2L, hr2key, hr2par⟩⟩ :=
        hf.children_spec u hu k1 k2 hch
      have hr1not : ¬(r1.key = a ∨ r1.key = b) := by
        intro hcon
        rw [hopen_ab r1 hr1L hcon] at hr1par
        cases hr1par
      have hr2not : ¬(r2.key = a ∨ r2.key = b) := by
        intro hcon
        rw [hopen_ab r2 hr2L hcon] at hr2par
        cases hr2par
      refine ⟨hne12, by rw [mergeImg_id]; exact hid, ?_, ?_⟩
      · refine ⟨mergeImg a b c r1, himgL r1 hr1L, ?_, ?_⟩
        · rw [mergeImg_key]
          exact hr1key
        · rw [mergeImg_parent_miss hr1not, mergeImg_key]
          exact hr1par
      · refine ⟨mergeImg a b c r2, himgL r2 hr2L, ?_, ?_⟩
        · rw [mergeImg_key]
          exact hr2key
        · rw [mergeImg_parent_miss hr2not, mergeImg_key]
          exact hr2par
    · have hab : (k1, k2) = (a, b) := by
        have h0 : cR.children = some (a, b) := rfl
        rw [hch] at h0
        exact Option.some_inj.1 h0
      have hk1 : k1 = a := congrArg Prod.fst hab
      have hk2 : k2 = b := congrArg Prod.snd hab
      rw [hk1, hk2]
      refine ⟨hne, hcRid, ?_, ?_⟩
      · refine ⟨mergeImg a b c A, himgL A hAL, ?_, ?_⟩
        · rw [mergeImg_key]
          exact hAkey
        · rw [mergeImg_parent_hit (Or.inl hAkey), hcRkey]
      · refine ⟨mergeImg a b c B, himgL B hBL, ?_, ?_⟩
        · rw [mergeImg_key]
          exact hBkey
        · rw [mergeImg_parent_hit (Or.inr hBkey), hcRkey]
  · -- leaf_depth
    intro nd hnd2 hch
    rcases hdecomp nd hnd2 with ⟨u, hu, rfl⟩ | rfl
    · rw [mergeImg_children] at hch
      rw [mergeImg_depth]
      exact hf.leaf_depth u hu hch
    · exact Option.noConfusion hch
  · -- leaves_eq
    rw [List.filter_append, List.filter_map]
    have hfeq : L.filter ((fun nd => decide (nd.children = none)) ∘ mergeImg a b c)
        = L.filter (fun nd => decide (nd.children = none)) := by
      apply List.filter_congr
      intro u _
      simp [Function.comp, mergeImg_children]
    rw [hfeq, List.map_append, List.map_map]
    have he : (Node.id ∘ mergeImg a b c) = Node.id := funext (mergeImg_id a b c)
    rw [he]
    have hcRf : ([cR].filter (fun nd => decide (nd.children = none))).map Node.id
        = [] := by
      rw [hcRdef]
      rfl
    rw [hcRf, List.append_nil]
    exact hf.leaves_eq

theorem built_forest {allObs : List String} (hnd : allObs.Nodup)
    {L : List Node} {opens : List NodeKey} (hB : Built allObs L opens) :
    ForestInv allObs L opens := by
  induction hB with
  | init => exact forest_init hnd
  | step L0 opens0 a b h _ ha hb hne hda hdb ih =>
    rw [cluster_parent_two hne]
    exact forest_step hnd ih ha hb hne hda hdb

theorem anc_sub {allObs : List String} {L : List Node} {opens : List NodeKey}
    (hf : ForestInv allObs L opens) :
    ∀ u ∈ L, ∀ v : Node, Anc L u v → ∀ o ∈ u.id, o ∈ v.id := by
  intro u hu v hanc
  induction hanc with
  | refl => exact fun o ho => ho
  | step hp hmem hkey hrest ih =>
    rename_i nd p vv pk
    intro o ho
    refine ih hmem o ?_
    obtain ⟨p', hp'L, hp'key, _, k1, k2, hch, hkor⟩ := hf.parent_spec nd hu pk hp
    have hpp : p' = p := key_unique hf.keys_nodup p' hp'L p hmem (hp'key.trans hkey.symm)
    have hid := (hf.children_spec p' hp'L k1 k2 hch).2.1
    rw [← hpp, hid]
    rcases hkor with hk | hk
    · exact List.mem_append.2 (Or.inl (by rw [← congrArg NodeKey.id hk]; exact ho))
    · exact List.mem_append.2 (Or.inr (by rw [← congrArg NodeKey.id hk]; exact ho))

theorem anc_depth {allObs : List String} {L : List Node} {opens : List NodeKey}
    (hf : ForestInv allObs L opens) :
    ∀ u ∈ L, ∀ v : Node, Anc L u v → u.depth ≤ v.depth := by
  intro u hu v hanc
  induction hanc with
  | refl => exact le_refl _
  | step hp hmem hkey hrest ih =>
    rename_i nd p vv pk
    obtain ⟨p', hp'L, hp'key, hdep, _, _, _, _⟩ := hf.parent_spec nd hu pk hp
    have hpp : p' = p := key_unique hf.keys_nodup p' hp'L p hmem (hp'key.trans hkey.symm)
    exact le_trans (hpp ▸ hdep) (ih hmem)

theorem anc_idx_le {allObs : List String} {L : List Node} {opens : List NodeKey}
    (hf : ForestInv allObs L opens) :
    ∀ {u v : Node}, Anc L u v →
      ∀ (i j : Nat) (hi : i < L.length) (hj : j < L.length),
        L.get ⟨i, hi⟩ = u → L.get ⟨j, hj⟩ = v → i ≤ j := by
  intro u v hanc
  induction hanc with
  | refl nd =>
    intro i j hi hj hgi hgj
    have hLnd : L.Nodup := hf.keys_nodup.of_map
    have := List.nodup_iff_injective_get.1 hLnd (hgi.trans hgj.symm)
    have hij : i = j := congrArg Fin.val this
    omega
  | step hp hmem hkey hrest ih =>
    rename_i nd p vv pk
    intro i j hi hj hgi hgj
    obtain ⟨j', hj', hij', hkey'⟩ := hf.parent_idx i hi pk (by rw [hgi]; exact hp)
    have hpj' : L.get ⟨j', hj'⟩ = p :=
      key_unique hf.keys_nodup _ (List.get_mem _ _ _) p hmem (hkey'.trans hkey.symm)
    have hle := ih j' j hj' hj hpj' hgj
    omega

theorem anc_idx_lt {allObs : List String} {L : List Node} {opens : List NodeKey}
    (hf : ForestInv allObs L opens) {u v : Node} (hanc : Anc L u v) (hne : u ≠ v) :
    ∀ (i j : Nat) (hi : i < L.length) (hj : j < L.length),
      L.get ⟨i, hi⟩ = u → L.get ⟨j, hj⟩ = v → i < j := by
  cases hanc with
  | refl => exact absurd rfl hne
  | step hp hmem hkey hrest =>
    rename_i p pk
    intro i j hi hj hgi hgj
    obtain ⟨j', hj', hij', hkey'⟩ := hf.parent_idx i hi pk (by rw [hgi]; exact hp)
    have hpj' : L.get ⟨j', hj'⟩ = p :=
      key_unique hf.keys_nodup _ (List.get_mem _ _ _) p hmem (hkey'.trans hkey.symm)
    have hle := anc_idx_le hf hrest j' j hj' hj hpj' hgj
    omega

theorem walkUp_succ (cs : List Node) (n : ℚ) (fuel : Nat) (node : Node) :
    walkUp cs n (fuel + 1) node =
      match node.parent with
      | none => node
      | some pk =>
        if pk.depth ≤ n then
          match cs.find? (fun r => decide (r.key = pk)) with
          | some p => walkUp cs n fuel p
          | none => node
        else node := rfl

theorem walkUp_mem {cs : List Node} {n : ℚ} :
    ∀ (fuel : Nat) (node : Node), node ∈ cs → walkUp cs n fuel node ∈ cs := by
  intro fuel
  induction fuel with
  | zero => exact fun node h => h
  | succ fuel ih =>
    intro node h
    rw [walkUp_succ]
    cases hp : node.parent with
    | none => exact h
    | some pk =>
      show (if pk.depth ≤ n then
          match cs.find? (fun r => decide (r.key = pk)) with
          | some p => walkUp cs n fuel p
          | none => node
        else node) ∈ cs
      by_cases hd : pk.depth ≤ n
      · rw [if_pos hd]
        cases hfind : cs.find? (fun r => decide (r.key = pk)) with
        | none => exact h
        | some p => exact ih p (List.mem_of_find?_eq_some hfind)
      · rw [if_neg hd]
        exact h

theorem walkUp_sub {allObs : List String} {L : List Node} {opens : List NodeKey}
    (hf : ForestInv allObs L opens) (n : ℚ) :
    ∀ (fuel : Nat) (node : Node), node ∈ L →
      ∀ o ∈ node.id, o ∈ (walkUp L n fuel node).id := by
  intro fuel
  induction fuel with
  | zero => exact fun node _ o ho => ho
  | succ fuel ih =>
    intro node hm o ho
    rw [walkUp_succ]
    cases hp : node.parent with
    | none => exact ho
    | some pk =>
      show o ∈ (if pk.depth ≤ n then
          match L.find? (fun r => decide (r.key = pk)) with
          | some p => walkUp L n fuel p
          | none => node
        else node).id
      by_cases hd : pk.depth ≤ n
      · rw [if_pos hd]
        cases hfind : L.find? (fun r => decide (r.key = pk)) with
        | none => exact ho
        | some p =>
          have hpmem : p ∈ L := List.mem_of_find?_eq_some hfind
          have hpkey : p.key = pk := by
            have := List.find?_some hfind
            simpa using this
          obtain ⟨p', hp'L, hp'key, _, k1, k2, hch, hkor⟩ :=
            hf.parent_spec node hm pk hp
          have hpp : p' = p :=
            key_unique hf.keys_nodup p' hp'L p hpmem (hp'key.trans hpkey.symm)
          refine ih p hpmem o ?_
          have hid := (hf.children_spec p' hp'L k1 k2 hch).2.1
          rw [← hpp, hid]
          rcases hkor with hk | hk
          · exact List.mem_append.2 (Or.inl (by rw [← congrArg NodeKey.id hk]; exact ho))
          · exact List.mem_append.2 (Or.inr (by rw [← congrArg NodeKey.id hk]; exact ho))
      · rw [if_neg hd]
        exact ho

theorem walkUp_depth {cs : List Node} {n : ℚ} :
    ∀ (fuel : Nat) (node : Node), node.depth ≤ n →
      (walkUp cs n fuel node).depth ≤ n := by
  intro fuel
  induction fuel with
  | zero => exact fun node h => h
  | succ fuel ih =>
    intro node hdn
    rw [walkUp_succ]
    cases hp : node.parent with
    | none => exact hdn
    | some pk =>
      show (if pk.depth ≤ n then
          match cs.find? (fun r => decide (r.key = pk)) with
          | some p => walkUp cs n fuel p
          | none => node
        else node).depth ≤ n
      by_cases hd : pk.depth ≤ n
      · rw [if_pos hd]
        cases hfind : cs.find? (fun r => decide (r.key = pk)) with
        | none => exact hdn
        | some p =>
          have hpkey : p.key = pk := by
            have := List.find?_some hfind
            simpa using this
          refine ih p ?_
          rw [show p.depth = pk.depth from congrArg NodeKey.depth hpkey]
          exact hd
      · rw [if_neg hd]
        exact hdn

theorem walkUp_term {allObs : List String} {L : List Node} {opens : List NodeKey}
    (hf : ForestInv allObs L opens) (n : ℚ) :
    ∀ (fuel i : Nat) (hi : i < L.length), L.length - i ≤ fuel →
      ∀ pk, (walkUp L n fuel (L.get ⟨i, hi⟩)).parent = some pk → ¬pk.depth ≤ n := by
  intro fuel
  induction fuel with
  | zero =>
    intro i hi hle pk hpar hd
    omega
  | succ fuel ih =>
    intro i hi hle pk hpar hd
    rw [walkUp_succ] at hpar
    cases hp : (L.get ⟨i, hi⟩).parent with
    | none =>
      rw [hp] at hpar
      simp only at hpar
      rw [hp] at hpar
      exact Option.noConfusion hpar
    | some pk0 =>
      rw [hp] at hpar
      simp only at hpar
      by_cases hd0 : pk0.depth ≤ n
      · rw [if_pos hd0] at hpar
        obtain ⟨j, hj, hij, hkeyj⟩ := hf.parent_idx i hi pk0 hp
        cases hfind : L.find? (fun r => decide (r.key = pk0)) with
        | none =>
          have hnone := List.find?_eq_none.1 hfind (L.get ⟨j, hj⟩) (List.get_mem _ _ _)
          exact hnone (decide_eq_true hkeyj)
        | some p =>
          rw [hfind] at hpar
          simp only at hpar
          have hpmem : p ∈ L := List.mem_of_find?_eq_some hfind
          have hpkey : p.key = pk0 := by
            have := List.find?_some hfind
            simpa using this
          have hpj : L.get ⟨j, hj⟩ = p :=
            key_unique hf.keys_nodup _ (List.get_mem _ _ _) p hpmem
              (hkeyj.trans hpkey.symm)
          refine ih j hj (by omega) pk ?_ hd
          rw [hpj]
          exact hpar
      · rw [if_neg hd0] at hpar
        rw [hp] at hpar
        exact hd0 (by rw [congrArg NodeKey.depth (Option.some_inj.1 hpar)]; exact hd)

theorem stop_unique {allObs : List String} {L : List Node} {opens : List NodeKey}
    (hf : ForestInv allObs L opens) {n : ℚ} {s1 s2 : Node}
    (hs1 : s1 ∈ L) (hs2 : s2 ∈ L)
    (ht1 : ∀ pk, s1.parent = some pk → ¬pk.depth ≤ n) (hd2 : s2.depth ≤ n)
    (hsub : ∀ o ∈ s1.id, o ∈ s2.id) : s1 = s2 := by
  have hanc := hf.anc_of_sub s1 hs1 s2 hs2 hsub
  cases hanc with
  | refl => rfl
  | step hp hmem hkey hrest =>
    rename_i p pk
    exfalso
    refine ht1 pk hp ?_
    have h2 : p.depth ≤ s2.depth := anc_depth hf p hmem s2 hrest
    rw [← congrArg NodeKey.depth hkey]
    exact le_trans h2 hd2

theorem dedup_fold {P : Node → Prop} (hP : ∀ x y, P x → P y → x.key = y.key → x = y) :
    ∀ (xs acc : List Node), (∀ x ∈ xs, P x) → (∀ x ∈ acc, P x) →
      (acc.map Node.key).Nodup →
      ((xs.foldl (fun ret node => if ret.any (fun r => decide (r.key = node.key))
          then ret else ret ++ [node]) acc).map Node.key).Nodup ∧
      (∀ x ∈ xs.foldl (fun ret node => if ret.any (fun r => decide (r.key = node.key))
          then ret else ret ++ [node]) acc, P x) ∧
      (∀ x, x ∈ xs.foldl (fun ret node => if ret.any (fun r => decide (r.key = node.key))
          then ret else ret ++ [node]) acc ↔ x ∈ acc ∨ x ∈ xs) := by
  intro xs
  induction xs with
  | nil =>
    intro acc _ hacc hnd
    refine ⟨hnd, hacc, ?_⟩
    intro x
    simp
  | cons y ys ih =>
    intro acc hxs hacc hnd
    rw [List.foldl_cons]
    by_cases hany : acc.any (fun r => decide (r.key = y.key)) = true
    · rw [if_pos hany]
      have hymem : y ∈ acc := by
        obtain ⟨r, hr, hrk⟩ := List.any_eq_true.1 hany
        have hk : r.key = y.key := of_decide_eq_true hrk
        rw [← hP r y (hacc r hr) (hxs y (by simp)) hk]
        exact hr
      obtain ⟨h1, h2, h3⟩ := ih acc (fun x hx => hxs x (by simp [hx])) hacc hnd
      refine ⟨h1, h2, ?_⟩
      intro x
      rw [h3 x]
      constructor
      · rintro (hx | hx)
        · exact Or.inl hx
        · exact Or.inr (by simp [hx])
      · rintro (hx | hx)
        · exact Or.inl hx
        · rcases List.mem_cons.1 hx with rfl | hx
          · exact Or.inl hymem
          · exact Or.inr hx
    · rw [if_neg hany]
      have hnd' : ((acc ++ [y]).map Node.key).Nodup := by
        rw [List.map_append]
        refine List.Nodup.append hnd (by simp) ?_
        intro k hk
        simp only [List.map_cons, List.map_nil, List.mem_singleton]
        intro hkeq
        obtain ⟨r, hr, hrk⟩ := List.mem_map.1 hk
        refine hany (List.any_eq_true.2 ⟨r, hr, ?_⟩)
        exact decide_eq_true (by rw [hrk, hkeq])
      have hacc' : ∀ x ∈ acc ++ [y], P x := by
        intro x hx
        rcases List.mem_append.1 hx with hx | hx
        · exact hacc x hx
        · rw [List.mem_singleton.1 hx]
          exact hxs y (by simp)
      obtain ⟨h1, h2, h3⟩ := ih (acc ++ [y]) (fun x hx => hxs x (by simp [hx])) hacc' hnd'
      refine ⟨h1, h2, ?_⟩
      intro x
      rw [h3 x]
      constructor
      · rintro (hx | hx)
        · rcases List.mem_append.1 hx with hx | hx
          · exact Or.inl hx
          · exact Or.inr (by simp [List.mem_singleton.1 hx])
        · exact Or.inr (by simp [hx])
      · rintro (hx | hx)
        · exact Or.inl (List.mem_append.2 (Or.inl hx))
        · rcases List.mem_cons.1 hx with rfl | hx
          · exact Or.inl (List.mem_append.2 (Or.inr (by simp)))
          · exact Or.inr hx

theorem leaf_of_obs {allObs : List String} {L : List Node} {opens : List NodeKey}
    (hf : ForestInv allObs L opens) :
    ∀ o ∈ allObs, ∃ l ∈ L.filter (fun nd => nd.children = none), l.id = [o] := by
  intro o ho
  have h1 : [o] ∈ (L.filter (fun nd => nd.children = none)).map Node.id := by
    rw [hf.leaves_eq]
    exact List.mem_map.2 ⟨o, ho, rfl⟩
  obtain ⟨l, hl, hid⟩ := List.mem_map.1 h1
  exact ⟨l, hl, hid⟩

theorem obs_of_leaf {allObs : List String} {L : List Node} {opens : List NodeKey}
    (hf : ForestInv allObs L opens) :
    ∀ l ∈ L.filter (fun nd => nd.children = none), ∃ o ∈ allObs, l.id = [o] := by
  intro l hl
  have h1 : l.id ∈ allObs.map (fun o => [o]) := by
    rw [← hf.leaves_eq]
    exact List.mem_map.2 ⟨l, hl, rfl⟩
  obtain ⟨o, ho, hid⟩ := List.mem_map.1 h1
  exact ⟨o, ho, hid.symm⟩

theorem cut_spec {allObs : List String} {st : HClust} {opens : List NodeKey}
    (hf : ForestInv allObs st.clusters opens) {n : ℚ} (hn : 0 ≤ n) :
    ∃ stops : List Node,
      st.cut n = some (stops.map Node.id) ∧
      (stops.map Node.key).Nodup ∧
      (∀ s ∈ stops, s ∈ st.clusters ∧ s.depth ≤ n ∧
        ∀ pk, s.parent = some pk → ¬pk.depth ≤ n) ∧
      (∀ s : Node, s ∈ stops ↔
        ∃ l ∈ st.leavesRecs, walkUp st.clusters n st.clusters.length l = s) := by
  have hP : ∀ x y : Node, x ∈ st.clusters → y ∈ st.clusters → x.key = y.key → x = y :=
    fun x y hx hy => key_unique hf.keys_nodup x hx y hy
  have hleafmem : ∀ l ∈ st.leavesRecs, l ∈ st.clusters := by
    intro l hl
    exact (List.mem_filter.1 hl).1
  have hxs : ∀ x ∈ st.leavesRecs.map
      (fun l => walkUp st.clusters n st.clusters.length l), x ∈ st.clusters := by
    intro x hx
    obtain ⟨l, hl, hw⟩ := List.mem_map.1 hx
    rw [← hw]
    exact walkUp_mem _ l (hleafmem l hl)
  obtain ⟨hnd, hmemL, hiff⟩ := @dedup_fold (fun x => x ∈ st.clusters) hP
    (st.leavesRecs.map (fun l => walkUp st.clusters n st.clusters.length l)) []
    hxs (by intro x hx; cases hx) (by simp)
  refine ⟨(st.leavesRecs.map (fun l => walkUp st.clusters n st.clusters.length l)).foldl
      (fun ret node => if ret.any (fun r => decide (r.key = node.key)) then ret
        else ret ++ [node]) [], ?_, hnd, ?_, ?_⟩
  · unfold HClust.cut
    rw [if_neg (not_lt.2 hn), List.foldl_map]
  · intro s hs
    rcases (hiff s).1 hs with hcon | hmap
    · cases hcon
    obtain ⟨l, hl, hSl⟩ := List.mem_map.1 hmap
    have hlm := hleafmem l hl
    have hlch : l.children = none := by
      have := (List.mem_filter.1 hl).2
      simpa using this
    have hld : l.depth = 0 := hf.leaf_depth l hlm hlch
    refine ⟨?_, ?_, ?_⟩
    · rw [← hSl]
      exact walkUp_mem _ l hlm
    · rw [← hSl]
      exact walkUp_depth _ l (by rw [hld]; exact hn)
    · intro pk hpk
      obtain ⟨⟨i, hi⟩, hgi⟩ := List.mem_iff_get.1 hlm
      refine walkUp_term hf n st.clusters.length i hi (by omega) pk ?_
      rw [hgi, hSl]
      exact hpk
  · intro s
    rw [hiff s]
    constructor
    · rintro (hcon | hmap)
      · cases hcon
      · obtain ⟨l, hl, hSl⟩ := List.mem_map.1 hmap
        exact ⟨l, hl, hSl⟩
    · rintro ⟨l, hl, hSl⟩
      exact Or.inr (List.mem_map.2 ⟨l, hl, hSl⟩)

/-- C10: for every well-formed input matrix, every linkage criterion and every
height `n ≥ 0`, `cut(n)` on the built dendrogram returns a partition of the
observations: the member tuples are pairwise disjoint and their concatenation
is a permutation of the original observation list (each identifier appears
exactly once). -/
theorem claim_C10 (dm : DistanceMatrix String) (crit : Criterion) (hdm : WFdm dm)
    (n : ℚ) (hn : 0 ≤ n) :
    ∃ groups, (build dm crit).cut n = some groups ∧
      groups.flatten.Perm dm.obs ∧
      ∀ (i j : Nat) (hi : i < groups.length) (hj : j < groups.length), i ≠ j →
        ∀ o ∈ groups.get ⟨i, hi⟩, o ∉ groups.get ⟨j, hj⟩ := by
  obtain ⟨hinv, hlen1⟩ := build_inv hdm crit
  have hf := built_forest hdm.1 hinv.built
  obtain ⟨stops, hcut, hknd, hprops, hiff⟩ := cut_spec hf hn
  have hstopsnd : stops.Nodup := hknd.of_map
  have hdisj : ∀ s ∈ stops, ∀ t ∈ stops, s ≠ t → ∀ o ∈ s.id, o ∉ t.id := by
    intro s hs t ht hst o hos hot
    obtain ⟨hsL, hsd, hster⟩ := hprops s hs
    obtain ⟨htL, htd, htter⟩ := hprops t ht
    rcases hf.nested s hsL t htL o hos hot with hsub | hsub
    · exact hst (stop_unique hf hsL htL hster htd hsub)
    · exact hst ((stop_unique hf htL hsL htter hsd hsub).symm)
  have hcov : ∀ o ∈ dm.obs, ∃ s ∈ stops, o ∈ s.id := by
    intro o ho
    obtain ⟨l, hl, hid⟩ := leaf_of_obs hf o ho
    refine ⟨walkUp (build dm crit).clusters n (build dm crit).clusters.length l,
      (hiff _).2 ⟨l, hl, rfl⟩, ?_⟩
    refine walkUp_sub hf n _ l ((List.mem_filter.1 hl).1) o ?_
    rw [hid]
    simp
  refine ⟨stops.map Node.id, hcut, ?_, ?_⟩
  · have hflatnd : (stops.map Node.id).flatten.Nodup := by
      refine List.nodup_flatten.2 ⟨?_, ?_⟩
      · intro x hx
        obtain ⟨s, hs, hsx⟩ := List.mem_map.1 hx
        rw [← hsx]
        exact hf.ids_nodup s (hprops s hs).1
      · rw [List.pairwise_map, List.pairwise_iff_getElem]
        intro i j hi hj hlt
        rw [List.disjoint_left]
        intro o hoi hoj
        have hne : stops[i] ≠ stops[j] := by
          intro hcon
          have := List.nodup_iff_injective_get.1 hstopsnd
            (show stops.get ⟨i, hi⟩ = stops.get ⟨j, hj⟩ from hcon)
          have hij : i = j := congrArg Fin.val this
          omega
        exact hdisj stops[i] (List.getElem_mem hi) stops[j] (List.getElem_mem hj)
          hne o hoi hoj
    refine (List.perm_ext_iff_of_nodup hflatnd hdm.1).2 ?_
    intro o
    rw [List.mem_flatten]
    constructor
    · rintro ⟨ids, hids, ho⟩
      obtain ⟨s, hs, hsx⟩ := List.mem_map.1 hids
      exact hf.ids_sub s (hprops s hs).1 o (by rw [hsx]; exact ho)
    · intro ho
      obtain ⟨s, hs, hos⟩ := hcov o ho
      exact ⟨s.id, List.mem_map.2 ⟨s, hs, rfl⟩, hos⟩
  · intro i j hi hj hij o hoi hoj
    rw [List.get_eq_getElem, List.getElem_map] at hoi hoj
    have hi' : i < stops.length := by simpa using hi
    have hj' : j < stops.length := by simpa using hj
    have hne : stops[i] ≠ stops[j] := by
      intro hcon
      have := List.nodup_iff_injective_get.1 hstopsnd
        (show stops.get ⟨i, hi'⟩ = stops.get ⟨j, hj'⟩ from hcon)
      exact hij (congrArg Fin.val this)
    exact hdisj stops[i] (List.getElem_mem hi') stops[j] (List.getElem_mem hj')
      hne o hoi hoj

/-- C5: `cut` is monotone in the height: on a built dendrogram, for heights
`0 ≤ n1 < n2`, the cut at `n1` yields at least as many groups as the cut at
`n2`. -/
theorem claim_C5 (dm : DistanceMatrix String) (crit : Criterion) (hdm : WFdm dm)
    (n1 n2 : ℚ) (h0 : 0 ≤ n1) (h12 : n1 < n2) :
    ∃ g1 g2, (build dm crit).cut n1 = some g1 ∧ (build dm crit).cut n2 = some g2 ∧
      g2.length ≤ g1.length := by
  obtain ⟨hinv, _⟩ := build_inv hdm crit
  have hf := built_forest hdm.1 hinv.built
  have hn2 : (0:ℚ) ≤ n2 := le_of_lt (lt_of_le_of_lt h0 h12)
  have h12' : n1 ≤ n2 := le_of_lt h12
  obtain ⟨s1, hcut1, hknd1, hprops1, hiff1⟩ := cut_spec hf h0
  obtain ⟨s2, hcut2, hknd2, hprops2, hiff2⟩ := cut_spec hf hn2
  refine ⟨s1.map Node.id, s2.map Node.id, hcut1, hcut2, ?_⟩
  simp only [List.length_map]
  have hnd1 : s1.Nodup := hknd1.of_map
  have hnd2 : s2.Nodup := hknd2.of_map
  rw [← List.toFinset_card_of_nodup hnd1, ← List.toFinset_card_of_nodup hnd2]
  refine Finset.card_le_card_of_surjOn
    (fun s => walkUp (build dm crit).clusters n2 (build dm crit).clusters.length s) ?_
  intro t ht
  have ht2 : t ∈ s2 := by simpa using ht
  obtain ⟨l, hl, hSl⟩ := (hiff2 t).1 ht2
  have hlm : l ∈ (build dm crit).clusters := (List.mem_filter.1 hl).1
  have hlch : l.children = none := by
    have := (List.mem_filter.1 hl).2
    simpa using this
  have hld : l.depth = 0 := hf.leaf_depth l hlm hlch
  obtain ⟨o, _, hlid⟩ := obs_of_leaf hf l hl
  have hol : o ∈ l.id := by
    rw [hlid]
    simp
  have hu1 : walkUp (build dm crit).clusters n1 (build dm crit).clusters.length l ∈ s1 :=
    (hiff1 _).2 ⟨l, hl, rfl⟩
  set u := walkUp (build dm crit).clusters n1 (build dm crit).clusters.length l with hu
  have huL : u ∈ (build dm crit).clusters := walkUp_mem _ l hlm
  have hud : u.depth ≤ n2 :=
    le_trans (walkUp_depth _ l (by rw [hld]; exact h0)) h12'
  set v := walkUp (build dm crit).clusters n2 (build dm crit).clusters.length u with hv
  have hvL : v ∈ (build dm crit).clusters := walkUp_mem _ u huL
  have hvd : v.depth ≤ n2 := walkUp_depth _ u hud
  have hvter : ∀ pk, v.parent = some pk → ¬pk.depth ≤ n2 := by
    intro pk hpk
    obtain ⟨⟨i, hi⟩, hgi⟩ := List.mem_iff_get.1 huL
    refine walkUp_term hf n2 (build dm crit).clusters.length i hi (by omega) pk ?_
    rw [hgi, ← hv]
    exact hpk
  obtain ⟨htL, htd, htter⟩ := hprops2 t ht2
  have hou : o ∈ u.id := walkUp_sub hf n1 _ l hlm o hol
  have hov : o ∈ v.id := walkUp_sub hf n2 _ u huL o hou
  have hot : o ∈ t.id := by
    rw [← hSl]
    exact walkUp_sub hf n2 _ l hlm o hol
  have hvt : v = t := by
    rcases hf.nested v hvL t htL o hov hot with hsub | hsub
    · exact stop_unique hf hvL htL hvter htd hsub
    · exact (stop_unique hf htL hvL htter hvd hsub).symm
  refine ⟨u, by simpa using hu1, hvt⟩

theorem claim_C10_witness :
    WFdm smallDM ∧ (0:ℚ) ≤ 0 ∧
    (∃ groups, (build smallDM Criterion.average).cut 0 = some groups ∧
      groups.flatten.Perm smallDM.obs ∧
      ∀ (i j : Nat) (hi : i < groups.length) (hj : j < groups.length), i ≠ j →
        ∀ o ∈ groups.get ⟨i, hi⟩, o ∉ groups.get ⟨j, hj⟩) :=
  ⟨by decide, by decide, claim_C10 smallDM Criterion.average (by decide) 0 (by decide)⟩

theorem claim_C5_witness :
    WFdm smallDM ∧ (0:ℚ) ≤ 0 ∧ (0:ℚ) < 1 ∧
    (∃ g1 g2, (build smallDM Criterion.average).cut 0 = some g1 ∧
      (build smallDM Criterion.average).cut 1 = some g2 ∧ g2.length ≤ g1.length) :=
  ⟨by decide, by decide, by decide,
    claim_C5 smallDM Criterion.average (by decide) 0 1 (by decide) (by decide)⟩

theorem eraseP_key {ret : List Node} (hnd : (ret.map Node.key).Nodup)
    {k : NodeKey} {r : Node} (hr : r ∈ ret) (hrk : r.key = k) :
    (∀ x, x ∈ ret.eraseP (fun y => decide (y.key = k)) ↔ x ∈ ret ∧ x ≠ r) ∧
    (ret.eraseP (fun y => decide (y.key = k))).length + 1 = ret.length ∧
    ((ret.eraseP (fun y => decide (y.key = k))).map Node.key).Nodup := by
  obtain ⟨r', l1, l2, hnone, hpr', hsplit, herase⟩ :=
    @List.exists_of_eraseP Node (fun y => decide (y.key = k)) ret r hr
      (decide_eq_true hrk)
  have hr'mem : r' ∈ ret := by
    rw [hsplit]
    exact List.mem_append.2 (Or.inr (by simp))
  have hrr' : r' = r := List.inj_on_of_nodup_map hnd hr'mem hr
    ((of_decide_eq_true hpr').trans hrk.symm)
  subst hrr'
  have hretnd : ret.Nodup := hnd.of_map
  have hrl2 : r' ∉ l2 := by
    have h1 : (l1 ++ r' :: l2).Nodup := by rw [← hsplit]; exact hretnd
    have h2 : (r' :: l2).Nodup := h1.sublist (List.sublist_append_right l1 (r' :: l2))
    exact (List.nodup_cons.1 h2).1
  refine ⟨?_, ?_, ?_⟩
  · intro x
    rw [herase, hsplit]
    constructor
    · intro hx
      rcases List.mem_append.1 hx with hx | hx
      · refine ⟨List.mem_append.2 (Or.inl hx), ?_⟩
        intro hcon
        exact hnone x hx (by rw [hcon]; exact decide_eq_true hrk)
      · refine ⟨List.mem_append.2 (Or.inr (List.mem_cons.2 (Or.inr hx))), ?_⟩
        intro hcon
        rw [hcon] at hx
        exact hrl2 hx
    · rintro ⟨hx, hne⟩
      rcases List.mem_append.1 hx with hx | hx
      · exact List.mem_append.2 (Or.inl hx)
      · rcases List.mem_cons.1 hx with hx | hx
        · exact absurd hx hne
        · exact List.mem_append.2 (Or.inr hx)
  · rw [herase, hsplit]
    simp only [List.length_append, List.length_cons]
    omega
  · rw [herase]
    have hsub : (l1 ++ l2).Sublist (l1 ++ r' :: l2) :=
      List.Sublist.append_left (List.sublist_cons_self r' l2) l1
    refine List.Nodup.sublist (hsub.map Node.key) ?_
    rw [← hsplit]
    exact hnd

theorem findLowest_sound {cs ret : List Node} :
    ∀ (xs : List Node) (acc : Option Node),
      (∀ lo, acc = some lo → lo ∈ cs ∧ ∃ k1 k2, lo.children = some (k1, k2) ∧
        (∃ r1 ∈ ret, r1.key = k1) ∧ (∃ r2 ∈ ret, r2.key = k2)) →
      ∀ lo, xs.foldl (fun lowest node =>
        match node.parent with
        | none => lowest
        | some pk =>
          match cs.find? (fun r => decide (r.key = pk)) with
          | none => lowest
          | some p =>
            match p.children with
            | none => lowest
            | some (k1, k2) =>
              if ret.any (fun r => decide (r.key = k1)) ∧
                  ret.any (fun r => decide (r.key = k2)) then
                match lowest with
                | none => some p
                | some lo => if p.depth < lo.depth then some p else lowest
              else lowest) acc = some lo →
      lo ∈ cs ∧ ∃ k1 k2, lo.children = some (k1, k2) ∧
        (∃ r1 ∈ ret, r1.key = k1) ∧ (∃ r2 ∈ ret, r2.key = k2) := by
  intro xs
  induction xs with
  | nil =>
    intro acc hacc lo h
    exact hacc lo h
  | cons y ys ih =>
    intro acc hacc lo h
    rw [List.foldl_cons] at h
    refine ih _ ?_ lo h
    intro lo2 hlo2
    simp only at hlo2
    cases hyp : y.parent with
    | none =>
      simp only [hyp] at hlo2
      exact hacc lo2 hlo2
    | some pk =>
      simp only [hyp] at hlo2
      cases hfind : cs.find? (fun r => decide (r.key = pk)) with
      | none =>
        simp only [hfind] at hlo2
        exact hacc lo2 hlo2
      | some p =>
        simp only [hfind] at hlo2
        cases hch : p.children with
        | none =>
          simp only [hch] at hlo2
          exact hacc lo2 hlo2
        | some kk =>
          obtain ⟨k1, k2⟩ := kk
          simp only [hch] at hlo2
          by_cases hcond : ret.any (fun r => decide (r.key = k1)) = true ∧
              ret.any (fun r => decide (r.key = k2)) = true
          · rw [if_pos hcond] at hlo2
            have hpprop : p ∈ cs ∧ ∃ k1' k2', p.children = some (k1', k2') ∧
                (∃ r1 ∈ ret, r1.key = k1') ∧ (∃ r2 ∈ ret, r2.key = k2') := by
              refine ⟨List.mem_of_find?_eq_some hfind, k1, k2, hch, ?_, ?_⟩
              · obtain ⟨r1, hr1, hr1k⟩ := List.any_eq_true.1 hcond.1
                exact ⟨r1, hr1, of_decide_eq_true hr1k⟩
              · obtain ⟨r2, hr2, hr2k⟩ := List.any_eq_true.1 hcond.2
                exact ⟨r2, hr2, of_decide_eq_true hr2k⟩
            cases acc with
            | none =>
              have h2 : p = lo2 := Option.some_inj.1 hlo2
              rw [← h2]
              exact hpprop
            | some lo0 =>
              have hlo2' : (if p.depth < lo0.depth then (some p : Option Node)
                  else some lo0) = some lo2 := hlo2
              by_cases hd : p.depth < lo0.depth
              · rw [if_pos hd] at hlo2'
                rw [← Option.some_inj.1 hlo2']
                exact hpprop
              · rw [if_neg hd] at hlo2'
                exact hacc lo2 hlo2'
          · rw [if_neg hcond] at hlo2
            exact hacc lo2 hlo2

theorem findLowest_isSome {cs ret : List Node} :
    ∀ (xs : List Node) (acc : Option Node),
      (acc.isSome = true ∨ ∃ nd ∈ xs, ∃ pk, nd.parent = some pk ∧
        ∃ p, cs.find? (fun r => decide (r.key = pk)) = some p ∧
        ∃ k1 k2, p.children = some (k1, k2) ∧
          ret.any (fun r => decide (r.key = k1)) = true ∧
          ret.any (fun r => decide (r.key = k2)) = true) →
      (xs.foldl (fun lowest node =>
        match node.parent with
        | none => lowest
        | some pk =>
          match cs.find? (fun r => decide (r.key = pk)) with
          | none => lowest
          | some p =>
            match p.children with
            | none => lowest
            | some (k1, k2) =>
              if ret.any (fun r => decide (r.key = k1)) ∧
                  ret.any (fun r => decide (r.key = k2)) then
                match lowest with
                | none => some p
                | some lo => if p.depth < lo.depth then some p else lowest
              else lowest) acc).isSome = true := by
  intro xs
  induction xs with
  | nil =>
    intro acc hacc
    rcases hacc with h | ⟨nd, hnd, _⟩
    · exact h
    · cases hnd
  | cons y ys ih =>
    intro acc hacc
    rw [List.foldl_cons]
    refine ih _ ?_
    rcases hacc with h | ⟨nd, hnd, pk, hpk, p, hfind, k1, k2, hch, hany1, hany2⟩
    · left
      cases hyp : y.parent with
      | none =>
        simp only [hyp]
        exact h
      | some pk =>
        simp only [hyp]
        cases hfind : cs.find? (fun r => decide (r.key = pk)) with
        | none =>
          simp only [hfind]
          exact h
        | some p =>
          simp only [hfind]
          cases hch : p.children with
          | none =>
            simp only [hch]
            exact h
          | some kk =>
            obtain ⟨k1, k2⟩ := kk
            simp only [hch]
            by_cases hcond : ret.any (fun r => decide (r.key = k1)) = true ∧
                ret.any (fun r => decide (r.key = k2)) = true
            · rw [if_pos hcond]
              obtain ⟨a0, ha0⟩ := Option.isSome_iff_exists.1 h
              rw [ha0]
              show (if p.depth < a0.depth then (some p : Option Node)
                  else some a0).isSome = true
              by_cases hd : p.depth < a0.depth
              · rw [if_pos hd]
                rfl
              · rw [if_neg hd]
                rfl
            · rw [if_neg hcond]
              exact h
    · rcases List.mem_cons.1 hnd with heq | hnd'
      · left
        rw [heq] at hpk
        simp only [hpk, hfind, hch]
        rw [if_pos ⟨hany1, hany2⟩]
        cases acc with
        | none => rfl
        | some a0 =>
          show (if p.depth < a0.depth then (some p : Option Node)
              else some a0).isSome = true
          by_cases hd : p.depth < a0.depth
          · rw [if_pos hd]
            rfl
          · rw [if_neg hd]
            rfl
      · right
        exact ⟨nd, hnd', pk, hpk, p, hfind, k1, k2, hch, hany1, hany2⟩

theorem sibling_or_descend {allObs : List String} {L : List Node} {opens : List NodeKey}
    (hf : ForestInv allObs L opens) {ret : List Node} (hR : RInv allObs L ret)
    {s p rsib : Node} {j : Nat} (hj : j < L.length)
    (hs : s ∈ ret) (hgj : L.get ⟨j, hj⟩ = p) (hrsibL : rsib ∈ L)
    (hssub : ∀ o ∈ s.id, o ∈ p.id)
    (hsibsub : ∀ o ∈ rsib.id, o ∈ p.id)
    (hdisj : ∀ o ∈ s.id, o ∉ rsib.id)
    (hcov : ∀ o ∈ p.id, o ∈ s.id ∨ o ∈ rsib.id) :
    rsib ∈ ret ∨ ∃ t ∈ ret, ∃ (jq : Nat) (hjq : jq < L.length), jq < j ∧
      t.parent = some ((L.get ⟨jq, hjq⟩).key) := by
  have hpL : p ∈ L := by
    rw [← hgj]
    exact List.get_mem _ _ _
  obtain ⟨o0, ho0⟩ := List.exists_mem_of_ne_nil rsib.id (hf.ids_ne rsib hrsibL)
  obtain ⟨t, ht, hot⟩ := hR.cover o0 (hf.ids_sub rsib hrsibL o0 ho0)
  have htL : t ∈ L := hR.sub t ht
  rcases hf.nested rsib hrsibL t htL o0 ho0 hot with hsub | hsub
  · -- rsib.id ⊆ t.id: show t = rsib
    have htp : ∀ o ∈ t.id, o ∈ p.id := by
      rcases hf.nested t htL p hpL o0 hot (hsibsub o0 ho0) with h1 | h1
      · exact h1
      · exfalso
        have hsne : s ≠ t := by
          intro hcon
          exact hdisj o0 (by rw [hcon]; exact hot) ho0
        obtain ⟨os, hos⟩ := List.exists_mem_of_ne_nil s.id
          (hf.ids_ne s (hR.sub s hs))
        exact (hR.disj s hs t ht hsne os hos) (h1 os (hssub os hos))
    have hts : ∀ o ∈ t.id, o ∉ s.id := by
      intro o hot' hos'
      have hst : s = t := by
        by_contra hne
        exact hR.disj s hs t ht hne o hos' hot'
      exact hdisj o0 (by rw [hst]; exact hot) ho0
    have htsib : ∀ o ∈ t.id, o ∈ rsib.id := by
      intro o hot'
      rcases hcov o (htp o hot') with h1 | h1
      · exact absurd h1 (hts o hot')
      · exact h1
    have hteq : t = rsib := hf.sub_eq t htL rsib hrsibL htsib hsub
    left
    rw [← hteq]
    exact ht
  · -- t.id ⊆ rsib.id
    by_cases hteq : t = rsib
    · left
      rw [← hteq]
      exact ht
    · right
      have hanc := hf.anc_of_sub t htL rsib hrsibL hsub
      cases hanc with
      | refl => exact absurd rfl hteq
      | step hp hmem hkey hrest =>
        rename_i q qk
        have hqsub : ∀ o ∈ q.id, o ∈ rsib.id := anc_sub hf q hmem rsib hrest
        have hqp : q ≠ p := by
          intro hcon
          obtain ⟨os, hos⟩ := List.exists_mem_of_ne_nil s.id
            (hf.ids_ne s (hR.sub s hs))
          exact hdisj os hos (hqsub os (by rw [hcon]; exact hssub os hos))
        have hanc2 : Anc L q p :=
          hf.anc_of_sub q hmem p hpL (fun o ho => hsibsub o (hqsub o ho))
        obtain ⟨⟨jq, hjq⟩, hgq⟩ := List.mem_iff_get.1 hmem
        have hlt : jq < j := anc_idx_lt hf hanc2 hqp jq j hjq hj hgq hgj
        refine ⟨t, ht, jq, hjq, hlt, ?_⟩
        rw [hgq, hkey]
        exact hp

theorem eligible_aux {allObs : List String} {L : List Node} {opens : List NodeKey}
    (hf : ForestInv allObs L opens) {ret : List Node} (hR : RInv allObs L ret) :
    ∀ (j : Nat) (hj : j < L.length) (s : Node), s ∈ ret →
      s.parent = some ((L.get ⟨j, hj⟩).key) →
      ∃ nd ∈ ret, ∃ pk, nd.parent = some pk ∧ ∃ p ∈ L, p.key = pk ∧
        ∃ k1 k2, p.children = some (k1, k2) ∧
          (∃ r1 ∈ ret, r1.key = k1) ∧ (∃ r2 ∈ ret, r2.key = k2) := by
  intro j
  induction j using Nat.strong_induction_on with
  | _ j ih =>
    intro hj s hs hpar
    set p := L.get ⟨j, hj⟩ with hpdef
    have hpL : p ∈ L := List.get_mem _ _ _
    obtain ⟨p', hp'L, hp'key, _, k1, k2, hch', hkor⟩ :=
      hf.parent_spec s (hR.sub s hs) p.key hpar
    have hpp : p' = p := key_unique hf.keys_nodup p' hp'L p hpL hp'key
    rw [hpp] at hch'
    obtain ⟨hk12, hpid, hc1, hc2⟩ := hf.children_spec p hpL k1 k2 hch'
    obtain ⟨c1, hc1L, hc1k, _⟩ := hc1
    obtain ⟨c2, hc2L, hc2k, _⟩ := hc2
    have hdisj12 : ∀ o ∈ k1.id, o ∉ k2.id := by
      have hnd := hf.ids_nodup p hpL
      rw [hpid] at hnd
      have hd := (List.nodup_append.1 hnd).2.2
      intro o ho
      exact List.disjoint_left.1 hd ho
    rcases hkor with hsk | hsk
    · have hsid : s.id = k1.id := congrArg NodeKey.id hsk
      have hc2id : c2.id = k2.id := congrArg NodeKey.id hc2k
      rcases sibling_or_descend hf hR hj hs hpdef.symm hc2L
        (fun o ho => by rw [hpid]; exact List.mem_append.2 (Or.inl (hsid ▸ ho)))
        (fun o ho => by rw [hpid]; exact List.mem_append.2 (Or.inr (hc2id ▸ ho)))
        (fun o ho hcon => hdisj12 o (hsid ▸ ho) (hc2id ▸ hcon))
        (fun o ho => by
          rw [hpid] at ho
          rcases List.mem_append.1 ho with h1 | h1
          · left
            rw [hsid]
            exact h1
          · right
            rw [hc2id]
            exact h1) with hsib | hdesc
      · exact ⟨s, hs, p.key, hpar, p, hpL, rfl, k1, k2, hch',
          ⟨s, hs, hsk⟩, ⟨c2, hsib, hc2k⟩⟩
      · obtain ⟨t, ht, jq, hjq, hlt, hpart⟩ := hdesc
        exact ih jq hlt hjq t ht hpart
    · have hsid : s.id = k2.id := congrArg NodeKey.id hsk
      have hc1id : c1.id = k1.id := congrArg NodeKey.id hc1k
      rcases sibling_or_descend hf hR hj hs hpdef.symm hc1L
        (fun o ho => by rw [hpid]; exact List.mem_append.2 (Or.inr (hsid ▸ ho)))
        (fun o ho => by rw [hpid]; exact List.mem_append.2 (Or.inl (hc1id ▸ ho)))
        (fun o ho hcon => hdisj12 o (hc1id ▸ hcon) (hsid ▸ ho))
        (fun o ho => by
          rw [hpid] at ho
          rcases List.mem_append.1 ho with h1 | h1
          · right
            rw [hc1id]
            exact h1
          · left
            rw [hsid]
            exact h1) with hsib | hdesc
      · exact ⟨s, hs, p.key, hpar, p, hpL, rfl, k1, k2, hch',
          ⟨c1, hsib, hc1k⟩, ⟨s, hs, hsk⟩⟩
      · obtain ⟨t, ht, jq, hjq, hlt, hpart⟩ := hdesc
        exact ih jq hlt hjq t ht hpart

theorem exists_eligible {allObs : List String} {L : List Node} {opens : List NodeKey}
    (hf : ForestInv allObs L opens) (hopens : opens.length ≤ 1)
    {ret : List Node} (hR : RInv allObs L ret) (hlen : 2 ≤ ret.length) :
    ∃ nd ∈ ret, ∃ pk, nd.parent = some pk ∧ ∃ p ∈ L, p.key = pk ∧
      ∃ k1 k2, p.children = some (k1, k2) ∧
        (∃ r1 ∈ ret, r1.key = k1) ∧ (∃ r2 ∈ ret, r2.key = k2) := by
  have hparent : ∃ s ∈ ret, s.parent ≠ none := by
    have h0 : 0 < ret.length := by omega
    have h1 : 1 < ret.length := by omega
    have hs1 : ret.get ⟨0, h0⟩ ∈ ret := List.get_mem _ _ _
    have hs2 : ret.get ⟨1, h1⟩ ∈ ret := List.get_mem _ _ _
    have hne : ret.get ⟨0, h0⟩ ≠ ret.get ⟨1, h1⟩ := by
      intro hcon
      have hnd : ret.Nodup := hR.keys_nodup.of_map
      have h01 := congrArg Fin.val (List.nodup_iff_injective_get.1 hnd hcon)
      simp at h01
    by_contra hcon
    push_neg at hcon
    have hk1 : (ret.get ⟨0, h0⟩).key ∈ opens := by
      rw [hf.opens_eq]
      exact List.mem_map.2 ⟨ret.get ⟨0, h0⟩,
        List.mem_filter.2 ⟨hR.sub _ hs1,
          by simp only [decide_eq_true_eq]; exact hcon _ hs1⟩, rfl⟩
    have hk2 : (ret.get ⟨1, h1⟩).key ∈ opens := by
      rw [hf.opens_eq]
      exact List.mem_map.2 ⟨ret.get ⟨1, h1⟩,
        List.mem_filter.2 ⟨hR.sub _ hs2,
          by simp only [decide_eq_true_eq]; exact hcon _ hs2⟩, rfl⟩
    have hkne : (ret.get ⟨0, h0⟩).key ≠ (ret.get ⟨1, h1⟩).key := by
      intro hc
      exact hne (key_unique hf.keys_nodup _ (hR.sub _ hs1) _ (hR.sub _ hs2) hc)
    rcases opens with _ | ⟨k0, rest⟩
    · cases hk1
    · rcases rest with _ | ⟨k0', rest'⟩
      · simp only [List.mem_singleton] at hk1 hk2
        exact hkne (hk1.trans hk2.symm)
      · simp at hopens
  obtain ⟨s, hs, hsp⟩ := hparent
  cases hsp2 : s.parent with
  | none => exact absurd hsp2 hsp
  | some pk =>
    obtain ⟨p', hp'L, hp'key, _⟩ := hf.parent_spec s (hR.sub s hs) pk hsp2
    obtain ⟨⟨j, hj⟩, hgj⟩ := List.mem_iff_get.1 hp'L
    refine eligible_aux hf hR j hj s hs ?_
    rw [hgj, hp'key]
    exact hsp2

theorem rinv_init {allObs : List String} {L : List Node} {opens : List NodeKey}
    (hf : ForestInv allObs L opens) :
    RInv allObs L (L.filter (fun nd => nd.children = none)) := by
  refine { sub := ?_, keys_nodup := ?_, cover := ?_, disj := ?_ }
  · intro s hs
    exact (List.mem_filter.1 hs).1
  · exact ((List.filter_sublist L).map Node.key).nodup hf.keys_nodup
  · intro o ho
    obtain ⟨l, hl, hid⟩ := leaf_of_obs hf o ho
    exact ⟨l, hl, by rw [hid]; simp⟩
  · intro s hs t ht hne o hos hot
    obtain ⟨o1, _, hs1⟩ := obs_of_leaf hf s hs
    obtain ⟨o2, _, ht2⟩ := obs_of_leaf hf t ht
    rw [hs1, List.mem_singleton] at hos
    rw [ht2, List.mem_singleton] at hot
    refine hne (hf.sub_eq s (List.mem_filter.1 hs).1 t (List.mem_filter.1 ht).1 ?_ ?_)
    · intro o' ho'
      rw [hs1, List.mem_singleton] at ho'
      rw [ht2]
      exact List.mem_singleton.2 (ho'.trans (hos.symm.trans hot))
    · intro o' ho'
      rw [ht2, List.mem_singleton] at ho'
      rw [hs1]
      exact List.mem_singleton.2 (ho'.trans (hot.symm.trans hos))

theorem rinv_step {allObs : List String} {L : List Node} {opens : List NodeKey}
    (hf : ForestInv allObs L opens) {ret : List Node} (hR : RInv allObs L ret)
    {lo : Node} {k1 k2 : NodeKey} (hloL : lo ∈ L) (hch : lo.children = some (k1, k2))
    {r1 r2 : Node} (hr1 : r1 ∈ ret) (hr1k : r1.key = k1)
    (hr2 : r2 ∈ ret) (hr2k : r2.key = k2) :
    RInv allObs L (((ret.eraseP (fun r => decide (r.key = k1))).eraseP
        (fun r => decide (r.key = k2))) ++ [lo]) ∧
    (((ret.eraseP (fun r => decide (r.key = k1))).eraseP
        (fun r => decide (r.key = k2))) ++ [lo]).length + 1 = ret.length := by
  obtain ⟨hk12, hloid, hcc1, hcc2⟩ := hf.children_spec lo hloL k1 k2 hch
  obtain ⟨c1, hc1L, hc1k, _⟩ := hcc1
  obtain ⟨c2, hc2L, hc2k, _⟩ := hcc2
  have hr1id : r1.id = k1.id := congrArg NodeKey.id hr1k
  have hr2id : r2.id = k2.id := congrArg NodeKey.id hr2k
  have hk1ne : k1.id ≠ [] := by
    rw [← congrArg NodeKey.id hc1k]
    exact hf.ids_ne c1 hc1L
  have hk2ne : k2.id ≠ [] := by
    rw [← congrArg NodeKey.id hc2k]
    exact hf.ids_ne c2 hc2L
  have hr12 : r1 ≠ r2 := by
    intro hcon
    exact hk12 (by rw [← hr1k, hcon, hr2k])
  obtain ⟨hmem1, hlen1, hnd1⟩ := eraseP_key hR.keys_nodup hr1 hr1k
  have hr2e1 : r2 ∈ ret.eraseP (fun r => decide (r.key = k1)) :=
    (hmem1 r2).2 ⟨hr2, hr12.symm⟩
  obtain ⟨hmem2, hlen2, hnd2⟩ := eraseP_key hnd1 hr2e1 hr2k
  set e2 := (ret.eraseP (fun r => decide (r.key = k1))).eraseP
    (fun r => decide (r.key = k2)) with he2
  have hmE : ∀ x, x ∈ e2 ↔ x ∈ ret ∧ x ≠ r1 ∧ x ≠ r2 := by
    intro x
    rw [hmem2 x, hmem1 x]
    tauto
  have hloret : lo ∉ ret := by
    intro hcon
    have hlone : lo ≠ r1 := by
      intro hcon2
      have hids : k1.id ++ k2.id = k1.id := by rw [← hloid, hcon2, hr1id]
      have hlen := congrArg List.length hids
      rw [List.length_append] at hlen
      have hz : k2.id.length = 0 := by omega
      exact hk2ne (List.length_eq_zero.1 hz)
    obtain ⟨o1, ho1⟩ := List.exists_mem_of_ne_nil k1.id hk1ne
    have ho1r1 : o1 ∈ r1.id := by
      rw [hr1id]
      exact ho1
    have ho1lo : o1 ∈ lo.id := by
      rw [hloid]
      exact List.mem_append.2 (Or.inl ho1)
    exact hR.disj lo hcon r1 hr1 hlone o1 ho1lo ho1r1
  constructor
  · refine { sub := ?_, keys_nodup := ?_, cover := ?_, disj := ?_ }
    · intro x hx
      rcases List.mem_append.1 hx with hx | hx
      · exact hR.sub x ((hmE x).1 hx).1
      · rw [List.mem_singleton.1 hx]
        exact hloL
    · rw [List.map_append]
      refine List.Nodup.append hnd2 (by simp) ?_
      intro k hk hkin
      simp only [List.map_cons, List.map_nil, List.mem_singleton] at hkin
      obtain ⟨x, hx, hxk⟩ := List.mem_map.1 hk
      have hxret := (hmE x).1 hx
      have hxlo : x = lo := key_unique hf.keys_nodup x (hR.sub x hxret.1) lo hloL
        (by rw [hxk, hkin])
      exact hloret (hxlo ▸ hxret.1)
    · intro o ho
      obtain ⟨s, hs, hos⟩ := hR.cover o ho
      by_cases hs1 : s = r1
      · refine ⟨lo, List.mem_append.2 (Or.inr (by simp)), ?_⟩
        rw [hloid]
        exact List.mem_append.2 (Or.inl (by rw [← hr1id, ← hs1]; exact hos))
      · by_cases hs2 : s = r2
        · refine ⟨lo, List.mem_append.2 (Or.inr (by simp)), ?_⟩
          rw [hloid]
          exact List.mem_append.2 (Or.inr (by rw [← hr2id, ← hs2]; exact hos))
        · exact ⟨s, List.mem_append.2 (Or.inl ((hmE s).2 ⟨hs, hs1, hs2⟩)), hos⟩
    · intro x hx y hy hne o hox hoy
      rcases List.mem_append.1 hx with hx1 | hx1 <;>
        rcases List.mem_append.1 hy with hy1 | hy1
      · exact hR.disj x ((hmE x).1 hx1).1 y ((hmE y).1 hy1).1 hne o hox hoy
      · have hylo : y = lo := List.mem_singleton.1 hy1
        obtain ⟨hxret, hxr1, hxr2⟩ := (hmE x).1 hx1
        rw [hylo, hloid] at hoy
        rcases List.mem_append.1 hoy with h1 | h1
        · exact hR.disj x hxret r1 hr1 hxr1 o hox (by rw [hr1id]; exact h1)
        · exact hR.disj x hxret r2 hr2 hxr2 o hox (by rw [hr2id]; exact h1)
      · have hxlo : x = lo := List.mem_singleton.1 hx1
        obtain ⟨hyret, hyr1, hyr2⟩ := (hmE y).1 hy1
        rw [hxlo, hloid] at hox
        rcases List.mem_append.1 hox with h1 | h1
        · exact hR.disj y hyret r1 hr1 hyr1 o hoy (by rw [hr1id]; exact h1)
        · exact hR.disj y hyret r2 hr2 hyr2 o hoy (by rw [hr2id]; exact h1)
      · exact absurd ((List.mem_singleton.1 hx1).trans
          (List.mem_singleton.1 hy1).symm) hne
  · rw [List.length_append]
    simp only [List.length_cons, List.length_nil]
    omega

theorem nClustersLoop_succ (cs : List Node) (fuel : Nat) (n : Int) (ret : List Node) :
    nClustersLoop cs (fuel + 1) n ret =
      if (ret.length : Int) > n then
        match findLowest cs ret with
        | none => ret
        | some lo =>
          match lo.children with
          | none => ret
          | some (k1, k2) =>
            nClustersLoop cs fuel n
              (((ret.eraseP (fun r => decide (r.key = k1))).eraseP
                  (fun r => decide (r.key = k2))) ++ [lo])
      else ret := rfl

theorem nClustersLoop_run {allObs : List String} {L : List Node} {opens : List NodeKey}
    (hf : ForestInv allObs L opens) (hopens : opens.length ≤ 1) :
    ∀ (fuel : Nat) (n : Int) (ret : List Node), RInv allObs L ret → 1 ≤ n →
      (ret.length : Int) - n ≤ fuel →
      RInv allObs L (nClustersLoop L fuel n ret) ∧
      (n ≤ (ret.length : Int) → ((nClustersLoop L fuel n ret).length : Int) = n) ∧
      ((ret.length : Int) ≤ n → nClustersLoop L fuel n ret = ret) := by
  intro fuel
  induction fuel with
  | zero =>
    intro n ret hR hn hfuel
    have h0 : nClustersLoop L 0 n ret = ret := rfl
    rw [h0]
    refine ⟨hR, ?_, fun _ => rfl⟩
    intro hle
    omega
  | succ fuel ih =>
    intro n ret hR hn hfuel
    by_cases hg : (ret.length : Int) > n
    · have hlen2 : 2 ≤ ret.length := by omega
      obtain ⟨nd, hnd, pk, hpar2, p, hpL, hpkey, k1, k2, hch,
        ⟨r1, hr1, hr1k⟩, ⟨r2, hr2, hr2k⟩⟩ := exists_eligible hf hopens hR hlen2
      have hsome : (L.find? (fun r => decide (r.key = pk))).isSome :=
        List.find?_isSome.2 ⟨p, hpL, decide_eq_true hpkey⟩
      obtain ⟨q, hq⟩ := Option.isSome_iff_exists.1 hsome
      have hqL : q ∈ L := List.mem_of_find?_eq_some hq
      have hqkey : q.key = pk := by
        have := List.find?_some hq
        simpa using this
      have hqp : q = p := key_unique hf.keys_nodup q hqL p hpL (hqkey.trans hpkey.symm)
      have hwit : (findLowest L ret).isSome = true := by
        unfold findLowest
        refine findLowest_isSome ret none
          (Or.inr ⟨nd, hnd, pk, hpar2, q, hq, k1, k2, ?_, ?_, ?_⟩)
        · rw [hqp]
          exact hch
        · exact List.any_eq_true.2 ⟨r1, hr1, decide_eq_true hr1k⟩
        · exact List.any_eq_true.2 ⟨r2, hr2, decide_eq_true hr2k⟩
      obtain ⟨lo, hlo⟩ := Option.isSome_iff_exists.1 hwit
      have hloprop := findLowest_sound ret none (by intro l hl; cases hl) lo
        (by unfold findLowest at hlo; exact hlo)
      obtain ⟨hloL, k1', k2', hch', ⟨r1', hr1', hr1k'⟩, ⟨r2', hr2', hr2k'⟩⟩ := hloprop
      obtain ⟨hR', hlen'⟩ := rinv_step hf hR hloL hch' hr1' hr1k' hr2' hr2k'
      have hstep : nClustersLoop L (fuel + 1) n ret =
          nClustersLoop L fuel n (((ret.eraseP (fun r => decide (r.key = k1'))).eraseP
              (fun r => decide (r.key = k2'))) ++ [lo]) := by
        rw [nClustersLoop_succ, if_pos hg]
        simp only [hlo, hch']
      rw [hstep]
      have hfuel' : ((((ret.eraseP (fun r => decide (r.key = k1'))).eraseP
          (fun r => decide (r.key = k2'))) ++ [lo]).length : Int) - n ≤ fuel := by
        omega
      obtain ⟨ihR, ihlen, iheq⟩ := ih n _ hR' hn hfuel'
      refine ⟨ihR, ?_, ?_⟩
      · intro _
        refine ihlen ?_
        omega
      · intro hle
        exact absurd hg (by omega)
    · have heq : nClustersLoop L (fuel + 1) n ret = ret := by
        rw [nClustersLoop_succ, if_neg hg]
      rw [heq]
      refine ⟨hR, ?_, fun _ => rfl⟩
      intro hle
      omega

theorem leaves_length {allObs : List String} {L : List Node} {opens : List NodeKey}
    (hf : ForestInv allObs L opens) :
    (L.filter (fun nd => nd.children = none)).length = allObs.length := by
  have h := congrArg List.length hf.leaves_eq
  simpa using h

/-- C4: on a built dendrogram over `N ≥ 1` observations, `n_clusters(k)`
returns exactly `k` groups for every `1 ≤ k ≤ N`; `n_clusters(1)` returns a
single tuple holding every original observation; and for `k ≥ N` the result
is exactly the leaf list. -/
theorem claim_C4 (dm : DistanceMatrix String) (crit : Criterion) (hdm : WFdm dm)
    (hN : 1 ≤ dm.obs.length) :
    (∀ k : Int, 1 ≤ k → k ≤ (dm.obs.length : Int) →
      ∃ groups, (build dm crit).n_clusters k = some groups ∧
        (groups.length : Int) = k) ∧
    (∃ g, (build dm crit).n_clusters 1 = some [g] ∧ g.Perm dm.obs) ∧
    (∀ k : Int, (dm.obs.length : Int) ≤ k →
      (build dm crit).n_clusters k = some (build dm crit).leaves) := by
  obtain ⟨hinv, hlen1⟩ := build_inv hdm crit
  have hf := built_forest hdm.1 hinv.built
  have hlv : (build dm crit).leavesRecs.length = dm.obs.length := leaves_length hf
  have hR0 : RInv dm.obs (build dm crit).clusters (build dm crit).leavesRecs :=
    rinv_init hf
  have hNle : (build dm crit).leavesRecs.length ≤ (build dm crit).clusters.length :=
    List.Sublist.length_le (List.filter_sublist _)
  have hrun := nClustersLoop_run hf hlen1
  refine ⟨?_, ?_, ?_⟩
  · intro k hk1 hkN
    obtain ⟨_, hlen, _⟩ := hrun (build dm crit).clusters.length k
      (build dm crit).leavesRecs hR0 hk1 (by omega)
    refine ⟨(nClustersLoop (build dm crit).clusters (build dm crit).clusters.length k
        (build dm crit).leavesRecs).map Node.id, ?_, ?_⟩
    · unfold HClust.n_clusters
      rw [if_neg (by omega)]
    · rw [List.length_map]
      exact hlen (by omega)
  · obtain ⟨hRr, hlen, _⟩ := hrun (build dm crit).clusters.length 1
      (build dm crit).leavesRecs hR0 (by omega) (by omega)
    have hone : (nClustersLoop (build dm crit).clusters (build dm crit).clusters.length 1
        (build dm crit).leavesRecs).length = 1 := by
      have h2 := hlen (by omega)
      omega
    obtain ⟨s, hseq⟩ := List.length_eq_one.1 hone
    refine ⟨s.id, ?_, ?_⟩
    · unfold HClust.n_clusters
      rw [if_neg (by omega), hseq]
      rfl
    · have hsmem : s ∈ nClustersLoop (build dm crit).clusters
          (build dm crit).clusters.length 1 (build dm crit).leavesRecs := by
        rw [hseq]
        simp
      have hsL := hRr.sub s hsmem
      refine (List.perm_ext_iff_of_nodup (hf.ids_nodup s hsL) hdm.1).2 ?_
      intro o
      constructor
      · intro ho
        exact hf.ids_sub s hsL o ho
      · intro ho
        obtain ⟨t, ht, hot⟩ := hRr.cover o ho
        have hts : t = s := by
          rw [hseq] at ht
          exact List.mem_singleton.1 ht
        rw [← hts]
        exact hot
  · intro k hkN
    obtain ⟨_, _, heq⟩ := hrun (build dm crit).clusters.length k
      (build dm crit).leavesRecs hR0 (by omega) (by omega)
    unfold HClust.n_clusters
    rw [if_neg (by omega), heq (by omega)]
    rfl

theorem claim_C4_witness :
    WFdm smallDM ∧ 1 ≤ smallDM.obs.length ∧
    ((∀ k : Int, 1 ≤ k → k ≤ (smallDM.obs.length : Int) →
      ∃ groups, (build smallDM Criterion.average).n_clusters k = some groups ∧
        (groups.length : Int) = k) ∧
    (∃ g, (build smallDM Criterion.average).n_clusters 1 = some [g] ∧
      g.Perm smallDM.obs) ∧
    (∀ k : Int, (smallDM.obs.length : Int) ≤ k →
      (build smallDM Criterion.average).n_clusters k
        = some (build smallDM Criterion.average).leaves)) :=
  ⟨by decide, by decide, claim_C4 smallDM Criterion.average (by decide) (by decide)⟩
